import Mathlib

set_option maxHeartbeats 1000000

namespace Capsulizer

/-! # Data model

The pipeline manipulates JSON values (output of `JSON.parse`, input of
`JSON.stringify`).  JavaScript numbers are IEEE doubles; every number the
pipeline manipulates (prices, counters, thresholds) is an exact decimal, so
numbers are modelled as exact decimals `m / 10^e`. -/

/-- Decimal number: mantissa `m` and decimal exponent `e`, denoting `m / 10^e`.
`⟨250, 2⟩` denotes `2.50`, `⟨5, 0⟩` denotes `5`. -/
structure JNum where
  m : Int
  e : Nat
deriving DecidableEq

/-- Rational value of a decimal. -/
def JNum.val (n : JNum) : ℚ := (n.m : ℚ) / ((10 : ℚ) ^ n.e)

/-- JSON value tree.  Objects are association lists in JavaScript insertion
order (JS objects preserve key insertion order and have no duplicate keys). -/
inductive Json where
  | null : Json
  | bool : Bool → Json
  | num : JNum → Json
  | str : String → Json
  | arr : List Json → Json
  | obj : List (String × Json) → Json

/- Structural size, used as a termination measure. -/
mutual

def jsize : Json → Nat
  | .null => 1
  | .bool _ => 1
  | .num _ => 1
  | .str _ => 1
  | .arr xs => 1 + jsizeL xs
  | .obj fs => 1 + jsizeF fs

def jsizeL : List Json → Nat
  | [] => 0
  | x :: xs => 1 + jsize x + jsizeL xs

def jsizeF : List (String × Json) → Nat
  | [] => 0
  | f :: fs => 1 + jsize f.2 + jsizeF fs

end

/- Boolean structural equality on JSON trees. -/
mutual

def jsonBEq : Json → Json → Bool
  | .null, .null => true
  | .bool x, .bool y => x = y
  | .num x, .num y => x = y
  | .str x, .str y => x = y
  | .arr xs, .arr ys => jsonBEqL xs ys
  | .obj fs, .obj gs => jsonBEqF fs gs
  | _, _ => false

def jsonBEqL : List Json → List Json → Bool
  | [], [] => true
  | x :: xs, y :: ys => jsonBEq x y && jsonBEqL xs ys
  | _, _ => false

def jsonBEqF : List (String × Json) → List (String × Json) → Bool
  | [], [] => true
  | (k, v) :: fs, (k', v') :: gs => k = k' && (jsonBEq v v' && jsonBEqF fs gs)
  | _, _ => false

end

mutual

theorem jsonBEq_eq : ∀ a b : Json, jsonBEq a b = true → a = b
  | .null, .null, _ => rfl
  | .bool _, .bool _, h => by
      simp only [jsonBEq, decide_eq_true_eq] at h; rw [h]
  | .num _, .num _, h => by
      simp only [jsonBEq, decide_eq_true_eq] at h; rw [h]
  | .str _, .str _, h => by
      simp only [jsonBEq, decide_eq_true_eq] at h; rw [h]
  | .arr xs, .arr ys, h => by
      rw [jsonBEqL_eq xs ys h]
  | .obj fs, .obj gs, h => by
      rw [jsonBEqF_eq fs gs h]

theorem jsonBEqL_eq : ∀ xs ys : List Json, jsonBEqL xs ys = true → xs = ys
  | [], [], _ => rfl
  | x :: xs, y :: ys, h => by
      simp only [jsonBEqL, Bool.and_eq_true] at h
      rw [jsonBEq_eq x y h.1, jsonBEqL_eq xs ys h.2]

theorem jsonBEqF_eq : ∀ fs gs : List (String × Json), jsonBEqF fs gs = true → fs = gs
  | [], [], _ => rfl
  | (k, v) :: fs, (k', v') :: gs, h => by
      simp only [jsonBEqF, Bool.and_eq_true, decide_eq_true_eq] at h
      rw [h.1, jsonBEq_eq v v' h.2.1, jsonBEqF_eq fs gs h.2.2]

end

/-! ## Object (association list) primitives, mirroring JS property access -/

/-- JS property read `o[k]`: first entry with key `k` (objects have unique
keys, so "first" is immaterial on well-formed values). `none` = `undefined`. -/
def getKey (fs : List (String × Json)) (k : String) : Option Json :=
  match fs with
  | [] => none
  | (k', v) :: fs => if k = k' then some v else getKey fs k

/-- JS property write `o[k] = v`: updates the value in place if the key
exists (keeping its insertion position), otherwise appends the key. -/
def setKey (fs : List (String × Json)) (k : String) (v : Json) :
    List (String × Json) :=
  match fs with
  | [] => [(k, v)]
  | (k', v') :: fs => if k = k' then (k', v) :: fs else (k', v') :: setKey fs k v

/-- JS `delete o[k]`. -/
def delKey (fs : List (String × Json)) (k : String) : List (String × Json) :=
  fs.filter (fun f => decide (f.1 ≠ k))

/-- Apply `f` to the value at `k` when the key is present; no-op otherwise. -/
def modifyKey (fs : List (String × Json)) (k : String) (f : Json → Json) :
    List (String × Json) :=
  fs.map (fun kv => if kv.1 = k then (kv.1, f kv.2) else kv)

/-- JS truthiness of a JSON value (`null`, `false`, `0`, `""` are falsy;
arrays and objects are always truthy). -/
def jsTruthy : Json → Bool
  | .null => false
  | .bool b => b
  | .num n => n.m ≠ 0
  | .str s => s ≠ ""
  | .arr _ => true
  | .obj _ => true

/-- `o[k]` is present and truthy. -/
def truthyKey (fs : List (String × Json)) (k : String) : Bool :=
  match getKey fs k with
  | some v => jsTruthy v
  | none => false

/-- Keys of an object, in insertion order. -/
def keysOf (fs : List (String × Json)) : List String := fs.map Prod.fst

/- Well-formedness: every object node has pairwise-distinct keys (invariant of
JS objects, which cannot carry duplicate keys). -/
mutual

def wfJ : Json → Bool
  | .null => true
  | .bool _ => true
  | .num _ => true
  | .str _ => true
  | .arr xs => wfJL xs
  | .obj fs => (keysOf fs).Nodup && wfJF fs

def wfJL : List Json → Bool
  | [] => true
  | x :: xs => wfJ x && wfJL xs

def wfJF : List (String × Json) → Bool
  | [] => true
  | (_, v) :: fs => wfJ v && wfJF fs

end

/-! ## Serialization (`JSON.stringify`)

`normalize.js` fingerprints `JSON.stringify(obj)`; the deterministic
canonicalizer in `worker.js` sorts arrays by the lexicographic order of each
element's `JSON.stringify`.  We model the default (no-spacing) stringify.
Control characters are escaped like `JSON.stringify` does; the injectivity
lemmas below are proved for values whose strings contain no control
characters (`cleanJ`), which covers every value the pipeline produces. -/

/-- Character of a decimal digit `n < 10`. -/
def digitChar (n : Nat) : Char := Char.ofNat (48 + n)

/-- ASCII digit test. -/
def isDigitC (c : Char) : Bool := 48 ≤ c.toNat && c.toNat ≤ 57

/-- Decimal digits of a natural number, most significant first (`"0"` for 0). -/
def natDigits (n : Nat) : List Char :=
  if _h : n < 10 then [digitChar n]
  else natDigits (n / 10) ++ [digitChar (n % 10)]
termination_by n
decreasing_by omega

/-- Read a digit string back into a number (left fold). -/
def decodeDigits (ds : List Char) : Nat :=
  ds.foldl (fun a c => 10 * a + (c.toNat - 48)) 0

theorem digitChar_toNat (n : Nat) (h : n < 10) : (digitChar n).toNat = 48 + n := by
  interval_cases n <;> decide

theorem isDigitC_digitChar (n : Nat) (h : n < 10) : isDigitC (digitChar n) = true := by
  interval_cases n <;> decide

theorem decodeDigits_append (ds : List Char) (c : Char) :
    decodeDigits (ds ++ [c]) = 10 * decodeDigits ds + (c.toNat - 48) := by
  simp [decodeDigits, List.foldl_append]

theorem natDigits_ne_nil (n : Nat) : natDigits n ≠ [] := by
  rw [natDigits]
  split <;> simp

theorem natDigits_digits (n : Nat) : ∀ c ∈ natDigits n, isDigitC c = true := by
  induction n using natDigits.induct with
  | case1 n h =>
    rw [natDigits]
    simp only [h, dite_true, List.mem_singleton]
    intro c hc
    subst hc
    exact isDigitC_digitChar n h
  | case2 n h ih =>
    rw [natDigits]
    simp only [h, dite_false, List.mem_append, List.mem_singleton]
    intro c hc
    rcases hc with hc | hc
    · exact ih c hc
    · subst hc
      exact isDigitC_digitChar _ (Nat.mod_lt _ (by omega))

theorem decodeDigits_natDigits (n : Nat) : decodeDigits (natDigits n) = n := by
  induction n using natDigits.induct with
  | case1 n h =>
    rw [natDigits]
    simp only [h, dite_true]
    simp [decodeDigits, digitChar_toNat n h]
  | case2 n h ih =>
    rw [natDigits]
    simp only [h, dite_false]
    rw [decodeDigits_append, ih, digitChar_toNat _ (Nat.mod_lt _ (by omega))]
    omega

theorem decodeDigits_replicate_zero (k : Nat) (ds : List Char) :
    decodeDigits (List.replicate k '0' ++ ds) = decodeDigits ds := by
  induction k with
  | zero => simp
  | succ k ih =>
    have : List.replicate (k + 1) '0' ++ ds = '0' :: (List.replicate k '0' ++ ds) := by
      simp [List.replicate_succ]
    rw [this]
    simpa [decodeDigits] using ih

/-- Digits of `m`, left-padded with zeros to length at least `e + 1`. -/
def padDigits (m e : Nat) : List Char :=
  List.replicate (e + 1 - (natDigits m).length) '0' ++ natDigits m

theorem padDigits_digits (m e : Nat) : ∀ c ∈ padDigits m e, isDigitC c = true := by
  intro c hc
  rcases List.mem_append.1 hc with h | h
  · rw [List.eq_of_mem_replicate h]; decide
  · exact natDigits_digits m c h

theorem padDigits_length (m e : Nat) : e + 1 ≤ (padDigits m e).length := by
  have h0 : 0 < (natDigits m).length := List.length_pos.2 (natDigits_ne_nil m)
  simp only [padDigits, List.length_append, List.length_replicate]
  omega

theorem decodeDigits_padDigits (m e : Nat) : decodeDigits (padDigits m e) = m := by
  rw [padDigits, decodeDigits_replicate_zero, decodeDigits_natDigits]

/-- `JSON.stringify` rendering of the decimal `m / 10^e` (digits padded so a
digit always precedes the decimal point, as JS number printing does). -/
def renderNum (j : JNum) : List Char :=
  let ds := padDigits j.m.natAbs j.e
  let sign : List Char := if j.m < 0 then ['-'] else []
  if j.e = 0 then sign ++ ds
  else sign ++ (ds.take (ds.length - j.e) ++ '.' :: ds.drop (ds.length - j.e))

/-- Read a (sign-free) rendered decimal back. -/
def decodeNumAbs (cs : List Char) : Option JNum :=
  if cs.takeWhile isDigitC = [] then none
  else if cs.dropWhile isDigitC = [] then some ⟨decodeDigits (cs.takeWhile isDigitC), 0⟩
  else if (cs.dropWhile isDigitC).head? = some '.' ∧ (cs.dropWhile isDigitC).tail ≠ [] ∧
      (∀ x ∈ (cs.dropWhile isDigitC).tail, isDigitC x = true) then
    some ⟨decodeDigits (cs.takeWhile isDigitC ++ (cs.dropWhile isDigitC).tail),
      (cs.dropWhile isDigitC).tail.length⟩
  else none

/-- Read a rendered decimal back (sign included). -/
def decodeNum (cs : List Char) : Option JNum :=
  match cs with
  | [] => none
  | c :: rest =>
      if c = '-' then (decodeNumAbs rest).map (fun j => ⟨-j.m, j.e⟩)
      else decodeNumAbs (c :: rest)

theorem takeWhile_append_stop {p : Char → Bool} (ds r : List Char)
    (hds : ∀ c ∈ ds, p c = true) (hr : ∀ c t, r = c :: t → p c = false) :
    (ds ++ r).takeWhile p = ds ∧ (ds ++ r).dropWhile p = r := by
  induction ds with
  | nil =>
    cases r with
    | nil => simp
    | cons c t =>
      simp [List.takeWhile, List.dropWhile, hr c t rfl]
  | cons d ds ih =>
    have hd : p d = true := hds d (by simp)
    have ih' := ih (fun c hc => hds c (by simp [hc]))
    simp [List.takeWhile, List.dropWhile, hd, ih'.1, ih'.2]

theorem decodeNumAbs_of_digits (ds : List Char) (hds : ∀ c ∈ ds, isDigitC c = true)
    (hne : ds ≠ []) : decodeNumAbs ds = some ⟨decodeDigits ds, 0⟩ := by
  have h := takeWhile_append_stop (p := isDigitC) ds [] hds (by intro c t h; cases h)
  simp only [List.append_nil] at h
  simp only [decodeNumAbs, h.1, h.2, if_neg hne]
  simp

theorem decodeNum_renderNum (j : JNum) : decodeNum (renderNum j) = some j := by
  obtain ⟨m, e⟩ := j
  have hpadd := padDigits_digits m.natAbs e
  have hpadlen := padDigits_length m.natAbs e
  have hpadne : padDigits m.natAbs e ≠ [] := by
    intro h
    rw [h] at hpadlen
    simp at hpadlen
  by_cases he : e = 0
  · subst he
    have habs : decodeNumAbs (padDigits m.natAbs 0) =
        some ⟨decodeDigits (padDigits m.natAbs 0), 0⟩ :=
      decodeNumAbs_of_digits _ hpadd hpadne
    rw [decodeDigits_padDigits] at habs
    by_cases hm : m < 0
    · have hr : renderNum ⟨m, 0⟩ = '-' :: padDigits m.natAbs 0 := by
        simp [renderNum, hm]
      rw [hr]
      have hstep : decodeNum ('-' :: padDigits m.natAbs 0) =
          (decodeNumAbs (padDigits m.natAbs 0)).map (fun j => ⟨-j.m, j.e⟩) := rfl
      rw [hstep, habs]
      simp only [Option.map_some', Option.some.injEq, JNum.mk.injEq]
      exact ⟨by omega, trivial⟩
    · have hr : renderNum ⟨m, 0⟩ = padDigits m.natAbs 0 := by
        simp [renderNum, hm]
      obtain ⟨c, t, hct⟩ : ∃ c t, padDigits m.natAbs 0 = c :: t := by
        cases h : padDigits m.natAbs 0 with
        | nil => exact absurd h hpadne
        | cons c t => exact ⟨c, t, rfl⟩
      have hcdig : isDigitC c = true := hpadd c (by rw [hct]; simp)
      have hcne : ¬ c = '-' := by
        intro h
        rw [h] at hcdig
        simp [isDigitC] at hcdig
      rw [hr, hct]
      have hstep : decodeNum (c :: t) =
          if c = '-' then (decodeNumAbs t).map (fun j => ⟨-j.m, j.e⟩)
          else decodeNumAbs (c :: t) := rfl
      rw [hstep, if_neg hcne, ← hct, habs]
      simp only [Option.some.injEq, JNum.mk.injEq]
      exact ⟨by omega, trivial⟩
  · -- fractional rendering
    set ds := padDigits m.natAbs e with hds
    set ip := ds.take (ds.length - e) with hip
    set fr := ds.drop (ds.length - e) with hfr
    have hiplen : ip.length = ds.length - e := by
      rw [hip, List.length_take]
      omega
    have hipne : ip ≠ [] := by
      intro h
      have h2 := congrArg List.length h
      rw [hiplen] at h2
      simp at h2
      omega
    have hfrlen : fr.length = e := by
      rw [hfr, List.length_drop]
      omega
    have hfrne : fr ≠ [] := by
      intro h
      have h2 := congrArg List.length h
      rw [hfrlen] at h2
      simp at h2
      omega
    have hipdig : ∀ c ∈ ip, isDigitC c = true := by
      intro c hc
      exact hpadd c (List.mem_of_mem_take hc)
    have hfrdig : ∀ c ∈ fr, isDigitC c = true := by
      intro c hc
      exact hpadd c (List.mem_of_mem_drop hc)
    have hsplit := takeWhile_append_stop (p := isDigitC) ip ('.' :: fr) hipdig
      (by intro c t h; rw [List.cons.injEq] at h; rw [← h.1]; decide)
    have hid : ip ++ fr = ds := by rw [hip, hfr]; exact List.take_append_drop _ _
    have habs : decodeNumAbs (ip ++ '.' :: fr) = some ⟨decodeDigits ds, e⟩ := by
      simp only [decodeNumAbs, hsplit.1, hsplit.2, if_neg hipne]
      rw [if_neg (by simp), if_pos ⟨rfl, hfrne, hfrdig⟩]
      simp only [List.tail_cons]
      rw [hid, hfrlen]
    rw [decodeDigits_padDigits] at habs
    by_cases hm : m < 0
    · have hr : renderNum ⟨m, e⟩ = '-' :: (ip ++ '.' :: fr) := by
        simp [renderNum, hm, he, hip, hfr, hds]
      rw [hr]
      have hstep : decodeNum ('-' :: (ip ++ '.' :: fr)) =
          (decodeNumAbs (ip ++ '.' :: fr)).map (fun j => ⟨-j.m, j.e⟩) := rfl
      rw [hstep, habs]
      simp only [Option.map_some', Option.some.injEq, JNum.mk.injEq]
      exact ⟨by omega, trivial⟩
    · have hr : renderNum ⟨m, e⟩ = ip ++ '.' :: fr := by
        simp [renderNum, hm, he, hip, hfr, hds]
      obtain ⟨c, t, hct⟩ : ∃ c t, ip = c :: t := by
        cases h : ip with
        | nil => exact absurd h hipne
        | cons c t => exact ⟨c, t, rfl⟩
      have hcdig : isDigitC c = true := hipdig c (by rw [hct]; simp)
      have hcne : ¬ c = '-' := by
        intro h
        rw [h] at hcdig
        simp [isDigitC] at hcdig
      rw [hr, hct, List.cons_append]
      have hstep : decodeNum (c :: (t ++ '.' :: fr)) =
          if c = '-' then (decodeNumAbs (t ++ '.' :: fr)).map (fun j => ⟨-j.m, j.e⟩)
          else decodeNumAbs (c :: (t ++ '.' :: fr)) := rfl
      rw [hstep, if_neg hcne, ← List.cons_append, ← hct, habs]
      simp only [Option.some.injEq, JNum.mk.injEq]
      exact ⟨by omega, trivial⟩

theorem renderNum_inj {a b : JNum} (h : renderNum a = renderNum b) : a = b := by
  have ha := decodeNum_renderNum a
  have hb := decodeNum_renderNum b
  rw [h, hb] at ha
  exact (Option.some.inj ha).symm

/-- Lower-case hex digit. -/
def hexDigit (n : Nat) : Char :=
  if n < 10 then digitChar n else Char.ofNat (97 + n - 10)

/-- Escape one character as `JSON.stringify` does inside string literals. -/
def escChar (c : Char) : List Char :=
  if c = '"' then ['\\', '"']
  else if c = '\\' then ['\\', '\\']
  else if c = Char.ofNat 8 then ['\\', 'b']
  else if c = Char.ofNat 9 then ['\\', 't']
  else if c = Char.ofNat 10 then ['\\', 'n']
  else if c = Char.ofNat 12 then ['\\', 'f']
  else if c = Char.ofNat 13 then ['\\', 'r']
  else if c.toNat < 32 then
    ['\\', 'u', '0', '0', hexDigit (c.toNat / 16), hexDigit (c.toNat % 16)]
  else [c]

/-- Escape a string body. -/
def escape : List Char → List Char
  | [] => []
  | c :: cs => escChar c ++ escape cs

/-- Printable character (no control characters, so only the `"` and `\`
escapes can fire).  Every string the pipeline produces is clean. -/
def cleanChar (c : Char) : Bool := 32 ≤ c.toNat

def cleanStr (s : String) : Bool := s.data.all cleanChar

/- Cleanliness of a whole JSON tree (strings and keys). -/
mutual

def cleanJ : Json → Bool
  | .null => true
  | .bool _ => true
  | .num _ => true
  | .str s => cleanStr s
  | .arr xs => cleanJL xs
  | .obj fs => cleanJF fs

def cleanJL : List Json → Bool
  | [] => true
  | x :: xs => cleanJ x && cleanJL xs

def cleanJF : List (String × Json) → Bool
  | [] => true
  | f :: fs => cleanStr f.1 && (cleanJ f.2 && cleanJF fs)

end

/- `JSON.stringify` with default options (no spacing), as a character list.
`serIn`/`serRest` render array elements, `serFs`/`serFRest` object fields. -/
mutual

def serL : Json → List Char
  | .null => 'n' :: ['u', 'l', 'l']
  | .bool true => 't' :: ['r', 'u', 'e']
  | .bool false => 'f' :: ['a', 'l', 's', 'e']
  | .num j => renderNum j
  | .str s => '"' :: escape s.data ++ ['"']
  | .arr xs => '[' :: serIn xs ++ [']']
  | .obj fs => '{' :: serFs fs ++ ['}']

def serIn : List Json → List Char
  | [] => []
  | x :: xs => serL x ++ serRest xs

def serRest : List Json → List Char
  | [] => []
  | x :: xs => ',' :: serL x ++ serRest xs

def serFs : List (String × Json) → List Char
  | [] => []
  | f :: fs => ('"' :: escape f.1.data ++ '"' :: ':' :: serL f.2) ++ serFRest fs

def serFRest : List (String × Json) → List Char
  | [] => []
  | f :: fs => ',' :: ('"' :: escape f.1.data ++ '"' :: ':' :: serL f.2) ++ serFRest fs

end

/-- `JSON.stringify(obj)` (`normalize.js` serializes the object before
hashing, `worker.js` before comparing). -/
def stringify (j : Json) : String := String.mk (serL j)

/-! ### Serialization is injective on clean values

Proved through prefix-freeness: a serialized value followed by a terminator
(`,`, `]`, `}` or end of input) determines the value and the rest. -/

theorem escape_cons_clean (c : Char) (cs : List Char) (h : cleanChar c = true) :
    escape (c :: cs) =
      (if c = '"' ∨ c = '\\' then ['\\', c] else [c]) ++ escape cs := by
  have h32 : 32 ≤ c.toNat := by simpa [cleanChar] using h
  by_cases h1 : c = '"'
  · simp [escape, escChar, h1]
  · by_cases h2 : c = '\\'
    · simp [escape, escChar, h1, h2]
    · have hb : ∀ d : Char, d.toNat < 32 → ¬ c = d := by
        intro d hd he
        rw [he] at h32
        omega
      simp only [escape, escChar, if_neg h1, if_neg h2,
        if_neg (hb (Char.ofNat 8) (by decide)), if_neg (hb (Char.ofNat 9) (by decide)),
        if_neg (hb (Char.ofNat 10) (by decide)), if_neg (hb (Char.ofNat 12) (by decide)),
        if_neg (hb (Char.ofNat 13) (by decide)), if_neg (by omega : ¬ c.toNat < 32)]
      simp [h1, h2]

theorem escape_split : ∀ a b r s : List Char,
    (∀ c ∈ a, cleanChar c = true) → (∀ c ∈ b, cleanChar c = true) →
    escape a ++ '"' :: r = escape b ++ '"' :: s → a = b ∧ r = s := by
  intro a
  induction a with
  | nil =>
    intro b r s _ hb h
    cases b with
    | nil => simpa [escape] using h
    | cons c bs =>
      rw [escape, escape_cons_clean c bs (hb c (by simp))] at h
      by_cases hc : c = '"' ∨ c = '\\'
      · rw [if_pos hc] at h
        simp only [List.cons_append, List.nil_append, List.cons.injEq] at h
        exact absurd h.1.symm (by decide)
      · rw [if_neg hc] at h
        simp only [List.cons_append, List.nil_append, List.cons.injEq] at h
        push_neg at hc
        exact absurd h.1.symm hc.1
  | cons c as ih =>
    intro b r s ha hb h
    cases b with
    | nil =>
      rw [escape, escape_cons_clean c as (ha c (by simp))] at h
      by_cases hc : c = '"' ∨ c = '\\'
      · rw [if_pos hc] at h
        simp only [List.cons_append, List.nil_append, List.cons.injEq] at h
        exact absurd h.1 (by decide)
      · rw [if_neg hc] at h
        simp only [List.cons_append, List.nil_append, List.cons.injEq] at h
        push_neg at hc
        exact absurd h.1 hc.1
    | cons c' bs =>
      rw [escape_cons_clean c as (ha c (by simp)),
        escape_cons_clean c' bs (hb c' (by simp))] at h
      have ha' : ∀ x ∈ as, cleanChar x = true := fun x hx => ha x (by simp [hx])
      have hb' : ∀ x ∈ bs, cleanChar x = true := fun x hx => hb x (by simp [hx])
      by_cases hc : c = '"' ∨ c = '\\'
      · by_cases hc' : c' = '"' ∨ c' = '\\'
        · rw [if_pos hc, if_pos hc'] at h
          simp only [List.cons_append, List.cons.injEq, List.nil_append] at h
          obtain ⟨-, hce, h⟩ := h
          obtain ⟨hae, hre⟩ := ih bs r s ha' hb' h
          exact ⟨by rw [hce, hae], hre⟩
        · rw [if_pos hc, if_neg hc'] at h
          simp only [List.cons_append, List.cons.injEq, List.nil_append] at h
          push_neg at hc'
          exact absurd h.1.symm hc'.2
      · by_cases hc' : c' = '"' ∨ c' = '\\'
        · rw [if_neg hc, if_pos hc'] at h
          simp only [List.cons_append, List.cons.injEq, List.nil_append] at h
          push_neg at hc
          exact absurd h.1 hc.2
        · rw [if_neg hc, if_neg hc'] at h
          simp only [List.cons_append, List.cons.injEq, List.nil_append] at h
          obtain ⟨hae, hre⟩ := ih bs r s ha' hb' h.2
          exact ⟨by rw [h.1, hae], hre⟩

/-- Characters a rendered number can contain. -/
def numChar (c : Char) : Bool := isDigitC c || decide (c = '-') || decide (c = '.')

theorem token_split : ∀ t1 t2 r s : List Char,
    (∀ c ∈ t1, numChar c = true) → (∀ c ∈ t2, numChar c = true) →
    (∀ c t, r = c :: t → numChar c = false) → (∀ c t, s = c :: t → numChar c = false) →
    t1 ++ r = t2 ++ s → t1 = t2 ∧ r = s := by
  intro t1
  induction t1 with
  | nil =>
    intro t2 r s _ h2 hr _ h
    cases t2 with
    | nil => exact ⟨rfl, by simpa using h⟩
    | cons c t =>
      simp only [List.nil_append, List.cons_append] at h
      have hcn := h2 c (by simp)
      rw [hr c _ h] at hcn
      exact Bool.noConfusion hcn
  | cons c t1 ih =>
    intro t2 r s h1 h2 hr hs h
    cases t2 with
    | nil =>
      simp only [List.cons_append, List.nil_append] at h
      have hcn := h1 c (by simp)
      rw [hs c _ h.symm] at hcn
      exact Bool.noConfusion hcn
    | cons c' t2 =>
      simp only [List.cons_append, List.cons.injEq] at h
      obtain ⟨hc, h⟩ := h
      obtain ⟨he, hre⟩ := ih t2 r s (fun x hx => h1 x (by simp [hx]))
        (fun x hx => h2 x (by simp [hx])) hr hs h
      exact ⟨by rw [hc, he], hre⟩

theorem renderNum_numChar (j : JNum) : ∀ c ∈ renderNum j, numChar c = true := by
  intro c hc
  have hdig : ∀ x ∈ padDigits j.m.natAbs j.e, numChar x = true := by
    intro x hx
    simp [numChar, padDigits_digits j.m.natAbs j.e x hx]
  simp only [renderNum] at hc
  split_ifs at hc
  · rcases List.mem_append.1 hc with hc | hc
    · rw [List.mem_singleton.1 hc]; decide
    · exact hdig c hc
  · rw [List.nil_append] at hc
    exact hdig c hc
  · rcases List.mem_append.1 hc with hc | hc
    · rw [List.mem_singleton.1 hc]; decide
    · rcases List.mem_append.1 hc with hc | hc
      · exact hdig c (List.mem_of_mem_take hc)
      · rcases List.mem_cons.1 hc with hc | hc
        · rw [hc]; decide
        · exact hdig c (List.mem_of_mem_drop hc)
  · rw [List.nil_append] at hc
    rcases List.mem_append.1 hc with hc | hc
    · exact hdig c (List.mem_of_mem_take hc)
    · rcases List.mem_cons.1 hc with hc | hc
      · rw [hc]; decide
      · exact hdig c (List.mem_of_mem_drop hc)

/-- First character of a list (`' '` for the empty list). -/
def headI : List Char → Char
  | [] => ' '
  | c :: _ => c

theorem headI_append {l r : List Char} (h : l ≠ []) : headI (l ++ r) = headI l := by
  cases l with
  | nil => exact absurd rfl h
  | cons c t => rfl

theorem headI_mem {l : List Char} (h : l ≠ []) : headI l ∈ l := by
  cases l with
  | nil => exact absurd rfl h
  | cons c t => simp [headI]

theorem renderNum_ne_nil (j : JNum) : renderNum j ≠ [] := by
  have hlen := padDigits_length j.m.natAbs j.e
  simp only [renderNum]
  split_ifs <;> intro h <;>
    (have h2 := congrArg List.length h
     simp only [List.length_append, List.length_nil, List.length_cons,
       List.length_take, List.singleton_append] at h2
     omega)

theorem renderNum_head (j : JNum) :
    headI (renderNum j) = '-' ∨ isDigitC (headI (renderNum j)) = true := by
  have hpad := padDigits_digits j.m.natAbs j.e
  have hlen := padDigits_length j.m.natAbs j.e
  have hpadne : padDigits j.m.natAbs j.e ≠ [] := by
    intro h
    rw [h] at hlen
    simp at hlen
  have htne : (padDigits j.m.natAbs j.e).take
      ((padDigits j.m.natAbs j.e).length - j.e) ≠ [] := by
    intro h
    have h2 := congrArg List.length h
    simp only [List.length_take, List.length_nil] at h2
    omega
  simp only [renderNum]
  split_ifs
  · left; rfl
  · right
    rw [List.nil_append]
    exact hpad _ (headI_mem hpadne)
  · left; rfl
  · right
    rw [List.nil_append, headI_append htne]
    exact hpad _ (List.mem_of_mem_take (headI_mem htne))

/-- Constructor index of a JSON value. -/
def ctorTag : Json → Nat
  | .null => 0
  | .bool _ => 1
  | .num _ => 2
  | .str _ => 3
  | .arr _ => 4
  | .obj _ => 5

/-- Which constructor a serialization's first character belongs to. -/
def tagOfChar (c : Char) : Nat :=
  if c = 'n' then 0
  else if c = 't' ∨ c = 'f' then 1
  else if isDigitC c = true ∨ c = '-' then 2
  else if c = '"' then 3
  else if c = '[' then 4
  else if c = '{' then 5
  else 6

theorem serL_ne_nil (a : Json) : serL a ≠ [] := by
  cases a with
  | null => simp [serL]
  | bool b => cases b <;> simp [serL]
  | num j => simpa [serL] using renderNum_ne_nil j
  | str s => simp [serL]
  | arr xs => simp [serL]
  | obj fs => simp [serL]

theorem serL_head_tag (a : Json) : tagOfChar (headI (serL a)) = ctorTag a := by
  cases a with
  | null => rfl
  | bool b => cases b <;> rfl
  | num j =>
    show tagOfChar (headI (renderNum j)) = 2
    rcases renderNum_head j with h | h
    · rw [h]; rfl
    · have h1 : ¬ headI (renderNum j) = 'n' := by
        intro he; rw [he] at h; exact absurd h (by decide)
      have h2 : ¬ (headI (renderNum j) = 't' ∨ headI (renderNum j) = 'f') := by
        rintro (he | he) <;> (rw [he] at h; exact absurd h (by decide))
      rw [tagOfChar, if_neg h1, if_neg h2, if_pos (Or.inl h)]
  | str s => rfl
  | arr xs => rfl
  | obj fs => rfl

theorem ctorTag_le (a : Json) : ctorTag a ≤ 5 := by
  cases a <;> simp [ctorTag]

theorem tag_eq_of_ser_append {a b : Json} {r s : List Char}
    (h : serL a ++ r = serL b ++ s) : ctorTag a = ctorTag b := by
  have ha := @headI_append (serL a) r (serL_ne_nil a)
  have hb := @headI_append (serL b) s (serL_ne_nil b)
  rw [← serL_head_tag a, ← serL_head_tag b, ← ha, ← hb, h]

/-- What may legally follow a serialized value: end of input, or one of the
separators and closers a surrounding array/object supplies. -/
def isTerm : List Char → Prop
  | [] => True
  | c :: _ => c = ',' ∨ c = ']' ∨ c = '}'

theorem isTerm_not_num {r : List Char} (h : isTerm r) :
    ∀ c t, r = c :: t → numChar c = false := by
  intro c t he
  subst he
  rcases h with h | h | h <;> (rw [h]; rfl)

theorem isTerm_serRest_br (xs : List Json) (c : Char) (r : List Char)
    (hc : c = ',' ∨ c = ']' ∨ c = '}') : isTerm (serRest xs ++ c :: r) := by
  cases xs with
  | nil => simpa [serRest, isTerm] using hc
  | cons x xs => simp [serRest, isTerm]

theorem isTerm_serFRest_br (fs : List (String × Json)) (c : Char) (r : List Char)
    (hc : c = ',' ∨ c = ']' ∨ c = '}') : isTerm (serFRest fs ++ c :: r) := by
  cases fs with
  | nil => simpa [serFRest, isTerm] using hc
  | cons f fs => simp [serFRest, isTerm]

theorem str_ext {s t : String} (h : s.data = t.data) : s = t := by
  cases s
  cases t
  exact congrArg String.mk (by simpa using h)

theorem cleanStr_all {s : String} (h : cleanStr s = true) :
    ∀ c ∈ s.data, cleanChar c = true := by
  intro c hc
  simp only [cleanStr, List.all_eq_true] at h
  exact h c hc

theorem cleanJL_cons {x : Json} {xs : List Json} (h : cleanJL (x :: xs) = true) :
    cleanJ x = true ∧ cleanJL xs = true := by
  simpa [cleanJL, Bool.and_eq_true] using h

theorem cleanJF_cons {f : String × Json} {fs : List (String × Json)}
    (h : cleanJF (f :: fs) = true) :
    cleanStr f.1 = true ∧ cleanJ f.2 = true ∧ cleanJF fs = true := by
  simpa [cleanJF, Bool.and_eq_true] using h

/-- `serL x` followed by the tail of a nonempty list cannot begin with a
closing bracket; auxiliary contradiction step. -/
theorem not_close_head (y : Json) (c : Char) (hc : tagOfChar c = 6) (t X : List Char)
    (h : c :: t = serL y ++ X) : False := by
  have hb := serL_head_tag y
  have hne := serL_ne_nil y
  have hh : headI (c :: t) = headI (serL y ++ X) := by rw [h]
  rw [@headI_append (serL y) X hne] at hh
  rw [← hh] at hb
  simp only [headI] at hb
  rw [hc] at hb
  have := ctorTag_le y
  omega

mutual

theorem serPF (a b : Json) (r s : List Char) (ca : cleanJ a = true)
    (cb : cleanJ b = true) (tr : isTerm r) (ts : isTerm s)
    (h : serL a ++ r = serL b ++ s) : a = b ∧ r = s := by
  have htag := tag_eq_of_ser_append h
  cases a with
  | null =>
    cases b with
    | null => exact ⟨rfl, by simpa [serL] using h⟩
    | bool y => simp [ctorTag] at htag
    | num j => simp [ctorTag] at htag
    | str t => simp [ctorTag] at htag
    | arr ys => simp [ctorTag] at htag
    | obj gs => simp [ctorTag] at htag
  | bool x =>
    cases b with
    | null => simp [ctorTag] at htag
    | bool y =>
      cases x <;> cases y
      · exact ⟨rfl, by simpa [serL] using h⟩
      · simp [serL] at h
      · simp [serL] at h
      · exact ⟨rfl, by simpa [serL] using h⟩
    | num j => simp [ctorTag] at htag
    | str t => simp [ctorTag] at htag
    | arr ys => simp [ctorTag] at htag
    | obj gs => simp [ctorTag] at htag
  | num j1 =>
    cases b with
    | null => simp [ctorTag] at htag
    | bool y => simp [ctorTag] at htag
    | num j2 =>
      have hsp := token_split (renderNum j1) (renderNum j2) r s
        (renderNum_numChar j1) (renderNum_numChar j2)
        (isTerm_not_num tr) (isTerm_not_num ts) (by simpa [serL] using h)
      exact ⟨by rw [renderNum_inj hsp.1], hsp.2⟩
    | str t => simp [ctorTag] at htag
    | arr ys => simp [ctorTag] at htag
    | obj gs => simp [ctorTag] at htag
  | str s1 =>
    cases b with
    | null => simp [ctorTag] at htag
    | bool y => simp [ctorTag] at htag
    | num j => simp [ctorTag] at htag
    | str s2 =>
      have h' : escape s1.data ++ '"' :: r = escape s2.data ++ '"' :: s := by
        simpa [serL, List.append_assoc] using h
      have hsp := escape_split s1.data s2.data r s
        (cleanStr_all (by simpa [cleanJ] using ca))
        (cleanStr_all (by simpa [cleanJ] using cb)) h'
      exact ⟨by rw [str_ext hsp.1], hsp.2⟩
    | arr ys => simp [ctorTag] at htag
    | obj gs => simp [ctorTag] at htag
  | arr xs =>
    cases b with
    | null => simp [ctorTag] at htag
    | bool y => simp [ctorTag] at htag
    | num j => simp [ctorTag] at htag
    | str t => simp [ctorTag] at htag
    | arr ys =>
      have h' : serIn xs ++ ']' :: r = serIn ys ++ ']' :: s := by
        simpa [serL, List.append_assoc] using h
      have hin := serInPF xs ys r s (by simpa [cleanJ] using ca)
        (by simpa [cleanJ] using cb) tr ts h'
      exact ⟨by rw [hin.1], hin.2⟩
    | obj gs => simp [ctorTag] at htag
  | obj fs =>
    cases b with
    | null => simp [ctorTag] at htag
    | bool y => simp [ctorTag] at htag
    | num j => simp [ctorTag] at htag
    | str t => simp [ctorTag] at htag
    | arr ys => simp [ctorTag] at htag
    | obj gs =>
      have h' : serFs fs ++ '}' :: r = serFs gs ++ '}' :: s := by
        simpa [serL, List.append_assoc] using h
      have hfs := serFsPF fs gs r s (by simpa [cleanJ] using ca)
        (by simpa [cleanJ] using cb) tr ts h'
      exact ⟨by rw [hfs.1], hfs.2⟩
termination_by jsize a + jsize b
decreasing_by all_goals (subst_vars; simp [jsize, jsizeL, jsizeF]; omega)

theorem serInPF (xs ys : List Json) (r s : List Char) (cxs : cleanJL xs = true)
    (cys : cleanJL ys = true) (tr : isTerm r) (ts : isTerm s)
    (h : serIn xs ++ ']' :: r = serIn ys ++ ']' :: s) : xs = ys ∧ r = s := by
  cases xs with
  | nil =>
    cases ys with
    | nil => exact ⟨rfl, by simpa [serIn] using h⟩
    | cons y ys =>
      rw [serIn, serIn, List.nil_append, List.append_assoc] at h
      exact absurd h (fun h => not_close_head y ']' rfl r _ h)
  | cons x xs =>
    cases ys with
    | nil =>
      rw [serIn, serIn, List.nil_append, List.append_assoc] at h
      exact absurd h.symm (fun h => not_close_head x ']' rfl s _ h)
    | cons y ys =>
      rw [serIn, serIn, List.append_assoc, List.append_assoc] at h
      obtain ⟨hx, hxs⟩ := cleanJL_cons cxs
      obtain ⟨hy, hys⟩ := cleanJL_cons cys
      obtain ⟨hxy, h2⟩ := serPF x y _ _ hx hy
        (isTerm_serRest_br xs ']' r (by simp))
        (isTerm_serRest_br ys ']' s (by simp)) h
      obtain ⟨he, hrs⟩ := serRestPF xs ys r s hxs hys tr ts h2
      exact ⟨by rw [hxy, he], hrs⟩
termination_by jsizeL xs + jsizeL ys
decreasing_by all_goals (subst_vars; simp [jsize, jsizeL, jsizeF]; omega)

theorem serRestPF (xs ys : List Json) (r s : List Char) (cxs : cleanJL xs = true)
    (cys : cleanJL ys = true) (tr : isTerm r) (ts : isTerm s)
    (h : serRest xs ++ ']' :: r = serRest ys ++ ']' :: s) : xs = ys ∧ r = s := by
  cases xs with
  | nil =>
    cases ys with
    | nil => exact ⟨rfl, by simpa [serRest] using h⟩
    | cons y ys => simp [serRest] at h
  | cons x xs =>
    cases ys with
    | nil => simp [serRest] at h
    | cons y ys =>
      rw [serRest, serRest] at h
      simp only [List.cons_append, List.append_assoc, List.cons.injEq, true_and] at h
      obtain ⟨hx, hxs⟩ := cleanJL_cons cxs
      obtain ⟨hy, hys⟩ := cleanJL_cons cys
      obtain ⟨hxy, h2⟩ := serPF x y _ _ hx hy
        (isTerm_serRest_br xs ']' r (by simp))
        (isTerm_serRest_br ys ']' s (by simp)) h
      obtain ⟨he, hrs⟩ := serRestPF xs ys r s hxs hys tr ts h2
      exact ⟨by rw [hxy, he], hrs⟩
termination_by jsizeL xs + jsizeL ys
decreasing_by all_goals (subst_vars; simp [jsize, jsizeL, jsizeF]; omega)

theorem serFsPF (fs gs : List (String × Json)) (r s : List Char)
    (cfs : cleanJF fs = true) (cgs : cleanJF gs = true) (tr : isTerm r)
    (ts : isTerm s) (h : serFs fs ++ '}' :: r = serFs gs ++ '}' :: s) :
    fs = gs ∧ r = s := by
  cases fs with
  | nil =>
    cases gs with
    | nil => exact ⟨rfl, by simpa [serFs] using h⟩
    | cons g gs => simp [serFs] at h
  | cons f fs =>
    cases gs with
    | nil => simp [serFs] at h
    | cons g gs =>
      rw [serFs, serFs] at h
      simp only [List.cons_append, List.append_assoc, List.cons.injEq, true_and] at h
      obtain ⟨hk, hv, hfs⟩ := cleanJF_cons cfs
      obtain ⟨hk', hv', hgs⟩ := cleanJF_cons cgs
      obtain ⟨hke, h2⟩ := escape_split f.1.data g.1.data _ _
        (cleanStr_all hk) (cleanStr_all hk') h
      simp only [List.cons.injEq, true_and] at h2
      obtain ⟨hve, h3⟩ := serPF f.2 g.2 _ _ hv hv'
        (isTerm_serFRest_br fs '}' r (by simp))
        (isTerm_serFRest_br gs '}' s (by simp)) h2
      obtain ⟨he, hrs⟩ := serFRestPF fs gs r s hfs hgs tr ts h3
      have hfg : f = g := Prod.ext (str_ext hke) hve
      exact ⟨by rw [hfg, he], hrs⟩
termination_by jsizeF fs + jsizeF gs
decreasing_by all_goals (subst_vars; simp [jsize, jsizeL, jsizeF]; omega)

theorem serFRestPF (fs gs : List (String × Json)) (r s : List Char)
    (cfs : cleanJF fs = true) (cgs : cleanJF gs = true) (tr : isTerm r)
    (ts : isTerm s) (h : serFRest fs ++ '}' :: r = serFRest gs ++ '}' :: s) :
    fs = gs ∧ r = s := by
  cases fs with
  | nil =>
    cases gs with
    | nil => exact ⟨rfl, by simpa [serFRest] using h⟩
    | cons g gs => simp [serFRest] at h
  | cons f fs =>
    cases gs with
    | nil => simp [serFRest] at h
    | cons g gs =>
      rw [serFRest, serFRest] at h
      simp only [List.cons_append, List.append_assoc, List.cons.injEq, true_and] at h
      obtain ⟨hk, hv, hfs⟩ := cleanJF_cons cfs
      obtain ⟨hk', hv', hgs⟩ := cleanJF_cons cgs
      obtain ⟨hke, h2⟩ := escape_split f.1.data g.1.data _ _
        (cleanStr_all hk) (cleanStr_all hk') h
      simp only [List.cons.injEq, true_and] at h2
      obtain ⟨hve, h3⟩ := serPF f.2 g.2 _ _ hv hv'
        (isTerm_serFRest_br fs '}' r (by simp))
        (isTerm_serFRest_br gs '}' s (by simp)) h2
      obtain ⟨he, hrs⟩ := serFRestPF fs gs r s hfs hgs tr ts h3
      have hfg : f = g := Prod.ext (str_ext hke) hve
      exact ⟨by rw [hfg, he], hrs⟩
termination_by jsizeF fs + jsizeF gs
decreasing_by all_goals (subst_vars; simp [jsize, jsizeL, jsizeF]; omega)

end

/-- `JSON.stringify` is injective on clean values: the canonical serialized
form determines the JSON tree. -/
theorem serL_inj {a b : Json} (ca : cleanJ a = true) (cb : cleanJ b = true)
    (h : serL a = serL b) : a = b :=
  (serPF a b [] [] ca cb trivial trivial (by simpa using h)).1

/-! ## Sorting (canonicalization order)

`stableSortJsonLd` in `worker.js` sorts object keys with `Object.keys().sort()`
(code-unit lexicographic) and array elements by
`JSON.stringify(a).localeCompare(JSON.stringify(b))`.  Both are modelled as
lexicographic comparison of character lists; any comparison sort produces the
same result, modelled by insertion sort. -/

/-- Lexicographic order on character lists. -/
def lexLe : List Char → List Char → Bool
  | [], _ => true
  | _ :: _, [] => false
  | a :: as, b :: bs => if a < b then true else if b < a then false else lexLe as bs

theorem lexLe_total : ∀ a b : List Char, lexLe a b = true ∨ lexLe b a = true := by
  intro a
  induction a with
  | nil => intro b; left; rfl
  | cons x as ih =>
    intro b
    cases b with
    | nil => right; rfl
    | cons y bs =>
      rcases lt_trichotomy x y with h | h | h
      · left; simp [lexLe, h]
      · subst h
        rcases ih bs with h2 | h2
        · left; simp [lexLe, lt_irrefl, h2]
        · right; simp [lexLe, lt_irrefl, h2]
      · right; simp [lexLe, h]

theorem lexLe_antisymm : ∀ a b : List Char,
    lexLe a b = true → lexLe b a = true → a = b := by
  intro a
  induction a with
  | nil =>
    intro b _ hba
    cases b with
    | nil => rfl
    | cons y bs => simp [lexLe] at hba
  | cons x as ih =>
    intro b hab hba
    cases b with
    | nil => simp [lexLe] at hab
    | cons y bs =>
      rcases lt_trichotomy x y with h | h | h
      · simp [lexLe, h, asymm h] at hba
      · subst h
        simp only [lexLe, lt_irrefl, if_false, reduceIte] at hab hba
        rw [ih bs hab hba]
      · simp [lexLe, h, asymm h] at hab

theorem lexLe_trans : ∀ a b c : List Char,
    lexLe a b = true → lexLe b c = true → lexLe a c = true := by
  intro a
  induction a with
  | nil => intro b c _ _; rfl
  | cons x as ih =>
    intro b c hab hbc
    cases b with
    | nil => simp [lexLe] at hab
    | cons y bs =>
      cases c with
      | nil => simp [lexLe] at hbc
      | cons z cs =>
        rcases lt_trichotomy x y with h1 | h1 | h1
        · rcases lt_trichotomy y z with h2 | h2 | h2
          · simp [lexLe, lt_trans h1 h2]
          · subst h2; simp [lexLe, h1]
          · simp [lexLe, h2, asymm h2] at hbc
        · subst h1
          rcases lt_trichotomy x z with h2 | h2 | h2
          · simp [lexLe, h2]
          · subst h2
            simp only [lexLe, lt_irrefl, if_false, reduceIte] at hab hbc ⊢
            exact ih bs cs hab hbc
          · simp [lexLe, h2, asymm h2] at hbc
        · simp [lexLe, h1, asymm h1] at hab

/-- Insertion sort with a boolean comparator: the result of
`Array.prototype.sort`/`Object.keys().sort()` for a total, consistent
comparator. -/
def insertLe {α : Type} (le : α → α → Bool) (x : α) : List α → List α
  | [] => [x]
  | y :: ys => if le x y then x :: y :: ys else y :: insertLe le x ys

def isort {α : Type} (le : α → α → Bool) : List α → List α
  | [] => []
  | x :: xs => insertLe le x (isort le xs)

theorem insertLe_perm {α : Type} (le : α → α → Bool) (x : α) :
    ∀ l : List α, (insertLe le x l).Perm (x :: l) := by
  intro l
  induction l with
  | nil => simp [insertLe]
  | cons y ys ih =>
    rw [insertLe]
    split
    · exact List.Perm.refl _
    · exact (ih.cons y).trans (List.Perm.swap x y ys)

theorem isort_perm {α : Type} (le : α → α → Bool) :
    ∀ l : List α, (isort le l).Perm l := by
  intro l
  induction l with
  | nil => simp [isort]
  | cons x xs ih => exact (insertLe_perm le x (isort le xs)).trans (ih.cons x)

theorem insertLe_pairwise {α : Type} (le : α → α → Bool)
    (htot : ∀ a b, le a b = true ∨ le b a = true)
    (htr : ∀ a b c, le a b = true → le b c = true → le a c = true) (x : α) :
    ∀ l : List α, l.Pairwise (fun a b => le a b = true) →
      (insertLe le x l).Pairwise (fun a b => le a b = true) := by
  intro l
  induction l with
  | nil => intro _; simp [insertLe]
  | cons y ys ih =>
    intro hp
    rw [insertLe]
    rcases List.pairwise_cons.1 hp with ⟨hy, hys⟩
    split
    · rename_i hxy
      refine List.pairwise_cons.2 ⟨?_, hp⟩
      intro z hz
      rcases List.mem_cons.1 hz with hz | hz
      · rw [hz]; exact hxy
      · exact htr x y z hxy (hy z hz)
    · rename_i hxy
      have hyx : le y x = true := by
        rcases htot x y with h | h
        · exact absurd h hxy
        · exact h
      refine List.pairwise_cons.2 ⟨?_, ih hys⟩
      intro z hz
      have hz' := (insertLe_perm le x ys).mem_iff.1 hz
      rcases List.mem_cons.1 hz' with hz' | hz'
      · rw [hz']; exact hyx
      · exact hy z hz'

theorem isort_pairwise {α : Type} (le : α → α → Bool)
    (htot : ∀ a b, le a b = true ∨ le b a = true)
    (htr : ∀ a b c, le a b = true → le b c = true → le a c = true) :
    ∀ l : List α, (isort le l).Pairwise (fun a b => le a b = true) := by
  intro l
  induction l with
  | nil => simp [isort]
  | cons x xs ih => exact insertLe_pairwise le htot htr x (isort le xs) ih

/-- Two sorted lists that are permutations of each other are equal, provided
the order is antisymmetric on their elements. -/
theorem sorted_perm_unique {α : Type} {R : α → α → Prop} :
    ∀ l₁ l₂ : List α, l₁.Pairwise R → l₂.Pairwise R → l₁.Perm l₂ →
      (∀ a ∈ l₁, ∀ b ∈ l₂, R a b → R b a → a = b) → l₁ = l₂ := by
  intro l₁
  induction l₁ with
  | nil =>
    intro l₂ _ _ hp _
    exact hp.nil_eq
  | cons a t₁ ih =>
    intro l₂ h₁ h₂ hp hanti
    cases l₂ with
    | nil => exact absurd hp.symm.nil_eq (by simp)
    | cons b t₂ =>
      rcases List.pairwise_cons.1 h₁ with ⟨ha, ht₁⟩
      rcases List.pairwise_cons.1 h₂ with ⟨hb, ht₂⟩
      by_cases hab : a = b
      · subst hab
        have hp' := hp.cons_inv
        rw [ih t₂ ht₁ ht₂ hp'
          (fun x hx y hy => hanti x (by simp [hx]) y (by simp [hy]))]
      · have hbmem : b ∈ a :: t₁ := hp.symm.subset (by simp)
        have hamem : a ∈ b :: t₂ := hp.subset (by simp)
        have hbt₁ : b ∈ t₁ := by
          rcases List.mem_cons.1 hbmem with h | h
          · exact absurd h.symm hab
          · exact h
        have hat₂ : a ∈ t₂ := by
          rcases List.mem_cons.1 hamem with h | h
          · exact absurd h hab
          · exact h
        have hRab : R a b := ha b hbt₁
        have hRba : R b a := hb a hat₂
        exact absurd (hanti a (by simp) b (by simp) hRab hRba) hab

/-! ## Deterministic canonicalizer (`stableSortJsonLd`, worker.js) -/

/-- Comparator for array elements:
`(a, b) => JSON.stringify(a).localeCompare(JSON.stringify(b))`. -/
def serLe (x y : Json) : Bool := lexLe (serL x) (serL y)

/-- Comparator for object fields, by key: `Object.keys(value).sort()`. -/
def keyLe (f g : String × Json) : Bool := lexLe f.1.data g.1.data

/- `stableSortJsonLd` (worker.js): recursively sort object keys and sort
array elements by the lexical order of their serialized form. -/
mutual

def stableSortJsonLd : Json → Json
  | .arr xs => .arr (isort serLe (sortL xs))
  | .obj fs => .obj (isort keyLe (sortF fs))
  | x => x

def sortL : List Json → List Json
  | [] => []
  | x :: xs => stableSortJsonLd x :: sortL xs

def sortF : List (String × Json) → List (String × Json)
  | [] => []
  | f :: fs => (f.1, stableSortJsonLd f.2) :: sortF fs

end

/-! ## Deep structural equivalence up to key order and array order

`jEquivB` decides (with a fuel argument, for executability) whether two JSON
trees are equal modulo permuting object fields and array elements at every
node — the differences `stableSortJsonLd` is designed to erase. -/

mutual

def jEquivB : Nat → Json → Json → Bool
  | 0, _, _ => false
  | f + 1, .arr xs, .arr ys => permL f xs ys
  | f + 1, .obj fs, .obj gs => permF f fs gs
  | _ + 1, a, b => jsonBEq a b

def pickL : Nat → Json → List Json → Option (List Json)
  | 0, _, _ => none
  | _ + 1, _, [] => none
  | f + 1, x, y :: ys =>
      if jEquivB f x y then some ys else (pickL f x ys).map (fun t => y :: t)

def permL : Nat → List Json → List Json → Bool
  | 0, _, _ => false
  | _ + 1, [], ys => ys.isEmpty
  | f + 1, x :: xs, ys =>
      match pickL f x ys with
      | some ys' => permL f xs ys'
      | none => false

def pickF : Nat → (String × Json) → List (String × Json) →
    Option (List (String × Json))
  | 0, _, _ => none
  | _ + 1, _, [] => none
  | f + 1, x, y :: ys =>
      if x.1 = y.1 && jEquivB f x.2 y.2 then some ys
      else (pickF f x ys).map (fun t => y :: t)

def permF : Nat → List (String × Json) → List (String × Json) → Bool
  | 0, _, _ => false
  | _ + 1, [], gs => gs.isEmpty
  | f + 1, x :: fs, gs =>
      match pickF f x gs with
      | some gs' => permF f fs gs'
      | none => false

end

example : jEquivB 10 (.arr [.null, .bool true]) (.arr [.bool true, .null]) = true := by
  decide

example : stableSortJsonLd (.obj [("b", .null), ("a", .bool true)]) =
    .obj [("a", .bool true), ("b", .null)] := rfl

theorem serLe_total (a b : Json) : serLe a b = true ∨ serLe b a = true :=
  lexLe_total (serL a) (serL b)

theorem serLe_trans (a b c : Json) (h1 : serLe a b = true) (h2 : serLe b c = true) :
    serLe a c = true :=
  lexLe_trans (serL a) (serL b) (serL c) h1 h2

theorem keyLe_total (a b : String × Json) : keyLe a b = true ∨ keyLe b a = true :=
  lexLe_total a.1.data b.1.data

theorem keyLe_trans (a b c : String × Json) (h1 : keyLe a b = true)
    (h2 : keyLe b c = true) : keyLe a c = true :=
  lexLe_trans a.1.data b.1.data c.1.data h1 h2

theorem serLe_antisym_on {u v : Json} (cu : cleanJ u = true) (cv : cleanJ v = true)
    (h1 : serLe u v = true) (h2 : serLe v u = true) : u = v :=
  serL_inj cu cv (lexLe_antisymm (serL u) (serL v) h1 h2)

theorem cleanJL_iff : ∀ xs : List Json,
    cleanJL xs = true ↔ ∀ x ∈ xs, cleanJ x = true := by
  intro xs
  induction xs with
  | nil => simp [cleanJL]
  | cons x xs ih => simp [cleanJL, Bool.and_eq_true, ih]

theorem cleanJF_iff : ∀ fs : List (String × Json),
    cleanJF fs = true ↔ ∀ f ∈ fs, cleanStr f.1 = true ∧ cleanJ f.2 = true := by
  intro fs
  induction fs with
  | nil => simp [cleanJF]
  | cons f fs ih =>
    simp only [cleanJF, Bool.and_eq_true, ih, List.mem_cons]
    constructor
    · rintro ⟨h1, h2, h3⟩ g (hg | hg)
      · rw [hg]; exact ⟨h1, h2⟩
      · exact h3 g hg
    · intro h
      exact ⟨(h f (Or.inl rfl)).1, (h f (Or.inl rfl)).2, fun g hg => h g (Or.inr hg)⟩

theorem wfJL_iff : ∀ xs : List Json, wfJL xs = true ↔ ∀ x ∈ xs, wfJ x = true := by
  intro xs
  induction xs with
  | nil => simp [wfJL]
  | cons x xs ih => simp [wfJL, Bool.and_eq_true, ih]

theorem wfJF_iff : ∀ fs : List (String × Json),
    wfJF fs = true ↔ ∀ f ∈ fs, wfJ f.2 = true := by
  intro fs
  induction fs with
  | nil => simp [wfJF]
  | cons f fs ih =>
    obtain ⟨k, v⟩ := f
    simp only [wfJF, Bool.and_eq_true, ih, List.mem_cons]
    constructor
    · rintro ⟨h1, h2⟩ g (hg | hg)
      · rw [hg]; exact h1
      · exact h2 g hg
    · intro h
      exact ⟨h (k, v) (Or.inl rfl), fun g hg => h g (Or.inr hg)⟩

theorem sortL_map : ∀ xs : List Json, sortL xs = xs.map stableSortJsonLd := by
  intro xs
  induction xs with
  | nil => rfl
  | cons x xs ih => simp [sortL, ih]

theorem sortF_map : ∀ fs : List (String × Json),
    sortF fs = fs.map (fun f => (f.1, stableSortJsonLd f.2)) := by
  intro fs
  induction fs with
  | nil => rfl
  | cons f fs ih => simp [sortF, ih]

theorem keysOf_sortF : ∀ fs : List (String × Json), keysOf (sortF fs) = keysOf fs := by
  intro fs
  induction fs with
  | nil => rfl
  | cons f fs ih => simp [sortF, keysOf] at ih ⊢; exact ih

/- The canonicalizer does not introduce control characters: it only reorders. -/
mutual

theorem sSJ_clean : ∀ a : Json, cleanJ a = true → cleanJ (stableSortJsonLd a) = true
  | .null, h => h
  | .bool _, h => h
  | .num _, h => h
  | .str _, h => h
  | .arr xs, h => by
      rw [stableSortJsonLd]
      show cleanJL (isort serLe (sortL xs)) = true
      rw [cleanJL_iff]
      intro y hy
      have hy' : y ∈ sortL xs := (isort_perm serLe (sortL xs)).mem_iff.1 hy
      have hcl : cleanJL (sortL xs) = true := sortL_clean xs (by simpa [cleanJ] using h)
      exact (cleanJL_iff (sortL xs)).1 hcl y hy'
  | .obj fs, h => by
      rw [stableSortJsonLd]
      show cleanJF (isort keyLe (sortF fs)) = true
      rw [cleanJF_iff]
      intro g hg
      have hg' : g ∈ sortF fs := (isort_perm keyLe (sortF fs)).mem_iff.1 hg
      have hcl : cleanJF (sortF fs) = true := sortF_clean fs (by simpa [cleanJ] using h)
      exact (cleanJF_iff (sortF fs)).1 hcl g hg'

theorem sortL_clean : ∀ xs : List Json, cleanJL xs = true → cleanJL (sortL xs) = true
  | [], h => h
  | x :: xs, h => by
      obtain ⟨h1, h2⟩ := cleanJL_cons h
      rw [sortL]
      show (cleanJ (stableSortJsonLd x) && cleanJL (sortL xs)) = true
      rw [Bool.and_eq_true]
      exact ⟨sSJ_clean x h1, sortL_clean xs h2⟩

theorem sortF_clean : ∀ fs : List (String × Json),
    cleanJF fs = true → cleanJF (sortF fs) = true
  | [], h => h
  | f :: fs, h => by
      obtain ⟨h1, h2, h3⟩ := cleanJF_cons h
      rw [sortF]
      show (cleanStr f.1 && (cleanJ (stableSortJsonLd f.2) && cleanJF (sortF fs))) = true
      rw [Bool.and_eq_true, Bool.and_eq_true]
      exact ⟨h1, sSJ_clean f.2 h2, sortF_clean fs h3⟩

end

/-- Sorted field lists with distinct keys are determined by their multiset. -/
theorem sorted_keys_unique : ∀ l₁ l₂ : List (String × Json),
    (keysOf l₁).Nodup → l₁.Pairwise (fun a b => keyLe a b = true) →
    l₂.Pairwise (fun a b => keyLe a b = true) → l₁.Perm l₂ → l₁ = l₂ := by
  intro l₁
  induction l₁ with
  | nil =>
    intro l₂ _ _ _ hp
    exact hp.nil_eq
  | cons a t₁ ih =>
    intro l₂ hnd h₁ h₂ hp
    cases l₂ with
    | nil => exact absurd hp.symm.nil_eq (by simp)
    | cons b t₂ =>
      rcases List.pairwise_cons.1 h₁ with ⟨ha, ht₁⟩
      rcases List.pairwise_cons.1 h₂ with ⟨hb, ht₂⟩
      have hnd' : (a.1 :: keysOf t₁).Nodup := hnd
      rcases List.nodup_cons.1 hnd' with ⟨hka, hndt⟩
      by_cases hab : a = b
      · subst hab
        rw [ih t₂ hndt ht₁ ht₂ hp.cons_inv]
      · have hbt₁ : b ∈ t₁ := by
          rcases List.mem_cons.1 (hp.symm.subset (show b ∈ b :: t₂ by simp)) with h | h
          · exact absurd h.symm hab
          · exact h
        have hat₂ : a ∈ t₂ := by
          rcases List.mem_cons.1 (hp.subset (show a ∈ a :: t₁ by simp)) with h | h
          · exact absurd h hab
          · exact h
        have hk : a.1 = b.1 :=
          str_ext (lexLe_antisymm a.1.data b.1.data (ha b hbt₁) (hb a hat₂))
        refine absurd ?_ hka
        rw [hk]
        exact List.mem_map.2 ⟨b, hbt₁, rfl⟩

/-! ## Soundness of the equivalence checker w.r.t. the canonicalizer -/

mutual

theorem jEquivB_sound : ∀ (f : Nat) (a b : Json), cleanJ a = true → cleanJ b = true →
    wfJ a = true → wfJ b = true → jEquivB f a b = true →
    stableSortJsonLd a = stableSortJsonLd b := by
  intro f a b ca cb wa wb h
  cases f with
  | zero => simp [jEquivB] at h
  | succ f =>
    rcases a with _ | x | n1 | s1 | xs | fs <;>
      rcases b with _ | y | n2 | s2 | ys | gs <;>
      try (simp only [jEquivB, jsonBEq, decide_eq_true_eq] at h) <;>
      try (first | exact Bool.noConfusion h | rfl | (rw [h]))
    · have hperm := permL_sound f xs ys (by simpa [cleanJ] using ca)
        (by simpa [cleanJ] using cb) (by simpa [wfJ] using wa)
        (by simpa [wfJ] using wb) h
      show Json.arr (isort serLe (sortL xs)) = Json.arr (isort serLe (sortL ys))
      congr 1
      refine sorted_perm_unique _ _ (isort_pairwise serLe serLe_total serLe_trans _)
        (isort_pairwise serLe serLe_total serLe_trans _)
        (((isort_perm serLe _).trans hperm).trans (isort_perm serLe _).symm) ?_
      intro u hu v hv h1 h2
      have hu' : u ∈ sortL xs := (isort_perm serLe _).mem_iff.1 hu
      have hv' : v ∈ sortL ys := (isort_perm serLe _).mem_iff.1 hv
      have hcu : cleanJ u = true :=
        (cleanJL_iff _).1 (sortL_clean xs (by simpa [cleanJ] using ca)) u hu'
      have hcv : cleanJ v = true :=
        (cleanJL_iff _).1 (sortL_clean ys (by simpa [cleanJ] using cb)) v hv'
      exact serLe_antisym_on hcu hcv h1 h2
    · have hwa : (keysOf fs).Nodup ∧ wfJF fs = true := by
        simpa [wfJ, Bool.and_eq_true, decide_eq_true_eq] using wa
      have hwb : (keysOf gs).Nodup ∧ wfJF gs = true := by
        simpa [wfJ, Bool.and_eq_true, decide_eq_true_eq] using wb
      have hperm := permF_sound f fs gs (by simpa [cleanJ] using ca)
        (by simpa [cleanJ] using cb) hwa.2 hwb.2 h
      show Json.obj (isort keyLe (sortF fs)) = Json.obj (isort keyLe (sortF gs))
      congr 1
      have hnd : (keysOf (isort keyLe (sortF fs))).Nodup := by
        have h1 : (keysOf (sortF fs)).Nodup := by
          rw [keysOf_sortF]; exact hwa.1
        have hpm : (keysOf (isort keyLe (sortF fs))).Perm (keysOf (sortF fs)) :=
          (isort_perm keyLe (sortF fs)).map Prod.fst
        exact hpm.nodup_iff.2 h1
      exact sorted_keys_unique _ _ hnd
        (isort_pairwise keyLe keyLe_total keyLe_trans _)
        (isort_pairwise keyLe keyLe_total keyLe_trans _)
        (((isort_perm keyLe _).trans hperm).trans (isort_perm keyLe _).symm)
termination_by f _ _ => (f, 0)

theorem permL_sound : ∀ (f : Nat) (xs ys : List Json), cleanJL xs = true →
    cleanJL ys = true → wfJL xs = true → wfJL ys = true → permL f xs ys = true →
    (sortL xs).Perm (sortL ys) := by
  intro f xs ys cxs cys wxs wys h
  cases f with
  | zero => simp [permL] at h
  | succ f =>
    cases xs with
    | nil =>
      have hy : ys = [] := by simpa [permL, List.isEmpty_iff] using h
      subst hy
      exact List.Perm.refl _
    | cons x xs =>
      rw [permL] at h
      cases hp : pickL f x ys with
      | none => rw [hp] at h; simp at h
      | some ys' =>
        rw [hp] at h
        obtain ⟨y, g, hg, hymem, hequiv, hperm⟩ := pickL_sound f x ys ys' hp
        obtain ⟨cx, cxs'⟩ := cleanJL_cons cxs
        have wx : wfJ x = true := (wfJL_iff _).1 wxs x (by simp)
        have wxs' : wfJL xs = true := by
          rw [wfJL_iff]
          intro z hz
          exact (wfJL_iff _).1 wxs z (by simp [hz])
        have cy : cleanJ y = true := (cleanJL_iff _).1 cys y hymem
        have wy : wfJ y = true := (wfJL_iff _).1 wys y hymem
        have cys' : cleanJL ys' = true := by
          rw [cleanJL_iff]
          intro z hz
          exact (cleanJL_iff _).1 cys z (hperm.symm.subset (by simp [hz]))
        have wys' : wfJL ys' = true := by
          rw [wfJL_iff]
          intro z hz
          exact (wfJL_iff _).1 wys z (hperm.symm.subset (by simp [hz]))
        have hxy : stableSortJsonLd x = stableSortJsonLd y :=
          jEquivB_sound g x y cx cy wx wy hequiv
        have hrec := permL_sound f xs ys' cxs' cys' wxs' wys' h
        rw [sortL_map xs, sortL_map ys'] at hrec
        rw [sortL_map (x :: xs), sortL_map ys]
        have h1 : (List.map stableSortJsonLd (x :: xs)).Perm
            (stableSortJsonLd y :: List.map stableSortJsonLd ys') := by
          rw [List.map_cons, hxy]
          exact hrec.cons _
        have h2 : (List.map stableSortJsonLd ys).Perm
            (stableSortJsonLd y :: List.map stableSortJsonLd ys') := by
          have h3 := hperm.map stableSortJsonLd
          simpa using h3
        exact h1.trans h2.symm
termination_by f _ _ => (f, 1)

theorem pickL_sound : ∀ (f : Nat) (x : Json) (ys ys' : List Json),
    pickL f x ys = some ys' →
    ∃ y g, g < f ∧ y ∈ ys ∧ jEquivB g x y = true ∧ ys.Perm (y :: ys') := by
  intro f x ys ys' hp
  cases f with
  | zero => simp [pickL] at hp
  | succ f =>
    cases ys with
    | nil => simp [pickL] at hp
    | cons y ys =>
      rw [pickL] at hp
      split at hp
      · rename_i heq
        have hys : ys = ys' := by simpa using hp
        subst hys
        exact ⟨y, f, by omega, by simp, heq, List.Perm.refl _⟩
      · cases hrec : pickL f x ys with
        | none => rw [hrec] at hp; simp at hp
        | some zs =>
          rw [hrec] at hp
          simp only [Option.map_some', Option.some.injEq] at hp
          obtain ⟨y₀, g, hg, hmem, heq, hperm⟩ := pickL_sound f x ys zs hrec
          refine ⟨y₀, g, by omega, by simp [hmem], heq, ?_⟩
          rw [← hp]
          exact (hperm.cons y).trans (List.Perm.swap y₀ y zs)
termination_by f _ _ _ => (f, 2)

theorem permF_sound : ∀ (f : Nat) (fs gs : List (String × Json)),
    cleanJF fs = true → cleanJF gs = true → wfJF fs = true → wfJF gs = true →
    permF f fs gs = true → (sortF fs).Perm (sortF gs) := by
  intro f fs gs cfs cgs wfs wgs h
  cases f with
  | zero => simp [permF] at h
  | succ f =>
    cases fs with
    | nil =>
      have hg : gs = [] := by simpa [permF, List.isEmpty_iff] using h
      subst hg
      exact List.Perm.refl _
    | cons x fs =>
      rw [permF] at h
      cases hp : pickF f x gs with
      | none => rw [hp] at h; simp at h
      | some gs' =>
        rw [hp] at h
        obtain ⟨y, g, hg, hymem, hkeq, hequiv, hperm⟩ := pickF_sound f x gs gs' hp
        obtain ⟨ck, cx, cfs'⟩ := cleanJF_cons cfs
        have wx : wfJ x.2 = true := (wfJF_iff _).1 wfs x (by simp)
        have wfs' : wfJF fs = true := by
          rw [wfJF_iff]
          intro z hz
          exact (wfJF_iff _).1 wfs z (by simp [hz])
        have cy : cleanJ y.2 = true := ((cleanJF_iff _).1 cgs y hymem).2
        have wy : wfJ y.2 = true := (wfJF_iff _).1 wgs y hymem
        have cgs' : cleanJF gs' = true := by
          rw [cleanJF_iff]
          intro z hz
          exact (cleanJF_iff _).1 cgs z (hperm.symm.subset (by simp [hz]))
        have wgs' : wfJF gs' = true := by
          rw [wfJF_iff]
          intro z hz
          exact (wfJF_iff _).1 wgs z (hperm.symm.subset (by simp [hz]))
        have hxy : stableSortJsonLd x.2 = stableSortJsonLd y.2 :=
          jEquivB_sound g x.2 y.2 cx cy wx wy hequiv
        have hrec := permF_sound f fs gs' cfs' cgs' wfs' wgs' h
        rw [sortF_map fs, sortF_map gs'] at hrec
        rw [sortF_map (x :: fs), sortF_map gs]
        have h1 : (List.map (fun f => (f.1, stableSortJsonLd f.2)) (x :: fs)).Perm
            ((y.1, stableSortJsonLd y.2) ::
              List.map (fun f => (f.1, stableSortJsonLd f.2)) gs') := by
          rw [List.map_cons]
          have hx : (x.1, stableSortJsonLd x.2) = (y.1, stableSortJsonLd y.2) := by
            rw [hkeq, hxy]
          rw [hx]
          exact hrec.cons _
        have h2 : (List.map (fun f => (f.1, stableSortJsonLd f.2)) gs).Perm
            ((y.1, stableSortJsonLd y.2) ::
              List.map (fun f => (f.1, stableSortJsonLd f.2)) gs') := by
          have h3 := hperm.map (fun f => (f.1, stableSortJsonLd f.2))
          simpa using h3
        exact h1.trans h2.symm
termination_by f _ _ => (f, 1)

theorem pickF_sound : ∀ (f : Nat) (x : String × Json)
    (gs gs' : List (String × Json)), pickF f x gs = some gs' →
    ∃ y g, g < f ∧ y ∈ gs ∧ x.1 = y.1 ∧ jEquivB g x.2 y.2 = true ∧
      gs.Perm (y :: gs') := by
  intro f x gs gs' hp
  cases f with
  | zero => simp [pickF] at hp
  | succ f =>
    cases gs with
    | nil => simp [pickF] at hp
    | cons y gs =>
      rw [pickF] at hp
      split at hp
      · rename_i heq
        rw [Bool.and_eq_true, decide_eq_true_eq] at heq
        have hgs : gs = gs' := by simpa using hp
        subst hgs
        exact ⟨y, f, by omega, by simp, heq.1, heq.2, List.Perm.refl _⟩
      · cases hrec : pickF f x gs with
        | none => rw [hrec] at hp; simp at hp
        | some zs =>
          rw [hrec] at hp
          simp only [Option.map_some', Option.some.injEq] at hp
          obtain ⟨y₀, g, hg, hmem, hkeq, heq, hperm⟩ := pickF_sound f x gs zs hrec
          refine ⟨y₀, g, by omega, by simp [hmem], hkeq, heq, ?_⟩
          rw [← hp]
          exact (hperm.cons y).trans (List.Perm.swap y₀ y zs)
termination_by f _ _ _ => (f, 2)

end

/-! ## Fingerprinting (`fp`, normalize.js)

`fp(obj)` is `'sha256:' + hex(sha256(utf8(JSON.stringify(obj))))` via the
`fast-sha256` library; SHA-256 is modelled bit-faithfully on `Nat` with
explicit reductions mod `2^32`. -/

def add32 (a b : Nat) : Nat := (a + b) % 4294967296

def rotr32 (x k : Nat) : Nat := (x / 2 ^ k + x % 2 ^ k * 2 ^ (32 - k)) % 4294967296

def shr32 (x k : Nat) : Nat := x / 2 ^ k

def xor3 (a b c : Nat) : Nat := Nat.xor (Nat.xor a b) c

def smallSigma0 (x : Nat) : Nat := xor3 (rotr32 x 7) (rotr32 x 18) (shr32 x 3)

def smallSigma1 (x : Nat) : Nat := xor3 (rotr32 x 17) (rotr32 x 19) (shr32 x 10)

def bigSigma0 (x : Nat) : Nat := xor3 (rotr32 x 2) (rotr32 x 13) (rotr32 x 22)

def bigSigma1 (x : Nat) : Nat := xor3 (rotr32 x 6) (rotr32 x 11) (rotr32 x 25)

def chF (x y z : Nat) : Nat := Nat.xor (Nat.land x y) (Nat.land (Nat.xor x 4294967295) z)

def majF (x y z : Nat) : Nat :=
  Nat.xor (Nat.xor (Nat.land x y) (Nat.land x z)) (Nat.land y z)

/-- SHA-256 round constants (FIPS 180-4, in decimal). -/
def sha256K : List Nat :=
  [1116352408, 1899447441, 3049323471, 3921009573, 961987163,
   1508970993, 2453635748, 2870763221, 3624381080, 310598401,
   607225278, 1426881987, 1925078388, 2162078206, 2614888103,
   3248222580, 3835390401, 4022224774, 264347078, 604807628,
   770255983, 1249150122, 1555081692, 1996064986, 2554220882,
   2821834349, 2952996808, 3210313671, 3336571891, 3584528711,
   113926993, 338241895, 666307205, 773529912, 1294757372,
   1396182291, 1695183700, 1986661051, 2177026350, 2456956037,
   2730485921, 2820302411, 3259730800, 3345764771, 3516065817,
   3600352804, 4094571909, 275423344, 430227734, 506948616,
   659060556, 883997877, 958139571, 1322822218, 1537002063,
   1747873779, 1955562222, 2024104815, 2227730452, 2361852424,
   2428436474, 2756734187, 3204031479, 3329325298]

/-- SHA-256 working state (eight 32-bit words). -/
structure H8 where
  a : Nat
  b : Nat
  c : Nat
  d : Nat
  e : Nat
  f : Nat
  g : Nat
  h : Nat

def sha256Init : H8 :=
  ⟨1779033703, 3144134277, 1013904242, 2773480762,
   1359893119, 2600822924, 528734635, 1541459225⟩

def wordOf (bs : List Nat) (i : Nat) : Nat :=
  bs.getD (4 * i) 0 * 16777216 + bs.getD (4 * i + 1) 0 * 65536 +
    bs.getD (4 * i + 2) 0 * 256 + bs.getD (4 * i + 3) 0

def extendW : List Nat → Nat → List Nat
  | ws, 0 => ws
  | ws, n + 1 =>
      let i := ws.length
      let w := add32 (add32 (smallSigma1 (ws.getD (i - 2) 0)) (ws.getD (i - 7) 0))
        (add32 (smallSigma0 (ws.getD (i - 15) 0)) (ws.getD (i - 16) 0))
      extendW (ws ++ [w]) n

def schedule (chunk : List Nat) : List Nat :=
  extendW ((List.range 16).map (wordOf chunk)) 48

def roundStep (st : H8) (kw : Nat × Nat) : H8 :=
  let t1 := add32 st.h (add32 (bigSigma1 st.e) (add32 (chF st.e st.f st.g)
    (add32 kw.1 kw.2)))
  let t2 := add32 (bigSigma0 st.a) (majF st.a st.b st.c)
  ⟨add32 t1 t2, st.a, st.b, st.c, add32 st.d t1, st.e, st.f, st.g⟩

def compress (st : H8) (chunk : List Nat) : H8 :=
  let fin := (sha256K.zip (schedule chunk)).foldl roundStep st
  ⟨add32 st.a fin.a, add32 st.b fin.b, add32 st.c fin.c, add32 st.d fin.d,
   add32 st.e fin.e, add32 st.f fin.f, add32 st.g fin.g, add32 st.h fin.h⟩

/-- Big-endian bytes of `n`, `w` bytes wide. -/
def bytesBE : Nat → Nat → List Nat
  | 0, _ => []
  | w + 1, n => bytesBE w (n / 256) ++ [n % 256]

/-- SHA-256 message padding: `0x80`, zeros to 56 mod 64, 64-bit bit length. -/
def padMsg (msg : List Nat) : List Nat :=
  msg ++ 128 :: List.replicate ((119 - msg.length % 64) % 64) 0 ++
    bytesBE 8 (8 * msg.length)

def chunks (bs : List Nat) : List (List Nat) :=
  if h : bs = [] then [] else bs.take 64 :: chunks (bs.drop 64)
termination_by bs.length
decreasing_by
  simp only [List.length_drop]
  have : 0 < bs.length := List.length_pos.2 h
  omega

def wordBytes (w : Nat) : List Nat :=
  [w / 16777216 % 256, w / 65536 % 256, w / 256 % 256, w % 256]

/-- SHA-256 digest of a byte sequence, as 32 bytes. -/
def sha256 (msg : List Nat) : List Nat :=
  let st := (chunks (padMsg msg)).foldl compress sha256Init
  wordBytes st.a ++ wordBytes st.b ++ wordBytes st.c ++ wordBytes st.d ++
    wordBytes st.e ++ wordBytes st.f ++ wordBytes st.g ++ wordBytes st.h

theorem sha256_length (msg : List Nat) : (sha256 msg).length = 32 := by
  simp [sha256, wordBytes]

theorem wordBytes_lt (w : Nat) : ∀ b ∈ wordBytes w, b < 256 := by
  intro b hb
  simp only [wordBytes, List.mem_cons, List.not_mem_nil, or_false] at hb
  rcases hb with h | h | h | h <;> (subst h; exact Nat.mod_lt _ (by norm_num))

theorem sha256_lt (msg : List Nat) : ∀ b ∈ sha256 msg, b < 256 := by
  simp only [sha256, List.forall_mem_append]
  refine ⟨⟨⟨⟨⟨⟨⟨?_, ?_⟩, ?_⟩, ?_⟩, ?_⟩, ?_⟩, ?_⟩, ?_⟩ <;> exact wordBytes_lt _

/-- UTF-8 encoding of one character (`TextEncoder` in normalize.js). -/
def utf8Char (c : Char) : List Nat :=
  let n := c.toNat
  if n < 128 then [n]
  else if n < 2048 then [192 + n / 64, 128 + n % 64]
  else if n < 65536 then [224 + n / 4096, 128 + n / 64 % 64, 128 + n % 64]
  else [240 + n / 262144, 128 + n / 4096 % 64, 128 + n / 64 % 64, 128 + n % 64]

def utf8 : List Char → List Nat
  | [] => []
  | c :: cs => utf8Char c ++ utf8 cs

def hexBytes : List Nat → List Char
  | [] => []
  | b :: bs => hexDigit (b / 16) :: hexDigit (b % 16) :: hexBytes bs

/-- `fp` (normalize.js): deterministic SHA-256 fingerprint of an object,
`'sha256:' + hex(sha256(utf8(JSON.stringify(obj))))`. -/
def fp (obj : Json) : String :=
  "sha256:" ++ String.mk (hexBytes (sha256 (utf8 (serL obj))))

/-! ## Volatility-stripped view (`stableFingerprintView`, worker.js) -/

/-- Volatile top-level fields removed by `stableFingerprintView`. -/
def stripVolatile (fs : List (String × Json)) : List (String × Json) :=
  delKey (delKey (delKey fs "agentnet:captureDate") "agentnet:cgRunId")
    "agentnet:cgManifestPath"

/-- Canonicalize a value when it is an array or an object (JS
`typeof === "object"` guarded by truthiness, as in `stableFingerprintView`
for `asserted.json` and for the content object). -/
def viewCanon (v : Json) : Json :=
  match v with
  | .arr xs => stableSortJsonLd (.arr xs)
  | .obj gs => stableSortJsonLd (.obj gs)
  | x => x

/-- Drop the volatile `capturedAt` from a provenance object
(`delete prov.capturedAt` under the object guard). -/
def viewProv (pv : Json) : Json :=
  match pv with
  | .obj pfs => .obj (delKey pfs "capturedAt")
  | x => x

/-- The provenance-stripping step applied to the `agentnet:asserted` value. -/
def viewAssertedProv (av : Json) : Json :=
  match av with
  | .obj afs => .obj (modifyKey afs "provenance" viewProv)
  | x => x

/-- The `json`-canonicalization step applied to the `agentnet:asserted`
value. -/
def viewAssertedJson (av : Json) : Json :=
  match av with
  | .obj afs => .obj (modifyKey afs "json" viewCanon)
  | x => x

/-- `stableFingerprintView` (worker.js): deep copy, delete the volatile
envelope fields (`captureDate`, `cgRunId`, `cgManifestPath`), delete the
asserted provenance `capturedAt`, then canonicalize the asserted `json`
(array or object) and the content object with `stableSortJsonLd`. -/
def stableFingerprintView (e : Json) : Json :=
  match e with
  | .obj fs0 =>
      let fs1 := stripVolatile fs0
      let fs2 := modifyKey fs1 "agentnet:asserted" viewAssertedProv
      let fs3 := modifyKey fs2 "agentnet:asserted" viewAssertedJson
      let fs4 := modifyKey fs3 "agentnet:content" viewCanon
      .obj fs4
  | x => if jsTruthy x then x else .obj []

/-- Deterministic-mode fingerprint of an envelope
(`fp(stableFingerprintView(envelope))`, worker.js line 601 with
`CG_DETERMINISTIC` set). -/
def fpDet (e : Json) : String := fp (stableFingerprintView e)

/-! ## Envelope equivalence up to volatile fields and canonical order

`envEquivB` decides the claim's hypothesis relation: the two envelopes agree
on their non-volatile fields in order, where the asserted `json` block list
and the content are compared up to deep reordering of arrays and object keys
(`jEquivB`), the asserted `provenance` is compared ignoring its `capturedAt`
timestamp, and every other field is compared structurally. -/

def provEquivB (pv qv : Json) : Bool :=
  match pv, qv with
  | .obj pfs, .obj qfs =>
      jsonBEq (.obj (delKey pfs "capturedAt")) (.obj (delKey qfs "capturedAt"))
  | pv, qv => jsonBEq pv qv

def assertedFieldsEquivB (fuel : Nat) :
    List (String × Json) → List (String × Json) → Bool
  | [], [] => true
  | f :: fs, g :: gs =>
      decide (f.1 = g.1) &&
      ((if f.1 = "json" then jEquivB fuel f.2 g.2
        else if f.1 = "provenance" then provEquivB f.2 g.2
        else jsonBEq f.2 g.2) && assertedFieldsEquivB fuel fs gs)
  | _, _ => false

def assertedEquivB (fuel : Nat) (av bv : Json) : Bool :=
  match av, bv with
  | .obj afs, .obj bfs => assertedFieldsEquivB fuel afs bfs
  | av, bv => jsonBEq av bv

def topFieldsEquivB (fuel : Nat) :
    List (String × Json) → List (String × Json) → Bool
  | [], [] => true
  | f :: fs, g :: gs =>
      decide (f.1 = g.1) &&
      ((if f.1 = "agentnet:content" then jEquivB fuel f.2 g.2
        else if f.1 = "agentnet:asserted" then assertedEquivB fuel f.2 g.2
        else jsonBEq f.2 g.2) && topFieldsEquivB fuel fs gs)
  | _, _ => false

def envEquivB (fuel : Nat) (a b : Json) : Bool :=
  match a, b with
  | .obj fs, .obj gs =>
      topFieldsEquivB fuel (stripVolatile fs) (stripVolatile gs)
  | a, b => jsonBEq a b

/- `viewCanon` only looks at a value through its canonical image. -/
theorem viewCanon_of_sSJ (v w : Json)
    (hsort : stableSortJsonLd v = stableSortJsonLd w) :
    viewCanon v = viewCanon w := by
  rcases v with _ | x | n | s | xs | fs <;> rcases w with _ | y | m | t | ys | gs <;>
    first
      | exact hsort
      | exact absurd hsort (by simp [stableSortJsonLd])

theorem provEquivB_view (pv qv : Json) (h : provEquivB pv qv = true) :
    viewProv pv = viewProv qv := by
  rcases pv with _ | x | n | s | xs | pfs <;> rcases qv with _ | y | m | t | ys | qfs <;>
    simp only [provEquivB] at h <;>
    first
      | exact jsonBEq_eq _ _ h
      | rw [jsonBEq_eq _ _ h]

/-- Per-field action of the asserted part of `stableFingerprintView`. -/
def assertedEntryView (f : String × Json) : String × Json :=
  if f.1 = "json" then (f.1, viewCanon f.2)
  else if f.1 = "provenance" then (f.1, viewProv f.2)
  else f

theorem modify2_eq_map (afs : List (String × Json)) :
    modifyKey (modifyKey afs "provenance" viewProv) "json" viewCanon =
      afs.map assertedEntryView := by
  simp only [modifyKey, List.map_map]
  apply List.map_congr_left
  intro x _
  simp only [Function.comp]
  by_cases h1 : x.1 = "provenance"
  · by_cases h2 : x.1 = "json"
    · exact absurd (h1 ▸ h2) (by decide)
    · simp [assertedEntryView, h1, h2]
  · by_cases h2 : x.1 = "json"
    · simp [assertedEntryView, h1, h2]
    · simp [assertedEntryView, h1, h2]

theorem assertedFields_view (fuel : Nat) :
    ∀ afs bfs : List (String × Json),
    (∀ f ∈ afs, cleanJ f.2 = true ∧ wfJ f.2 = true) →
    (∀ g ∈ bfs, cleanJ g.2 = true ∧ wfJ g.2 = true) →
    assertedFieldsEquivB fuel afs bfs = true →
    afs.map assertedEntryView = bfs.map assertedEntryView
  | [], [], _, _, _ => rfl
  | [], _ :: _, _, _, h => by simp [assertedFieldsEquivB] at h
  | _ :: _, [], _, _, h => by simp [assertedFieldsEquivB] at h
  | f :: fs, g :: gs, ha, hb, h => by
      simp only [assertedFieldsEquivB, Bool.and_eq_true, decide_eq_true_eq] at h
      obtain ⟨hk, hv, ht⟩ := h
      have hcf := ha f (List.mem_cons_self f fs)
      have hcg := hb g (List.mem_cons_self g gs)
      have htail := assertedFields_view fuel fs gs
        (fun x hx => ha x (List.mem_cons_of_mem f hx))
        (fun x hx => hb x (List.mem_cons_of_mem g hx)) ht
      simp only [List.map_cons]
      rw [htail]
      congr 1
      by_cases hj : f.1 = "json"
      · rw [if_pos hj] at hv
        have hj' : g.1 = "json" := hk ▸ hj
        simp only [assertedEntryView, if_pos hj, if_pos hj']
        exact Prod.ext hk (viewCanon_of_sSJ _ _
          (jEquivB_sound fuel f.2 g.2 hcf.1 hcg.1 hcf.2 hcg.2 hv))
      · rw [if_neg hj] at hv
        have hj' : ¬ g.1 = "json" := hk ▸ hj
        by_cases hp : f.1 = "provenance"
        · rw [if_pos hp] at hv
          have hp' : g.1 = "provenance" := hk ▸ hp
          simp only [assertedEntryView, if_neg hj, if_pos hp, if_neg hj', if_pos hp']
          exact Prod.ext hk (provEquivB_view _ _ hv)
        · rw [if_neg hp] at hv
          have hp' : ¬ g.1 = "provenance" := hk ▸ hp
          simp only [assertedEntryView, if_neg hj, if_neg hp, if_neg hj', if_neg hp']
          exact Prod.ext hk (jsonBEq_eq _ _ hv)

theorem assertedEquivB_view (fuel : Nat) (av bv : Json)
    (ca : cleanJ av = true) (cb : cleanJ bv = true)
    (wa : wfJ av = true) (wb : wfJ bv = true)
    (h : assertedEquivB fuel av bv = true) :
    viewAssertedJson (viewAssertedProv av) = viewAssertedJson (viewAssertedProv bv) := by
  rcases av with _ | x | n | s | xs | afs <;> rcases bv with _ | y | m | t | ys | bfs <;>
    simp only [assertedEquivB] at h <;>
    first
      | rw [jsonBEq_eq _ _ h]
      | skip
  show Json.obj (modifyKey (modifyKey afs "provenance" viewProv) "json" viewCanon) =
    Json.obj (modifyKey (modifyKey bfs "provenance" viewProv) "json" viewCanon)
  rw [modify2_eq_map, modify2_eq_map]
  simp only [cleanJ] at ca cb
  simp only [wfJ, Bool.and_eq_true] at wa wb
  exact congrArg Json.obj (assertedFields_view fuel afs bfs
    (fun f hf => ⟨((cleanJF_iff afs).mp ca f hf).2, (wfJF_iff afs).mp wa.2 f hf⟩)
    (fun g hg => ⟨((cleanJF_iff bfs).mp cb g hg).2, (wfJF_iff bfs).mp wb.2 g hg⟩) h)

/-- Per-field action of the top level of `stableFingerprintView` (after the
volatile deletions). -/
def topEntryView (f : String × Json) : String × Json :=
  if f.1 = "agentnet:asserted" then (f.1, viewAssertedJson (viewAssertedProv f.2))
  else if f.1 = "agentnet:content" then (f.1, viewCanon f.2)
  else f

theorem modify3_eq_map (fs : List (String × Json)) :
    modifyKey (modifyKey (modifyKey fs "agentnet:asserted" viewAssertedProv)
        "agentnet:asserted" viewAssertedJson) "agentnet:content" viewCanon =
      fs.map topEntryView := by
  simp only [modifyKey, List.map_map]
  apply List.map_congr_left
  intro x _
  simp only [Function.comp]
  by_cases h1 : x.1 = "agentnet:asserted"
  · by_cases h2 : x.1 = "agentnet:content"
    · exact absurd (h1 ▸ h2) (by decide)
    · simp [topEntryView, h1, h2]
  · by_cases h2 : x.1 = "agentnet:content"
    · simp [topEntryView, h1, h2]
    · simp [topEntryView, h1, h2]

theorem topFields_view (fuel : Nat) :
    ∀ fs gs : List (String × Json),
    (∀ f ∈ fs, cleanJ f.2 = true ∧ wfJ f.2 = true) →
    (∀ g ∈ gs, cleanJ g.2 = true ∧ wfJ g.2 = true) →
    topFieldsEquivB fuel fs gs = true →
    fs.map topEntryView = gs.map topEntryView
  | [], [], _, _, _ => rfl
  | [], _ :: _, _, _, h => by simp [topFieldsEquivB] at h
  | _ :: _, [], _, _, h => by simp [topFieldsEquivB] at h
  | f :: fs, g :: gs, ha, hb, h => by
      simp only [topFieldsEquivB, Bool.and_eq_true, decide_eq_true_eq] at h
      obtain ⟨hk, hv, ht⟩ := h
      have hcf := ha f (List.mem_cons_self f fs)
      have hcg := hb g (List.mem_cons_self g gs)
      have htail := topFields_view fuel fs gs
        (fun x hx => ha x (List.mem_cons_of_mem f hx))
        (fun x hx => hb x (List.mem_cons_of_mem g hx)) ht
      simp only [List.map_cons]
      rw [htail]
      congr 1
      by_cases hc : f.1 = "agentnet:content"
      · rw [if_pos hc] at hv
        have hc' : g.1 = "agentnet:content" := hk ▸ hc
        have hna : ¬ f.1 = "agentnet:asserted" := by rw [hc]; decide
        have hna' : ¬ g.1 = "agentnet:asserted" := by rw [hc']; decide
        simp only [topEntryView, if_neg hna, if_pos hc, if_neg hna', if_pos hc']
        exact Prod.ext hk (viewCanon_of_sSJ _ _
          (jEquivB_sound fuel f.2 g.2 hcf.1 hcg.1 hcf.2 hcg.2 hv))
      · rw [if_neg hc] at hv
        have hc' : ¬ g.1 = "agentnet:content" := hk ▸ hc
        by_cases hA : f.1 = "agentnet:asserted"
        · rw [if_pos hA] at hv
          have hA' : g.1 = "agentnet:asserted" := hk ▸ hA
          simp only [topEntryView, if_pos hA, if_pos hA']
          exact Prod.ext hk (assertedEquivB_view fuel f.2 g.2
            hcf.1 hcg.1 hcf.2 hcg.2 hv)
        · rw [if_neg hA] at hv
          have hA' : ¬ g.1 = "agentnet:asserted" := hk ▸ hA
          simp only [topEntryView, if_neg hA, if_neg hc, if_neg hA', if_neg hc']
          exact Prod.ext hk (jsonBEq_eq _ _ hv)

/- Envelope equivalence implies equal volatility-stripped views. -/
theorem envEquivB_view (fuel : Nat) (a b : Json)
    (ca : cleanJ a = true) (cb : cleanJ b = true)
    (wa : wfJ a = true) (wb : wfJ b = true)
    (h : envEquivB fuel a b = true) :
    stableFingerprintView a = stableFingerprintView b := by
  rcases a with _ | x | n | s | xs | fs <;> rcases b with _ | y | m | t | ys | gs <;>
    simp only [envEquivB] at h <;>
    first
      | rw [jsonBEq_eq _ _ h]
      | skip
  show Json.obj (modifyKey (modifyKey (modifyKey (stripVolatile fs)
      "agentnet:asserted" viewAssertedProv) "agentnet:asserted" viewAssertedJson)
      "agentnet:content" viewCanon) =
    Json.obj (modifyKey (modifyKey (modifyKey (stripVolatile gs)
      "agentnet:asserted" viewAssertedProv) "agentnet:asserted" viewAssertedJson)
      "agentnet:content" viewCanon)
  rw [modify3_eq_map, modify3_eq_map]
  simp only [cleanJ] at ca cb
  simp only [wfJ, Bool.and_eq_true] at wa wb
  refine congrArg Json.obj (topFields_view fuel _ _ ?_ ?_ h)
  · intro f hf
    have hf' : f ∈ fs := List.mem_of_mem_filter (List.mem_of_mem_filter
      (List.mem_of_mem_filter hf))
    exact ⟨((cleanJF_iff fs).mp ca f hf').2, (wfJF_iff fs).mp wa.2 f hf'⟩
  · intro g hg
    have hg' : g ∈ gs := List.mem_of_mem_filter (List.mem_of_mem_filter
      (List.mem_of_mem_filter hg))
    exact ⟨((cleanJF_iff gs).mp cb g hg').2, (wfJF_iff gs).mp wb.2 g hg'⟩

/-! ## C1: fingerprint determinism -/

/-- The envelope family used to refute the "iff" half of C1: pairwise
distinct, fixed to a single non-volatile field, already canonical. -/
def envC1 (n : Nat) : Json :=
  .obj [("agentnet:name", .str (String.mk (List.replicate n 'a')))]

theorem view_envC1 (n : Nat) : stableFingerprintView (envC1 n) = envC1 n := rfl

theorem envC1_clean (n : Nat) : cleanJ (envC1 n) = true := by
  have hs : cleanStr (String.mk (List.replicate n 'a')) = true := by
    simp only [cleanStr, List.all_eq_true]
    intro c hc
    rw [List.eq_of_mem_replicate hc]
    decide
  show (cleanStr "agentnet:name" &&
    (cleanStr (String.mk (List.replicate n 'a')) && true)) = true
  rw [hs]
  decide

theorem envC1_wf (n : Nat) : wfJ (envC1 n) = true := rfl

theorem envC1_inj {n m : Nat} (h : envC1 n = envC1 m) : n = m := by
  simp only [envC1, Json.obj.injEq, List.cons.injEq, Prod.mk.injEq,
    Json.str.injEq, and_true, true_and] at h
  have := congrArg (fun s => s.data.length) h
  simpa using this

/-- The byte digest the deterministic fingerprint of `envC1 n` is built
from. -/
def c1Bytes (n : Nat) : List Nat :=
  sha256 (utf8 (serL (stableFingerprintView (envC1 n))))

/-- The digest as a function into the finite type of 32-byte strings. -/
def c1F (n : Nat) : Fin 32 → Fin 256 :=
  fun i => ⟨(c1Bytes n).getD i.val 0 % 256, Nat.mod_lt _ (by norm_num)⟩

theorem c1Bytes_len (n : Nat) : (c1Bytes n).length = 32 := sha256_length _

theorem c1F_bytes {n m : Nat} (h : c1F n = c1F m) : c1Bytes n = c1Bytes m := by
  apply List.ext_getElem (by rw [c1Bytes_len, c1Bytes_len])
  intro i h1 h2
  have hi : i < 32 := by rw [c1Bytes_len] at h1; exact h1
  have hcf := congrFun h ⟨i, hi⟩
  simp only [c1F, Fin.mk.injEq] at hcf
  rw [List.getD_eq_getElem _ _ h1, List.getD_eq_getElem _ _ h2] at hcf
  have b1 : (c1Bytes n)[i] < 256 := sha256_lt _ _ (List.getElem_mem h1)
  have b2 : (c1Bytes m)[i] < 256 := sha256_lt _ _ (List.getElem_mem h2)
  rw [Nat.mod_eq_of_lt b1, Nat.mod_eq_of_lt b2] at hcf
  exact hcf

theorem c1_fp_eq {n m : Nat} (h : c1Bytes n = c1Bytes m) :
    fpDet (envC1 n) = fpDet (envC1 m) := by
  show "sha256:" ++ String.mk (hexBytes (c1Bytes n)) =
    "sha256:" ++ String.mk (hexBytes (c1Bytes m))
  rw [h]

/-- C1, counterexample.  The claimed guarantee "two envelopes are assigned
the same fingerprint iff their substantive (non-volatile) content is
structurally equal after canonicalization" is false: the fingerprint is a
256-bit SHA-256 digest, so by pigeonhole two structurally different
envelopes (even clean, well-formed ones that the canonicalizer leaves
untouched) collide.  Only the "if" direction holds; the "only if" direction
cannot. -/
theorem C1_counterexample :
    ¬ (∀ a b : Json, cleanJ a = true → cleanJ b = true →
        wfJ a = true → wfJ b = true →
        (fpDet a = fpDet b ↔
          stableFingerprintView a = stableFingerprintView b)) := by
  intro H
  obtain ⟨n, m, hne, hF⟩ := Finite.exists_ne_map_eq_of_infinite c1F
  have hfp : fpDet (envC1 n) = fpDet (envC1 m) := c1_fp_eq (c1F_bytes hF)
  have hview := (H (envC1 n) (envC1 m) (envC1_clean n) (envC1_clean m)
    (envC1_wf n) (envC1_wf m)).mp hfp
  rw [view_envC1, view_envC1] at hview
  exact hne (envC1_inj hview)

/-- C1, amended.  Fingerprint determinism (the direction that is true and
that the spec's bullet states): in deterministic mode, any two clean,
well-formed envelopes whose non-volatile content is structurally equal after
canonicalization — equal up to permutation of the asserted `json` block
array, up to object-key order inside asserted/content sub-trees, and up to
the volatile fields `agentnet:captureDate`, `agentnet:cgRunId`,
`agentnet:cgManifestPath` and the asserted provenance `capturedAt` — receive
the same fingerprint `fp(stableFingerprintView(e))`. -/
theorem C1_fingerprint_deterministic (fuel : Nat) (a b : Json)
    (ca : cleanJ a = true) (cb : cleanJ b = true)
    (wa : wfJ a = true) (wb : wfJ b = true)
    (h : envEquivB fuel a b = true) : fpDet a = fpDet b := by
  have hv := envEquivB_view fuel a b ca cb wa wb h
  show fp (stableFingerprintView a) = fp (stableFingerprintView b)
  rw [hv]

/-- A concrete envelope: fixed capture date, two asserted blocks, provenance
timestamp, content with two keys. -/
def envA : Json :=
  .obj [("agentnet:captureDate", .str "2024-01-01T00:00:00Z"),
        ("agentnet:asserted", .obj
          [("json", .arr [.obj [("@type", .str "Product"), ("name", .str "X")],
                          .obj [("@type", .str "Offer")]]),
           ("provenance", .obj [("capturedAt", .str "2024-01-01T00:00:01Z"),
                                ("sourceUrl", .str "https://e.com")])]),
        ("agentnet:content", .obj [("a", .null), ("b", .bool true)])]

/-- The same substantive envelope: different capture timestamps, asserted
blocks permuted with keys reordered, content keys reordered. -/
def envB : Json :=
  .obj [("agentnet:captureDate", .str "2024-02-02T09:09:09Z"),
        ("agentnet:asserted", .obj
          [("json", .arr [.obj [("@type", .str "Offer")],
                          .obj [("name", .str "X"), ("@type", .str "Product")]]),
           ("provenance", .obj [("capturedAt", .str "2024-02-02T09:09:10Z"),
                                ("sourceUrl", .str "https://e.com")])]),
        ("agentnet:content", .obj [("b", .bool true), ("a", .null)])]

theorem C1_witness :
    cleanJ envA = true ∧ cleanJ envB = true ∧ wfJ envA = true ∧ wfJ envB = true ∧
    envEquivB 20 envA envB = true ∧ fpDet envA = fpDet envB :=
  ⟨by decide, by decide, by decide, by decide, by decide,
   C1_fingerprint_deterministic 20 envA envB (by decide) (by decide)
     (by decide) (by decide) (by decide)⟩

/-! ## C2: merge precedence (`mergeCapsules`, normalize.js) -/

/-- `asObject` (normalize.js): a plain object passes through, everything else
(including arrays and `null`) becomes `{}`; here as its field list. -/
def asObjectF (x : Json) : List (String × Json) :=
  match x with
  | .obj fs => fs
  | _ => []

/-- JS `a || b`. -/
def jsOr (a b : Json) : Json := if jsTruthy a then a else b

/-- `fs[k] || b` where an absent key (undefined) is falsy. -/
def lookOr (fs : List (String × Json)) (k : String) (b : Json) : Json :=
  match getKey fs k with
  | some v => jsOr v b
  | none => b

/-- Whitespace for JS `String.prototype.trim`. -/
def isWS (c : Char) : Bool :=
  c = ' ' || c = Char.ofNat 9 || c = Char.ofNat 10 || c = Char.ofNat 11 ||
    c = Char.ofNat 12 || c = Char.ofNat 13 || c = Char.ofNat 160 ||
    c = Char.ofNat 65279

/-- `!s.trim()`: the string trims to empty, i.e. is all whitespace. -/
def jsAllWS (s : String) : Bool := s.data.all isWS

/-- `typeof orig[k] === "undefined" || (typeof orig[k] === "string" &&
!orig[k].trim())` — the "asserted value is empty" test of the merge loop. -/
def emptyExplicit (orig : List (String × Json)) (k : String) : Bool :=
  match getKey orig k with
  | none => true
  | some (.str s) => jsAllWS s
  | some _ => false

/-- One iteration of the `for (const [k, v] of Object.entries(inf))` loop. -/
def mergeStep (orig : List (String × Json)) (ow : Bool)
    (out : List (String × Json)) (f : String × Json) : List (String × Json) :=
  if f.1 = "@context" || f.1 = "@type" || f.1 = "agentnet:inferred" then out
  else if !(getKey orig f.1).isSome || (emptyExplicit orig f.1 || ow) then
    setKey out f.1 f.2
  else out

/-- Number of keys `Object.keys(v)` yields (string/array values expose their
indices). -/
def jsKeyCount (v : Json) : Nat :=
  match v with
  | .obj fs => fs.length
  | .arr xs => xs.length
  | .str s => s.length
  | _ => 0

/-- `{...a, ...b}` for the provenance objects: keys of `a` in order with
`b`'s value where `b` has the key, then `b`'s new keys.  Spreading a
non-object contributes nothing (the pipeline never spreads a string, whose
character indices JS would spread). -/
def jsSpread2 (a b : Json) : Json :=
  let af := asObjectF a
  let bf := asObjectF b
  .obj (af.map (fun f => match getKey bf f.1 with
      | some w => (f.1, w)
      | none => f) ++
    bf.filter (fun g => !(getKey af g.1).isSome))

/-- The body of `mergeCapsules` on the two field lists. -/
def mergeFields (orig inf : List (String × Json)) (ow : Bool) :
    List (String × Json) :=
  let prov := match getKey orig "agentnet:inferred" with
    | some v => if jsTruthy v then v else .obj []
    | none => .obj []
  let out1 := setKey orig "@context"
    (lookOr orig "@context" (lookOr inf "@context" (.str "https://agentnet.ai/context")))
  let out2 := setKey out1 "@type"
    (lookOr out1 "@type" (lookOr inf "@type" (.str "agentnet:Thing")))
  let out3 := inf.foldl (mergeStep orig ow) out2
  match getKey inf "agentnet:inferred" with
  | some ip =>
      if jsTruthy ip then setKey out3 "agentnet:inferred" (jsSpread2 prov ip)
      else if jsKeyCount prov ≠ 0 then setKey out3 "agentnet:inferred" prov
      else out3
  | none =>
      if jsKeyCount prov ≠ 0 then setKey out3 "agentnet:inferred" prov
      else out3

/-- `mergeCapsules(original, inferred, { overwriteExplicit })`
(normalize.js). -/
def mergeCapsules (original inferred : Json) (ow : Bool) : Json :=
  .obj (mergeFields (asObjectF original) (asObjectF inferred) ow)

/-- JS property read on a JSON value. -/
def getKeyJ (j : Json) (k : String) : Option Json :=
  match j with
  | .obj fs => getKey fs k
  | _ => none

theorem getKey_setKey_self (fs : List (String × Json)) (k : String) (v : Json) :
    getKey (setKey fs k v) k = some v := by
  induction fs with
  | nil => simp [setKey, getKey]
  | cons f fs ih =>
      obtain ⟨k', w⟩ := f
      by_cases h : k = k'
      · simp [setKey, getKey, h]
      · simp [setKey, getKey, h, ih]

theorem getKey_setKey_ne (fs : List (String × Json)) (k k' : String) (v : Json)
    (h : k ≠ k') : getKey (setKey fs k' v) k = getKey fs k := by
  induction fs with
  | nil => simp [setKey, getKey, h]
  | cons f fs ih =>
      obtain ⟨k'', w⟩ := f
      by_cases h2 : k' = k''
      · subst h2
        simp [setKey, getKey, h]
      · by_cases h3 : k = k''
        · simp [setKey, getKey, h2, h3]
        · simp [setKey, getKey, h2, h3, ih]

/- A merge-loop suffix none of whose entries has key `k` leaves `out[k]`
unchanged. -/
theorem foldl_mergeStep_notmem (orig : List (String × Json)) (ow : Bool)
    (k : String) :
    ∀ (inf out : List (String × Json)), k ∉ keysOf inf →
    getKey (inf.foldl (mergeStep orig ow) out) k = getKey out k := by
  intro inf
  induction inf with
  | nil => intro out _; rfl
  | cons f fs ih =>
      intro out hk
      simp only [keysOf, List.map_cons, List.mem_cons, not_or] at hk
      have hstep : getKey (mergeStep orig ow out f) k = getKey out k := by
        simp only [mergeStep]
        split_ifs with h1 h2
        · rfl
        · exact getKey_setKey_ne out k f.1 f.2 hk.1
        · rfl
      rw [List.foldl_cons, ih (mergeStep orig ow out f)
        (by simpa [keysOf] using hk.2), hstep]

/- The merge loop at a non-reserved key `k` carried by `inf`: the inferred
value lands unless the asserted object has a non-empty value at `k`. -/
theorem foldl_mergeStep_mem (orig : List (String × Json)) (ow : Bool)
    (k : String) (v : Json)
    (hnc : k ≠ "@context") (hnt : k ≠ "@type") (hni : k ≠ "agentnet:inferred") :
    ∀ (inf out : List (String × Json)), (keysOf inf).Nodup → (k, v) ∈ inf →
    getKey (inf.foldl (mergeStep orig ow) out) k =
      if !(getKey orig k).isSome || (emptyExplicit orig k || ow) then some v
      else getKey out k := by
  intro inf
  induction inf with
  | nil => intro out _ hm; exact absurd hm (List.not_mem_nil _)
  | cons f fs ih =>
      intro out hnd hm
      simp only [keysOf, List.map_cons, List.nodup_cons] at hnd
      rcases List.mem_cons.mp hm with hf | hf
      · subst hf
        have hnot : k ∉ keysOf fs := by simpa [keysOf] using hnd.1
        rw [List.foldl_cons, foldl_mergeStep_notmem orig ow k fs _ hnot]
        simp only [mergeStep]
        rw [if_neg (by simp [hnc, hnt, hni])]
        split_ifs with h
        · exact getKey_setKey_self out k v
        · rfl
      · have hk : k ≠ f.1 := by
          intro he
          exact hnd.1 (he ▸ (List.mem_map.mpr ⟨(k, v), hf, rfl⟩))
        have hstep : getKey (mergeStep orig ow out f) k = getKey out k := by
          simp only [mergeStep]
          split_ifs with h1 h2
          · rfl
          · exact getKey_setKey_ne out k f.1 f.2 hk
          · rfl
        rw [List.foldl_cons, ih (mergeStep orig ow out f) hnd.2 hf, hstep]

/-- C2.  Merge precedence (`mergeCapsules` with `overwriteExplicit = false`):
for JS objects `orig` and `inf`, every key `k` of the inferred object other
than `@context`, `@type`, `agentnet:inferred` appears in the merged result —
with the inferred value when the asserted object lacks `k` or holds only an
empty (undefined or all-whitespace string) value there, and with the
asserted value kept otherwise. -/
theorem C2_merge_precedence (orig inf : List (String × Json))
    (hwo : (keysOf orig).Nodup) (hwi : (keysOf inf).Nodup)
    (k : String) (v : Json) (hm : (k, v) ∈ inf)
    (hnc : k ≠ "@context") (hnt : k ≠ "@type") (hni : k ≠ "agentnet:inferred") :
    (emptyExplicit orig k = true →
      getKeyJ (mergeCapsules (.obj orig) (.obj inf) false) k = some v) ∧
    (∀ w, getKey orig k = some w → emptyExplicit orig k = false →
      getKeyJ (mergeCapsules (.obj orig) (.obj inf) false) k = some w) := by
  have hmain : getKeyJ (mergeCapsules (.obj orig) (.obj inf) false) k =
      if !(getKey orig k).isSome || (emptyExplicit orig k || false) then some v
      else getKey orig k := by
    show getKey (mergeFields orig inf false) k = _
    simp only [mergeFields]
    have hpast : ∀ out3 : List (String × Json),
        getKey
          (match getKey inf "agentnet:inferred" with
           | some ip =>
               if jsTruthy ip then
                 setKey out3 "agentnet:inferred"
                   (jsSpread2 (match getKey orig "agentnet:inferred" with
                     | some v => if jsTruthy v then v else .obj []
                     | none => .obj []) ip)
               else if jsKeyCount (match getKey orig "agentnet:inferred" with
                     | some v => if jsTruthy v then v else .obj []
                     | none => .obj []) ≠ 0 then
                 setKey out3 "agentnet:inferred"
                   (match getKey orig "agentnet:inferred" with
                     | some v => if jsTruthy v then v else .obj []
                     | none => .obj [])
               else out3
           | none =>
               if jsKeyCount (match getKey orig "agentnet:inferred" with
                     | some v => if jsTruthy v then v else .obj []
                     | none => .obj []) ≠ 0 then
                 setKey out3 "agentnet:inferred"
                   (match getKey orig "agentnet:inferred" with
                     | some v => if jsTruthy v then v else .obj []
                     | none => .obj [])
               else out3) k = getKey out3 k := by
      intro out3
      rcases getKey inf "agentnet:inferred" with _ | ip <;>
        dsimp only <;> split_ifs <;>
        first
          | rfl
          | exact getKey_setKey_ne out3 k "agentnet:inferred" _ hni
    rw [hpast]
    rw [foldl_mergeStep_mem orig false k v hnc hnt hni inf _ hwi hm]
    congr 1
    rw [getKey_setKey_ne _ k "@type" _ hnt, getKey_setKey_ne _ k "@context" _ hnc]
  constructor
  · intro he
    rw [hmain, if_pos (by rw [he]; simp)]
  · intro w hw hne
    rw [hmain, if_neg (by rw [hw, hne]; simp), hw]

/-- C2 witness: the claim's concrete example.  Merging asserted
`{"name": "Acme"}` with inferred `{"name": "Other", "email": "x@y.com"}`
keeps `name = "Acme"` and adds `email = "x@y.com"`. -/
theorem C2_witness :
    getKeyJ (mergeCapsules (.obj [("name", .str "Acme")])
      (.obj [("name", .str "Other"), ("email", .str "x@y.com")]) false) "name" =
      some (.str "Acme") ∧
    getKeyJ (mergeCapsules (.obj [("name", .str "Acme")])
      (.obj [("name", .str "Other"), ("email", .str "x@y.com")]) false) "email" =
      some (.str "x@y.com") :=
  ⟨(C2_merge_precedence [("name", .str "Acme")]
      [("name", .str "Other"), ("email", .str "x@y.com")] (by decide) (by decide)
      "name" (.str "Other") (by simp) (by decide) (by decide) (by decide)).2
      (.str "Acme") rfl (by decide),
   (C2_merge_precedence [("name", .str "Acme")]
      [("name", .str "Other"), ("email", .str "x@y.com")] (by decide) (by decide)
      "email" (.str "x@y.com") (by simp) (by decide) (by decide) (by decide)).1
      (by decide)⟩

/-! ## C3: tiny-price guardrail (`guardTinyPrice`, worker.js)

`Number(p)` is modelled faithfully for the JSON value space: numbers pass
through, strings go through the `Number()` string grammar (decimal with
optional sign/fraction/exponent, hex/octal/binary, `Infinity`, empty →
`0`), booleans and `null` coerce to `1/0`, arrays coerce through their
`toString` join, plain objects stringify to `"[object Object]"` (NaN). -/

/-- A JS number as `Number()` produces it: finite (decimal), `NaN`, or
`±Infinity`. -/
inductive JSNum where
  | fin (n : JNum)
  | nan
  | inf (pos : Bool)
deriving DecidableEq

def isHexDigitC (c : Char) : Bool :=
  isDigitC c || (97 ≤ c.toNat && c.toNat ≤ 102) || (65 ≤ c.toNat && c.toNat ≤ 70)

def isOctDigitC (c : Char) : Bool := 48 ≤ c.toNat && c.toNat ≤ 55

def isBinDigitC (c : Char) : Bool := c = '0' || c = '1'

def hexDigitVal (c : Char) : Nat :=
  if isDigitC c then c.toNat - 48
  else if 97 ≤ c.toNat then c.toNat - 87
  else c.toNat - 55

def radixVal (r : Nat) (ds : List Char) : Nat :=
  ds.foldl (fun a c => r * a + hexDigitVal c) 0

def trimWS (l : List Char) : List Char :=
  ((l.dropWhile isWS).reverse.dropWhile isWS).reverse

/-- `±(ip.fp) * 10^ex` as a decimal `JNum`. -/
def mkDecJNum (neg : Bool) (ip fp : List Char) (ex : Int) : JNum :=
  let m0 : Nat := decodeDigits ip * 10 ^ fp.length + decodeDigits fp
  let sm : Int := if neg then -(m0 : Int) else (m0 : Int)
  if (fp.length : Int) ≤ ex then ⟨sm * 10 ^ (ex - fp.length).toNat, 0⟩
  else ⟨sm, ((fp.length : Int) - ex).toNat⟩

/-- The exponent suffix of a `Number()` decimal literal; `none` on trailing
garbage. -/
def parseExpTail (l : List Char) : Option Int :=
  match l with
  | [] => some 0
  | c :: rest =>
      if c = 'e' || c = 'E' then
        match rest with
        | '+' :: ds =>
            if !ds.isEmpty && ds.all isDigitC then some ((decodeDigits ds : Int))
            else none
        | '-' :: ds =>
            if !ds.isEmpty && ds.all isDigitC then some (-(decodeDigits ds : Int))
            else none
        | ds =>
            if !ds.isEmpty && ds.all isDigitC then some ((decodeDigits ds : Int))
            else none
      else none

/-- An unsigned decimal literal `digits[.digits][exp]` or `.digits[exp]`. -/
def parseDecMag (neg : Bool) (l : List Char) : Option JNum :=
  let ip := l.takeWhile isDigitC
  let r1 := l.dropWhile isDigitC
  match r1 with
  | '.' :: r2 =>
      let fp := r2.takeWhile isDigitC
      let r3 := r2.dropWhile isDigitC
      if ip.isEmpty && fp.isEmpty then none
      else (parseExpTail r3).map (mkDecJNum neg ip fp)
  | r1' =>
      if ip.isEmpty then none
      else (parseExpTail r1').map (mkDecJNum neg ip [])

def radixNum (rad : Nat) (ok : Char → Bool) (ds : List Char) : JSNum :=
  if !ds.isEmpty && ds.all ok then .fin ⟨(radixVal rad ds : Int), 0⟩ else .nan

def parseSignedMag (neg : Bool) (r : List Char) : JSNum :=
  if r = "Infinity".data then .inf (!neg)
  else match parseDecMag neg r with
    | some n => .fin n
    | none => .nan

def parseUnsignedMag (r : List Char) : JSNum :=
  if r = "Infinity".data then .inf true
  else if r.take 2 = ['0', 'x'] || r.take 2 = ['0', 'X'] then
    radixNum 16 isHexDigitC (r.drop 2)
  else if r.take 2 = ['0', 'o'] || r.take 2 = ['0', 'O'] then
    radixNum 8 isOctDigitC (r.drop 2)
  else if r.take 2 = ['0', 'b'] || r.take 2 = ['0', 'B'] then
    radixNum 2 isBinDigitC (r.drop 2)
  else match parseDecMag false r with
    | some n => .fin n
    | none => .nan

/-- `Number(s)` for a string. -/
def parseNumStr (s : String) : JSNum :=
  match trimWS s.data with
  | [] => .fin ⟨0, 0⟩
  | '+' :: r => parseSignedMag false r
  | '-' :: r => parseSignedMag true r
  | r => parseUnsignedMag r

/- JS `String(v)` / `Array.prototype.toString`, for `Number()` of arrays and
objects (`null` renders empty inside an array join). -/
mutual

def jsToStr : Json → String
  | .null => "null"
  | .bool b => if b then "true" else "false"
  | .num n => String.mk (renderNum n)
  | .str s => s
  | .arr xs => jsArrJoin xs
  | .obj _ => "[object Object]"

def jsArrJoin : List Json → String
  | [] => ""
  | [x] => jsElemStr x
  | x :: xs => jsElemStr x ++ "," ++ jsArrJoin xs

def jsElemStr : Json → String
  | .null => ""
  | .bool b => if b then "true" else "false"
  | .num n => String.mk (renderNum n)
  | .str s => s
  | .arr xs => jsArrJoin xs
  | .obj _ => "[object Object]"

end

/-- `Number(v)`. -/
def jsToNumber : Json → JSNum
  | .null => .fin ⟨0, 0⟩
  | .bool b => .fin ⟨if b then 1 else 0, 0⟩
  | .num n => .fin n
  | .str s => parseNumStr s
  | .arr xs => parseNumStr (jsToStr (.arr xs))
  | .obj fs => parseNumStr (jsToStr (.obj fs))

/-- `n > 0 && n < 5` on a decimal number. -/
def tinyPrice (n : JNum) : Bool :=
  decide (0 < n.m) && decide (n.m < 5 * 10 ^ n.e)

theorem tinyPrice_iff (n : JNum) :
    tinyPrice n = true ↔ 0 < n.val ∧ n.val < 5 := by
  have h10 : (0 : ℚ) < 10 ^ n.e := by positivity
  simp only [tinyPrice, Bool.and_eq_true, decide_eq_true_eq, JNum.val,
    lt_div_iff h10, div_lt_iff h10, zero_mul]
  constructor
  · rintro ⟨h1, h2⟩
    exact ⟨by exact_mod_cast h1, by exact_mod_cast h2⟩
  · rintro ⟨h1, h2⟩
    exact ⟨by exact_mod_cast h1, by exact_mod_cast h2⟩

/-- `guardTinyPrice(content, report)` (worker.js): drops a small positive
resolved price from the content and records the removal on the report;
returns the updated `(content, report)` pair (the JS function mutates its
arguments). -/
def guardTinyPrice (content report : List (String × Json)) :
    List (String × Json) × List (String × Json) :=
  match getKey content "agentnet:price" with
  | none => (content, report)
  | some .null => (content, report)
  | some p =>
      match jsToNumber p with
      | .fin n =>
          if tinyPrice n then
            (delKey content "agentnet:price",
             setKey report "priceGuardrail"
               (.obj [("dropped", .bool true), ("reason", .str "tiny_price"),
                      ("threshold", .num ⟨5, 0⟩), ("observed", .num n)]))
          else (content, report)
      | _ => (content, report)

theorem guard_match_reduce (content report : List (String × Json)) (p : Json)
    (hnull : p ≠ .null) (hk : getKey content "agentnet:price" = some p) :
    guardTinyPrice content report =
      (match jsToNumber p with
       | .fin n =>
           if tinyPrice n then
             (delKey content "agentnet:price",
              setKey report "priceGuardrail"
                (.obj [("dropped", .bool true), ("reason", .str "tiny_price"),
                       ("threshold", .num ⟨5, 0⟩), ("observed", .num n)]))
           else (content, report)
       | _ => (content, report)) := by
  simp only [guardTinyPrice, hk]

/-- C3.  Tiny-price guardrail: if the content's resolved price `Number(p)`
is a finite `n` with `0 < n < 5`, `guardTinyPrice` deletes
`agentnet:price` from the content and writes
`report.priceGuardrail = {dropped: true, reason: "tiny_price", threshold: 5,
observed: n}`; when the price is absent, `null`, non-numeric (`NaN`,
`±Infinity`), zero, negative, or at least the threshold, both content and
report are unchanged. -/
theorem C3_tiny_price_guardrail (content report : List (String × Json)) :
    (∀ p n, getKey content "agentnet:price" = some p → p ≠ .null →
      jsToNumber p = .fin n → 0 < n.val → n.val < 5 →
      guardTinyPrice content report =
        (delKey content "agentnet:price",
         setKey report "priceGuardrail"
           (.obj [("dropped", .bool true), ("reason", .str "tiny_price"),
                  ("threshold", .num ⟨5, 0⟩), ("observed", .num n)]))) ∧
    ((∀ p, getKey content "agentnet:price" = some p → p ≠ .null →
        ∀ n, jsToNumber p = .fin n → ¬(0 < n.val ∧ n.val < 5)) →
      guardTinyPrice content report = (content, report)) := by
  constructor
  · intro p n hk hnull hnum h0 h5
    rw [guard_match_reduce content report p hnull hk, hnum]
    dsimp only
    rw [if_pos ((tinyPrice_iff n).mpr ⟨h0, h5⟩)]
  · intro hkeep
    rcases hk : getKey content "agentnet:price" with _ | p
    · simp only [guardTinyPrice, hk]
    · by_cases hnull : p = .null
      · subst hnull
        simp only [guardTinyPrice, hk]
      · rw [guard_match_reduce content report p hnull hk]
        rcases hn : jsToNumber p with n | _ | pos
        · dsimp only
          rw [if_neg (fun ht => hkeep p hk hnull n hn ((tinyPrice_iff n).mp ht))]
        · rfl
        · rfl

/-- C3 witness: the claim's example price `2.50` (represented as the decimal
`250 × 10⁻²`) is dropped and the report records `reason: "tiny_price"`,
`threshold: 5`, `observed: 2.50`. -/
theorem C3_witness :
    guardTinyPrice [("agentnet:price", .num ⟨250, 2⟩)] [] =
      ([], [("priceGuardrail", .obj
        [("dropped", .bool true), ("reason", .str "tiny_price"),
         ("threshold", .num ⟨5, 0⟩), ("observed", .num ⟨250, 2⟩)])]) :=
  (C3_tiny_price_guardrail [("agentnet:price", .num ⟨250, 2⟩)] []).1
    (.num ⟨250, 2⟩) ⟨250, 2⟩ rfl (by simp) rfl
    (by norm_num [JNum.val]) (by norm_num [JNum.val])

/-! ## C5: price extraction (`extractPrice`, normalize.js)

The hardened price regex
`/(?:USD|EUR|GBP|JPY|CAD|AUD)?\s*([$€£¥]|C\$|A\$)\s?(amount)\b|\b(USD|…)\b\s?(amount)\b/i`
with `amount = \d{1,3}(?:[.,]\d{3})*(?:[.,]\d{2})?` is modelled as an
explicit leftmost-match backtracking scanner. -/

/-- JS `\w`. -/
def isWordChar (c : Char) : Bool :=
  isDigitC c || (65 ≤ c.toNat && c.toNat ≤ 90) || (97 ≤ c.toNat && c.toNat ≤ 122) ||
    c = '_'

def isSymChar (c : Char) : Bool := c = '$' || c = '€' || c = '£' || c = '¥'

/-- The symbol alternation `[$€£¥]|C\$|A\$` (case-insensitive, so `c$`/`a$`
also match); returns the raw captured characters and the remainder. -/
def matchSym : List Char → Option (List Char × List Char)
  | [] => none
  | c :: rest =>
      if isSymChar c then some ([c], rest)
      else match rest with
        | c2 :: rest2 =>
            if (c = 'C' || c = 'c' || c = 'A' || c = 'a') && c2 = '$' then
              some ([c, c2], rest2)
            else none
        | [] => none

/-- Case-insensitive literal prefix (`pat` given lowercase); returns the raw
matched text and the remainder. -/
def ciPrefix (pat l : List Char) : Option (List Char × List Char) :=
  if (l.take pat.length).map Char.toLower = pat then
    some (l.take pat.length, l.drop pat.length)
  else none

def ciAnyPrefix (pats : List (List Char)) (l : List Char) :
    Option (List Char × List Char) :=
  match pats with
  | [] => none
  | p :: ps =>
      match ciPrefix p l with
      | some r => some r
      | none => ciAnyPrefix ps l

def currencyCodes : List (List Char) :=
  [['u','s','d'], ['e','u','r'], ['g','b','p'], ['j','p','y'], ['c','a','d'],
   ['a','u','d']]

def digitsPrefixLen (l : List Char) : Nat := (l.takeWhile isDigitC).length

/-- `(?:[.,]\d{3})*` repetition counts in ascending order (position 0 first),
each with the consumed characters and the remainder. -/
def threesAsc : List Char → List (List Char × List Char)
  | s :: d1 :: d2 :: d3 :: rest =>
      if (s = '.' || s = ',') && (isDigitC d1 && isDigitC d2 && isDigitC d3) then
        ([], s :: d1 :: d2 :: d3 :: rest) ::
          (threesAsc rest).map (fun p => (s :: d1 :: d2 :: d3 :: p.1, p.2))
      else [([], s :: d1 :: d2 :: d3 :: rest)]
  | l => [([], l)]

/-- `(?:[.,]\d{2})?` — with the group first (greedy), then without. -/
def decTwoOpt : List Char → List (List Char × List Char)
  | s :: d1 :: d2 :: rest =>
      if (s = '.' || s = ',') && (isDigitC d1 && isDigitC d2) then
        [([s, d1, d2], rest), ([], s :: d1 :: d2 :: rest)]
      else [([], s :: d1 :: d2 :: rest)]
  | l => [([], l)]

/-- `\b` after a digit: end of input or a non-word character. -/
def wordBreakAfter (r : List Char) : Bool :=
  match r with
  | [] => true
  | c :: _ => !isWordChar c

/-- Candidate matches of the amount pattern in regex backtracking order. -/
def amountCands (l : List Char) : List (List Char × List Char) :=
  let n := min 3 (digitsPrefixLen l)
  ((List.range n).map (fun i => n - i)).flatMap (fun n1 =>
    ((threesAsc (l.drop n1)).reverse).flatMap (fun g =>
      (decTwoOpt g.2).map (fun dd => (l.take n1 ++ g.1 ++ dd.1, dd.2))))

def amountMatch (l : List Char) : Option (List Char × List Char) :=
  (amountCands l).find? (fun p => wordBreakAfter p.2)

/-- `\s?` — one whitespace consumed (greedy) or none. -/
def wsOptCands (l : List Char) : List (List Char) :=
  match l with
  | c :: rest => if isWS c then [rest, c :: rest] else [c :: rest]
  | [] => [[]]

/-- First alternative: optional non-captured ISO code, `\s*`, currency
symbol (captured), `\s?`, amount (captured), `\b`. -/
def alt1 (l : List Char) : Option (List Char × List Char) :=
  let starts := match ciAnyPrefix currencyCodes l with
    | some (_, rest) => [rest, l]
    | none => [l]
  starts.findSome? (fun s0 =>
    match matchSym (s0.dropWhile isWS) with
    | some (sym, r) =>
        (wsOptCands r).findSome? (fun r2 =>
          (amountMatch r2).map (fun am => (sym, am.1)))
    | none => none)

/-- Second alternative: `\b`, ISO code (captured), `\b`, `\s?`, amount,
`\b`; `prev` is the character before the current position. -/
def alt2 (prev : Option Char) (l : List Char) : Option (List Char × List Char) :=
  let prevWord := match prev with | some c => isWordChar c | none => false
  if prevWord then none
  else
    match ciAnyPrefix currencyCodes l with
    | some (raw, rest) =>
        if wordBreakAfter rest then
          (wsOptCands rest).findSome? (fun r2 =>
            (amountMatch r2).map (fun am => (raw, am.1)))
        else none
    | none => none

/-- `text.match(priceRe)`: scan left to right, at each position try the
symbol alternative then the ISO-code alternative; result is
`(m[1], m[3], amount)`. -/
def findPrice : Option Char → List Char →
    Option (Option (List Char) × Option (List Char) × List Char)
  | _, [] => none
  | prev, c :: rest =>
      match alt1 (c :: rest) with
      | some (sym, amt) => some (some sym, none, amt)
      | none =>
          match alt2 prev (c :: rest) with
          | some (code, amt) => some (none, some code, amt)
          | none => findPrice (some c) rest

/-- `amountRaw.replace(/[.,](?=\d{3}\b)/g, "")`. -/
def stripSeps : List Char → List Char
  | [] => []
  | c :: rest =>
      if (c = '.' || c = ',') &&
         (match rest with
          | d1 :: d2 :: d3 :: r =>
              isDigitC d1 && isDigitC d2 && isDigitC d3 && wordBreakAfter r
          | _ => false) then
        stripSeps rest
      else c :: stripSeps rest

/-- `.replace(",", ".")` — first occurrence only. -/
def replFirstComma : List Char → List Char
  | [] => []
  | c :: rest => if c = ',' then '.' :: rest else c :: replFirstComma rest

/-- Structural (fuelled) decimal digit rendering, kernel-evaluable. -/
def natDigitsFuel : Nat → Nat → List Char
  | 0, _ => []
  | fuel + 1, n => if n < 10 then [digitChar n] else
      natDigitsFuel fuel (n / 10) ++ [digitChar (n % 10)]

def natDigitsE (n : Nat) : List Char := natDigitsFuel (n + 1) n

/-- `amount.toFixed(2)`.  The amounts the price regex yields carry at most
two decimals, so the rounding branch never fires on pipeline inputs. -/
def toFixed2 (n : JNum) : String :=
  let cents : Int :=
    if n.e ≤ 2 then n.m * 10 ^ (2 - n.e)
    else (n.m + (10 ^ (n.e - 2) : Int) / 2) / 10 ^ (n.e - 2)
  (if cents < 0 then "-" else "") ++
    String.mk (natDigitsE (cents.natAbs / 100)) ++ "." ++
    String.mk [digitChar (cents.natAbs / 10 % 10), digitChar (cents.natAbs % 10)]

/-- `toUSDLikeCurrency(sym)`: map on the raw captured symbol. -/
def toUSDLike (sym : Option (List Char)) : Option String :=
  match sym with
  | none => none
  | some s =>
      if s = ['$'] then some "USD"
      else if s = ['€'] then some "EUR"
      else if s = ['£'] then some "GBP"
      else if s = ['¥'] then some "JPY"
      else if s = ['C', '$'] then some "CAD"
      else if s = ['A', '$'] then some "AUD"
      else none

/-- `extractPrice(text)` (normalize.js): `(price, priceCurrency)` or
`null`. -/
def extractPrice (t : List Char) : Option (String × String) :=
  match findPrice none t with
  | none => none
  | some (sym, code, amtRaw) =>
      if amtRaw.isEmpty then none
      else
        match parseNumStr (String.mk (replFirstComma (stripSeps amtRaw))) with
        | .fin n =>
            match (match code with
                   | some c => some (String.mk c)
                   | none => toUSDLike sym) with
            | some cur => some (toFixed2 n, cur)
            | none => none
        | _ => none

/-- Text carries an explicit currency marker: a currency symbol character,
or one of the six ISO codes as a case-insensitive substring. -/
def hasCurrencyMarker (t : List Char) : Bool :=
  t.any isSymChar ||
    decide (∃ code ∈ currencyCodes, code <:+: t.map Char.toLower)

theorem matchSym_marker (l : List Char) (v : List Char × List Char)
    (h : matchSym l = some v) : ∃ c ∈ l, isSymChar c = true := by
  rcases l with _ | ⟨c, rest⟩
  · exact absurd h (by simp [matchSym])
  · by_cases h1 : isSymChar c = true
    · exact ⟨c, List.mem_cons_self c rest, h1⟩
    · rcases rest with _ | ⟨c2, rest2⟩
      · rw [show matchSym [c] = if isSymChar c then some ([c], []) else none from rfl,
          if_neg h1] at h
        exact absurd h (by simp)
      · rw [show matchSym (c :: c2 :: rest2) =
            if isSymChar c then some ([c], c2 :: rest2)
            else if (c = 'C' || c = 'c' || c = 'A' || c = 'a') && c2 = '$' then
              some ([c, c2], rest2)
            else none from rfl, if_neg h1] at h
        split_ifs at h with h2
        have h2' : c2 = '$' := by
          have := (Bool.and_eq_true _ _).mp h2
          simpa using this.2
        refine ⟨c2, by simp, ?_⟩
        rw [h2']
        decide

theorem ciAnyPrefix_suffix (pats : List (List Char)) (l : List Char)
    (v : List Char × List Char) (h : ciAnyPrefix pats l = some v) : v.2 <:+ l := by
  induction pats with
  | nil => exact absurd h (by simp [ciAnyPrefix])
  | cons p ps ih =>
      simp only [ciAnyPrefix] at h
      rcases hp : ciPrefix p l with _ | w
      · rw [hp] at h
        exact ih h
      · rw [hp] at h
        cases h
        simp only [ciPrefix] at hp
        split_ifs at hp with hc
        cases hp
        exact List.drop_suffix _ _

theorem ciAnyPrefix_code (pats : List (List Char)) (l : List Char)
    (v : List Char × List Char) (h : ciAnyPrefix pats l = some v) :
    ∃ p ∈ pats, p <+: l.map Char.toLower := by
  induction pats with
  | nil => exact absurd h (by simp [ciAnyPrefix])
  | cons p ps ih =>
      simp only [ciAnyPrefix] at h
      rcases hp : ciPrefix p l with _ | w
      · rw [hp] at h
        obtain ⟨q, hq, hpre⟩ := ih h
        exact ⟨q, List.mem_cons_of_mem p hq, hpre⟩
      · refine ⟨p, List.mem_cons_self p ps, ?_⟩
        simp only [ciPrefix] at hp
        split_ifs at hp with hc
        rw [List.map_take] at hc
        exact hc ▸ List.take_prefix _ _

theorem alt1_marker (l : List Char) (v : List Char × List Char)
    (h : alt1 l = some v) : ∃ c ∈ l, isSymChar c = true := by
  simp only [alt1] at h
  obtain ⟨s0, hs0, hf⟩ := List.exists_of_findSome?_eq_some h
  have hsuf : s0 <:+ l := by
    rcases hci : ciAnyPrefix currencyCodes l with _ | w
    · rw [hci] at hs0
      simp only [List.mem_cons, List.not_mem_nil, or_false] at hs0
      rw [hs0]
    · rw [hci] at hs0
      simp only [List.mem_cons, List.not_mem_nil, or_false] at hs0
      rcases hs0 with hs0 | hs0
      · rw [hs0]
        exact ciAnyPrefix_suffix _ _ _ hci
      · rw [hs0]
  rcases hm : matchSym (s0.dropWhile isWS) with _ | w
  · rw [hm] at hf
    exact absurd hf (by simp)
  · obtain ⟨c, hc, hsym⟩ := matchSym_marker _ _ hm
    have hc2 : c ∈ s0 := (List.dropWhile_suffix isWS).sublist.subset hc
    exact ⟨c, hsuf.sublist.subset hc2, hsym⟩

theorem alt2_marker (prev : Option Char) (l : List Char)
    (v : List Char × List Char) (h : alt2 prev l = some v) :
    ∃ p ∈ currencyCodes, p <+: l.map Char.toLower := by
  simp only [alt2] at h
  split_ifs at h with hw
  rcases hci : ciAnyPrefix currencyCodes l with _ | w
  · rw [hci] at h
    exact absurd h (by simp)
  · exact ciAnyPrefix_code _ _ _ hci

theorem findPrice_marker :
    ∀ (l : List Char) (prev : Option Char)
      (v : Option (List Char) × Option (List Char) × List Char),
    findPrice prev l = some v → hasCurrencyMarker l = true := by
  intro l
  induction l with
  | nil => intro prev v h; exact absurd h (by simp [findPrice])
  | cons c rest ih =>
      intro prev v h
      simp only [findPrice] at h
      rcases h1 : alt1 (c :: rest) with _ | w1
      · rw [h1] at h
        rcases h2 : alt2 prev (c :: rest) with _ | w2
        · rw [h2] at h
          have hm := ih (some c) v h
          simp only [hasCurrencyMarker, Bool.or_eq_true, List.any_eq_true,
            decide_eq_true_eq] at hm ⊢
          rcases hm with ⟨x, hx, hsx⟩ | ⟨code, hcode, hinf⟩
          · exact Or.inl ⟨x, List.mem_cons_of_mem c hx, hsx⟩
          · obtain ⟨s, t, he⟩ := hinf
            exact Or.inr ⟨code, hcode, Char.toLower c :: s, t, by
              simp [List.map_cons, ← he]⟩
        · rw [h2] at h
          obtain ⟨p, hp, hpre⟩ := alt2_marker prev (c :: rest) w2 h2
          simp only [hasCurrencyMarker, Bool.or_eq_true, decide_eq_true_eq]
          exact Or.inr ⟨p, hp, hpre.isInfix⟩
      · obtain ⟨x, hx, hsx⟩ := alt1_marker (c :: rest) w1 h1
        simp only [hasCurrencyMarker, Bool.or_eq_true, List.any_eq_true]
        exact Or.inl ⟨x, hx, hsx⟩

/-- C5.  Currency-marker requirement: `extractPrice` returns a result only
when the text carries an explicit currency symbol or ISO currency code; on
any text without such a marker (in particular one with a bare numeric
amount) it returns `null`. -/
theorem C5_currency_marker (t : List Char) :
    (∀ r, extractPrice t = some r → hasCurrencyMarker t = true) ∧
    (hasCurrencyMarker t = false → extractPrice t = none) := by
  have h1 : ∀ r, extractPrice t = some r → hasCurrencyMarker t = true := by
    intro r h
    rcases hf : findPrice none t with _ | v
    · rw [extractPrice, hf] at h
      exact absurd h (by simp)
    · exact findPrice_marker t none v hf
  refine ⟨h1, fun hm => ?_⟩
  rcases he : extractPrice t with _ | r
  · rfl
  · rw [h1 r he] at hm
    exact Bool.noConfusion hm

/-- C5 witness: a text with a bare numeric amount and no currency marker
yields no price; the marker check evaluates to false on it; and a text with
`$49.99` yields price `"49.99"` in `USD`. -/
theorem C5_witness :
    hasCurrencyMarker "Rated 4.5 by 1000 users".data = false ∧
    extractPrice "Rated 4.5 by 1000 users".data = none ∧
    extractPrice "Price: $49.99 today".data = some ("49.99", "USD") :=
  ⟨by decide, (C5_currency_marker "Rated 4.5 by 1000 users".data).2 (by decide),
   by decide⟩

/-! ## C4: price-inference gate (`inferCapsule`, normalize.js)

The page-feature detectors that feed the gate (`detectType`,
`hasStrongCommerceIntent`, `extractPrice`) are implemented faithfully; the
independent field extractors (`extractSKU`, `extractBrand`,
`extractContacts`, `extractAddress`, `extractPublishDates`, the byline /
title / meta-description regexes) and the LLM response are supplied as an
oracle record, so the theorems hold for every possible result of those
extractors.  `detectType` is modelled by its `type` component; its
`confidence` feeds only the floating-point provenance confidence, which is
threaded through as the opaque oracle value `typeConf`. -/

/-- Substring test (`String.prototype.includes` on character lists). -/
def isInfixB (needle : List Char) : List Char → Bool
  | [] => needle.isEmpty
  | c :: rest => needle.isPrefixOf (c :: rest) || isInfixB needle rest

/-- `s.replace(/\s+/g, " ")`: collapse every whitespace run to one space
(the flag records whether the previous character was whitespace). -/
def collapseWS : Bool → List Char → List Char
  | _, [] => []
  | prevWs, c :: rest =>
      if isWS c then
        (if prevWs then collapseWS true rest else ' ' :: collapseWS true rest)
      else c :: collapseWS false rest

/-- `normText` (normalize.js); the second replace (`[^\S\r\n]+` → space) is
a no-op after the first. -/
def normTextL (l : List Char) : List Char := trimWS (collapseWS false l)

def lowerL (l : List Char) : List Char := l.map Char.toLower

def optWord (o : Option Char) : Bool :=
  match o with
  | some c => isWordChar c
  | none => false

/-- `\b` between two (possibly absent) characters. -/
def boundaryB (a b : Option Char) : Bool := optWord a != optWord b

/-- Count non-overlapping `\btoken\b` matches (the global regex of
`indicatorScore`); `prev` is the previous character, `skip` the characters
still covered by the current match. -/
def countTokAux (tok : List Char) : List Char → Option Char → Nat → Nat
  | [], _, _ => 0
  | c :: rest, prev, skip =>
      if 0 < skip then countTokAux tok rest (some c) (skip - 1)
      else if tok.isPrefixOf (c :: rest) && boundaryB prev tok.head? &&
          boundaryB tok.getLast? (((c :: rest).drop tok.length).head?) then
        1 + countTokAux tok rest (some c) (tok.length - 1)
      else countTokAux tok rest (some c) 0

def countTok (tok l : List Char) : Nat := countTokAux tok l none 0

def indicatorScore (text : List Char) (inds : List (List Char)) : Nat :=
  (inds.map (fun ind => countTok (lowerL ind) (lowerL text))).sum

def productIndicators : List (List Char) :=
  ["add to cart".data, "buy now".data, "sku".data, "specifications".data,
   "in stock".data, "price".data, "was".data, "sale".data, "checkout".data]

def orgIndicators : List (List Char) :=
  ["about us".data, "our team".data, "contact us".data, "headquarters".data,
   "mission".data, "careers".data, "phone".data, "address".data, "hours".data]

def articleIndicators : List (List Char) :=
  ["by ".data, "author".data, "published".data, "updated".data,
   "read more".data, "minutes read".data, "newsletter".data]

/-- `detectType({text}).type` (normalize.js). -/
def detectType (text : List Char) : String :=
  let prodScore := indicatorScore text productIndicators
  let orgScore := indicatorScore text orgIndicators
  let artScore := indicatorScore text articleIndicators
  let mx := max prodScore (max orgScore artScore)
  let ty := "agentnet:Thing"
  let ty := if mx = prodScore ∧ 0 < mx then "agentnet:Product" else ty
  let ty := if mx = orgScore ∧ prodScore < mx then "agentnet:Organization" else ty
  if mx = artScore ∧ prodScore < mx ∧ orgScore < mx then "agentnet:Article" else ty

def strongCommerceTokens : List (List Char) :=
  ["add to cart".data, "checkout".data, "buy now".data, "shop now".data,
   "order now".data, "shipping".data, "returns".data, "size".data,
   "color".data, "quantity".data, "in stock".data, "out of stock".data,
   "variants".data, "select size".data, "select color".data]

/-- `hasStrongCommerceIntent(text)`: at least two of the fixed strong
tokens occur in the lowercased text. -/
def hasStrongCommerceIntent (t : List Char) : Bool :=
  decide (2 ≤ (strongCommerceTokens.filter
    (fun tok => isInfixB tok (lowerL t))).length)

/-- `addProvenance(target, key, confidence, source, method)`; the clamped
confidence is received already as a JSON value. -/
def addProvenance (target : List (String × Json)) (key : String) (conf : Json)
    (src mth : String) : List (String × Json) :=
  let cur := match getKey target "agentnet:inferred" with
    | some v => if jsTruthy v then v else .obj []
    | none => .obj []
  let entry : Json :=
    .obj [("confidence", conf), ("source", .str src), ("method", .str mth)]
  let new := match cur with
    | .obj pfs => Json.obj (setKey pfs key entry)
    | x => x
  setKey target "agentnet:inferred" new

/-- `inferred[k] = v` followed by `addProvenance` — the write pattern of
every heuristic field (the source calls them in this order per field). -/
def setWithProv (inf : List (String × Json)) (k : String) (v : Json)
    (conf : Json) (src mth : String) : List (String × Json) :=
  addProvenance (setKey inf k v) k conf src mth

/-- The `inferred["@type"]` seed:
`extracted["@type"] || typeGuess.type || "agentnet:Thing"`. -/
def inferredTypeVal (extracted : List (String × Json)) (t : List Char) : Json :=
  lookOr extracted "@type" (jsOr (.str (detectType t)) (.str "agentnet:Thing"))

/-- `/Product/i.test(assertedType)` with
`assertedType = typeof extracted["@type"] === "string" ? … : ""`. -/
def assertedProduct (extracted : List (String × Json)) : Bool :=
  match getKey extracted "@type" with
  | some (.str s) => isInfixB "product".data (lowerL s.data)
  | _ => false

/-- `inferred["@type"] === s`. -/
def typeIs (inf : List (String × Json)) (s : String) : Bool :=
  match getKey inf "@type" with
  | some v => jsonBEq v (.str s)
  | none => false

/-- The spec-level gate: asserted type looks like a Product, or the guess is
Product and the text shows strong commerce intent. -/
def guessedProductB (extracted : List (String × Json)) (t : List Char) : Bool :=
  jsonBEq (inferredTypeVal extracted t) (.str "agentnet:Product")

def allowPriceInference (extracted : List (String × Json)) (t : List Char) : Bool :=
  assertedProduct extracted ||
    (guessedProductB extracted t && hasStrongCommerceIntent t)

/-- Field-extractor results and LLM response, quantified over. -/
structure InferOracle where
  sku : Option String
  brand : Option String
  emails : List String
  phones : List String
  addr : Option String
  datePublished : Option String
  dateModified : Option String
  byline : Option String
  title : Option String
  metaDesc : Option String
  typeConf : Json
  llmActive : Bool
  llmResult : Option Json

/-- The price branch of the product block. -/
def priceBlock (t : List Char) (allow : Bool) (inf : List (String × Json)) :
    List (String × Json) :=
  if allow then
    match extractPrice t with
    | some pc =>
        setWithProv
          (setWithProv inf "agentnet:price" (.str pc.1) (.num ⟨80, 2⟩)
            "heuristic" "price-regex")
          "agentnet:priceCurrency" (.str pc.2) (.num ⟨70, 2⟩)
          "heuristic" "currency-map"
    | none => inf
  else inf

def skuBrandBlock (o : InferOracle) (inf : List (String × Json)) :
    List (String × Json) :=
  let inf1 := match o.sku with
    | some s =>
        if s ≠ "" then
          setWithProv inf "agentnet:sku" (.str s) (.num ⟨70, 2⟩)
            "heuristic" "sku-regex"
        else inf
    | none => inf
  match o.brand with
  | some b =>
      if b ≠ "" then
        setWithProv inf1 "agentnet:brand" (.str b) (.num ⟨75, 2⟩)
          "heuristic" "brand-heuristic"
      else inf1
  | none => inf1

def orgBlock (o : InferOracle) (inf : List (String × Json)) :
    List (String × Json) :=
  let inf1 := match o.emails with
    | e :: _ =>
        setWithProv inf "agentnet:email" (.str e) (.num ⟨85, 2⟩)
          "heuristic" "email-regex"
    | [] => inf
  let inf2 := match o.phones with
    | p :: _ =>
        setWithProv inf1 "agentnet:telephone" (.str p) (.num ⟨80, 2⟩)
          "heuristic" "phone-regex"
    | [] => inf1
  match o.addr with
  | some a =>
      if a ≠ "" then
        setWithProv inf2 "agentnet:address" (.str a) (.num ⟨70, 2⟩)
          "heuristic" "address-regex"
      else inf2
  | none => inf2

def articleBlock (o : InferOracle) (inf : List (String × Json)) :
    List (String × Json) :=
  let inf1 := match o.datePublished with
    | some d =>
        if d ≠ "" then
          setWithProv inf "agentnet:datePublished" (.str d) (.num ⟨80, 2⟩)
            "heuristic" "date-meta"
        else inf
    | none => inf
  let inf2 := match o.dateModified with
    | some d =>
        if d ≠ "" then
          setWithProv inf1 "agentnet:dateModified" (.str d) (.num ⟨70, 2⟩)
            "heuristic" "date-meta"
        else inf1
    | none => inf1
  match o.byline with
  | some cap =>
      setWithProv inf2 "agentnet:author" (.str (String.mk (trimWS cap.data)))
        (.num ⟨65, 2⟩) "heuristic" "byline-regex"
  | none => inf2

/-- `title.replace(/\s*\|\s*[^|]+$/, "")`: strip a trailing `| site name`
segment. -/
def stripTitleTail (s : String) : String :=
  let r := s.data.reverse
  let pre := r.takeWhile (fun c => c != '|')
  match r.dropWhile (fun c => c != '|') with
  | '|' :: restR =>
      if pre.isEmpty then s else String.mk ((restR.dropWhile isWS).reverse)
  | _ => s

def nameDescBlock (extracted : List (String × Json)) (o : InferOracle)
    (inf : List (String × Json)) : List (String × Json) :=
  let inf1 :=
    if truthyKey extracted "agentnet:name" then inf
    else match o.title with
      | some ti =>
          if ti ≠ "" then
            setWithProv inf "agentnet:name"
              (.str (String.mk (trimWS (stripTitleTail ti).data)))
              (.num ⟨60, 2⟩) "heuristic" "title-fallback"
          else inf
      | none => inf
  if truthyKey extracted "agentnet:description" then inf1
  else match o.metaDesc with
    | some d =>
        if d ≠ "" then
          setWithProv inf1 "agentnet:description"
            (.str (String.mk (trimWS d.data)))
            (.num ⟨65, 2⟩) "heuristic" "meta-description"
        else inf1
    | none => inf1

/-- `Object.entries(v)` (arrays expose their index keys). -/
def jsEntries (v : Json) : List (String × Json) :=
  match v with
  | .obj fs => fs
  | .arr xs => xs.enum.map (fun p => (String.mk (natDigitsE p.1), p.2))
  | _ => []

/-- The conservative LLM augmentation loop: only keys absent from both the
current inferred object and the extracted seed are taken, each written after
its provenance entry. -/
def llmBlock (extracted : List (String × Json)) (o : InferOracle)
    (inf : List (String × Json)) : List (String × Json) :=
  if o.llmActive then
    match o.llmResult with
    | none => inf
    | some lc =>
        if jsTruthy lc &&
            (match lc with | .obj _ => true | .arr _ => true | _ => false) then
          let aug := (jsEntries lc).filter (fun f =>
            !(f.1 = "@context" || f.1 = "@type" || f.1 = "agentnet:inferred") &&
            (!(getKey inf f.1).isSome && !(getKey extracted f.1).isSome))
          aug.foldl (fun acc f =>
            setKey (addProvenance acc f.1 (.num ⟨55, 2⟩) "llm" "openai-summary")
              f.1 f.2) inf
        else inf
  else inf

/-- The `inferred` seed plus the `@type` provenance record. -/
def inferBase (extracted : List (String × Json)) (t : List Char)
    (o : InferOracle) : List (String × Json) :=
  let inf0 : List (String × Json) :=
    [("@context", .str "https://agentnet.ai/context"),
     ("@type", inferredTypeVal extracted t)]
  if !(truthyKey extracted "@type") && decide (detectType t ≠ "agentnet:Thing") then
    addProvenance inf0 "@type" o.typeConf "heuristic" "type-detection"
  else inf0

/-- `if (guessedProduct || /product/i.test(t))` with the gated price branch
and the SKU/brand extractors. -/
def inferProductStage (extracted : List (String × Json)) (t : List Char)
    (o : InferOracle) (inf1 : List (String × Json)) : List (String × Json) :=
  if typeIs inf1 "agentnet:Product" || isInfixB "product".data (lowerL t) then
    skuBrandBlock o (priceBlock t
      (assertedProduct extracted ||
        (typeIs inf1 "agentnet:Product" && hasStrongCommerceIntent t)) inf1)
  else inf1

/-- The `inferred` object `inferCapsule` builds (normalize.js); `html` enters
only through the oracle record. -/
def inferCapsule (extracted : List (String × Json)) (text : List Char)
    (o : InferOracle) : List (String × Json) :=
  let t := normTextL text
  let inf1 := inferBase extracted t o
  let inf2 := inferProductStage extracted t o inf1
  let inf3 := if typeIs inf2 "agentnet:Organization" then orgBlock o inf2 else inf2
  let inf4 := if typeIs inf3 "agentnet:Article" then articleBlock o inf3 else inf3
  llmBlock extracted o (nameDescBlock extracted o inf4)

theorem getKey_addProvenance_ne (target : List (String × Json)) (key' : String)
    (conf : Json) (src mth : String) (k : String) (hk : k ≠ "agentnet:inferred") :
    getKey (addProvenance target key' conf src mth) k = getKey target k := by
  simp only [addProvenance]
  exact getKey_setKey_ne _ k _ _ hk

theorem getKey_setWithProv_ne (inf : List (String × Json)) (k' : String)
    (v conf : Json) (src mth : String) (k : String) (h1 : k ≠ k')
    (h2 : k ≠ "agentnet:inferred") :
    getKey (setWithProv inf k' v conf src mth) k = getKey inf k := by
  simp only [setWithProv]
  rw [getKey_addProvenance_ne _ _ _ _ _ _ h2, getKey_setKey_ne _ _ _ _ h1]

theorem getKey_skuBrandBlock (o : InferOracle) (inf : List (String × Json))
    (k : String) (h1 : k ≠ "agentnet:sku") (h2 : k ≠ "agentnet:brand")
    (hi : k ≠ "agentnet:inferred") :
    getKey (skuBrandBlock o inf) k = getKey inf k := by
  simp only [skuBrandBlock]
  have hbrand : ∀ x : List (String × Json),
      getKey (match o.brand with
        | some b =>
            if b ≠ "" then
              setWithProv x "agentnet:brand" (.str b) (.num ⟨75, 2⟩)
                "heuristic" "brand-heuristic"
            else x
        | none => x) k = getKey x k := by
    intro x
    rcases o.brand with _ | b
    · rfl
    · dsimp only
      split_ifs
      · exact getKey_setWithProv_ne _ _ _ _ _ _ _ h2 hi
      · rfl
  rw [hbrand]
  rcases o.sku with _ | s2
  · rfl
  · dsimp only
    split_ifs
    · exact getKey_setWithProv_ne _ _ _ _ _ _ _ h1 hi
    · rfl

theorem getKey_orgBlock (o : InferOracle) (inf : List (String × Json))
    (k : String) (h1 : k ≠ "agentnet:email") (h2 : k ≠ "agentnet:telephone")
    (h3 : k ≠ "agentnet:address") (hi : k ≠ "agentnet:inferred") :
    getKey (orgBlock o inf) k = getKey inf k := by
  simp only [orgBlock]
  have haddr : ∀ x : List (String × Json),
      getKey (match o.addr with
        | some a =>
            if a ≠ "" then
              setWithProv x "agentnet:address" (.str a) (.num ⟨70, 2⟩)
                "heuristic" "address-regex"
            else x
        | none => x) k = getKey x k := by
    intro x
    rcases o.addr with _ | a
    · rfl
    · dsimp only
      split_ifs
      · exact getKey_setWithProv_ne _ _ _ _ _ _ _ h3 hi
      · rfl
  rw [haddr]
  have hphone : ∀ x : List (String × Json),
      getKey (match o.phones with
        | p :: _ =>
            setWithProv x "agentnet:telephone" (.str p) (.num ⟨80, 2⟩)
              "heuristic" "phone-regex"
        | [] => x) k = getKey x k := by
    intro x
    rcases o.phones with _ | ⟨p, ps⟩
    · rfl
    · exact getKey_setWithProv_ne _ _ _ _ _ _ _ h2 hi
  rw [hphone]
  rcases o.emails with _ | ⟨e, es⟩
  · rfl
  · exact getKey_setWithProv_ne _ _ _ _ _ _ _ h1 hi

theorem getKey_articleBlock (o : InferOracle) (inf : List (String × Json))
    (k : String) (h1 : k ≠ "agentnet:datePublished")
    (h2 : k ≠ "agentnet:dateModified") (h3 : k ≠ "agentnet:author")
    (hi : k ≠ "agentnet:inferred") :
    getKey (articleBlock o inf) k = getKey inf k := by
  simp only [articleBlock]
  have hby : ∀ x : List (String × Json),
      getKey (match o.byline with
        | some cap =>
            setWithProv x "agentnet:author" (.str (String.mk (trimWS cap.data)))
              (.num ⟨65, 2⟩) "heuristic" "byline-regex"
        | none => x) k = getKey x k := by
    intro x
    rcases o.byline with _ | cap
    · rfl
    · exact getKey_setWithProv_ne _ _ _ _ _ _ _ h3 hi
  rw [hby]
  have hmod : ∀ x : List (String × Json),
      getKey (match o.dateModified with
        | some d =>
            if d ≠ "" then
              setWithProv x "agentnet:dateModified" (.str d) (.num ⟨70, 2⟩)
                "heuristic" "date-meta"
            else x
        | none => x) k = getKey x k := by
    intro x
    rcases o.dateModified with _ | d
    · rfl
    · dsimp only
      split_ifs
      · exact getKey_setWithProv_ne _ _ _ _ _ _ _ h2 hi
      · rfl
  rw [hmod]
  rcases o.datePublished with _ | d
  · rfl
  · dsimp only
    split_ifs
    · exact getKey_setWithProv_ne _ _ _ _ _ _ _ h1 hi
    · rfl

theorem getKey_nameDescBlock (extracted : List (String × Json)) (o : InferOracle)
    (inf : List (String × Json)) (k : String) (h1 : k ≠ "agentnet:name")
    (h2 : k ≠ "agentnet:description") (hi : k ≠ "agentnet:inferred") :
    getKey (nameDescBlock extracted o inf) k = getKey inf k := by
  simp only [nameDescBlock]
  have hdesc : ∀ x : List (String × Json),
      getKey (if truthyKey extracted "agentnet:description" then x
        else match o.metaDesc with
          | some d =>
              if d ≠ "" then
                setWithProv x "agentnet:description"
                  (.str (String.mk (trimWS d.data)))
                  (.num ⟨65, 2⟩) "heuristic" "meta-description"
              else x
          | none => x) k = getKey x k := by
    intro x
    split_ifs
    · rfl
    · rcases o.metaDesc with _ | d
      · rfl
      · dsimp only
        split_ifs
        · exact getKey_setWithProv_ne _ _ _ _ _ _ _ h2 hi
        · rfl
  rw [hdesc]
  split_ifs
  · rfl
  · rcases o.title with _ | ti
    · rfl
    · dsimp only
      split_ifs
      · exact getKey_setWithProv_ne _ _ _ _ _ _ _ h1 hi
      · rfl

theorem llmBlock_inactive (extracted : List (String × Json)) (o : InferOracle)
    (inf : List (String × Json)) (h : o.llmActive = false) :
    llmBlock extracted o inf = inf := by
  simp [llmBlock, h]

theorem getKey_inferBase (extracted : List (String × Json)) (t : List Char)
    (o : InferOracle) (k : String) (h1 : k ≠ "@context") (h2 : k ≠ "@type")
    (h3 : k ≠ "agentnet:inferred") :
    getKey (inferBase extracted t o) k = none := by
  simp only [inferBase]
  split_ifs
  · rw [getKey_addProvenance_ne _ _ _ _ _ _ h3]
    simp [getKey, h1, h2]
  · simp [getKey, h1, h2]

/- The `inferred["@type"]` strict-equality test the gate reads equals the
spec-level guess predicate. -/
theorem typeIs_inferBase (extracted : List (String × Json)) (t : List Char)
    (o : InferOracle) :
    typeIs (inferBase extracted t o) "agentnet:Product" =
      guessedProductB extracted t := by
  simp only [typeIs, inferBase, guessedProductB]
  split_ifs
  · rw [getKey_addProvenance_ne _ _ _ _ _ _ (by decide)]
    rfl
  · rfl

/-- C4, amended.  Price-inference gate: the inferred object `inferCapsule`
produces carries a price or priceCurrency key only if the asserted seed's
`@type` looks like a Product, or the heuristic guess is Product and the text
shows strong commerce intent (≥ 2 distinct strong tokens), **or the LLM
enrichment phase is active** — the LLM augmentation loop can add a price key
that is absent from both the asserted and the heuristic output without
consulting the commerce gate. -/
theorem C4_price_gate (extracted : List (String × Json)) (text : List Char)
    (o : InferOracle)
    (h : (getKey (inferCapsule extracted text o) "agentnet:price").isSome = true ∨
      (getKey (inferCapsule extracted text o) "agentnet:priceCurrency").isSome = true) :
    allowPriceInference extracted (normTextL text) = true ∨ o.llmActive = true := by
  by_cases hA : allowPriceInference extracted (normTextL text) = true
  · exact Or.inl hA
  by_cases hL : o.llmActive = true
  · exact Or.inr hL
  exfalso
  have hA' : allowPriceInference extracted (normTextL text) = false := by
    cases hq : allowPriceInference extracted (normTextL text)
    · rfl
    · exact absurd hq hA
  have hL' : o.llmActive = false := by
    cases hq : o.llmActive
    · rfl
    · exact absurd hq hL
  have hnone : ∀ k, k ≠ "@context" → k ≠ "@type" → k ≠ "agentnet:inferred" →
      k ≠ "agentnet:sku" → k ≠ "agentnet:brand" → k ≠ "agentnet:email" →
      k ≠ "agentnet:telephone" → k ≠ "agentnet:address" →
      k ≠ "agentnet:datePublished" → k ≠ "agentnet:dateModified" →
      k ≠ "agentnet:author" → k ≠ "agentnet:name" → k ≠ "agentnet:description" →
      getKey (inferCapsule extracted text o) k = none := by
    intro k hk1 hk2 hk3 hk4 hk5 hk6 hk7 hk8 hk9 hk10 hk11 hk12 hk13
    simp only [inferCapsule]
    rw [llmBlock_inactive _ _ _ hL',
      getKey_nameDescBlock _ _ _ _ hk12 hk13 hk3]
    have harticle : ∀ x : List (String × Json),
        getKey (if typeIs x "agentnet:Article" then articleBlock o x else x) k =
          getKey x k := by
      intro x
      split_ifs
      · exact getKey_articleBlock o x k hk9 hk10 hk11 hk3
      · rfl
    have horg : ∀ x : List (String × Json),
        getKey (if typeIs x "agentnet:Organization" then orgBlock o x else x) k =
          getKey x k := by
      intro x
      split_ifs
      · exact getKey_orgBlock o x k hk6 hk7 hk8 hk3
      · rfl
    rw [harticle, horg]
    simp only [inferProductStage]
    have hallow : (assertedProduct extracted ||
        (typeIs (inferBase extracted (normTextL text) o) "agentnet:Product" &&
          hasStrongCommerceIntent (normTextL text))) = false := by
      rw [typeIs_inferBase]
      exact hA'
    rw [hallow]
    have hpb : priceBlock (normTextL text) false
        (inferBase extracted (normTextL text) o) =
        inferBase extracted (normTextL text) o := rfl
    rw [hpb]
    split_ifs
    · rw [getKey_skuBrandBlock o _ k hk4 hk5 hk3]
      exact getKey_inferBase _ _ _ _ hk1 hk2 hk3
    · exact getKey_inferBase _ _ _ _ hk1 hk2 hk3
  rcases h with h | h
  · rw [hnone "agentnet:price" (by decide) (by decide) (by decide) (by decide)
      (by decide) (by decide) (by decide) (by decide) (by decide) (by decide)
      (by decide) (by decide) (by decide)] at h
    exact Bool.noConfusion h
  · rw [hnone "agentnet:priceCurrency" (by decide) (by decide) (by decide)
      (by decide) (by decide) (by decide) (by decide) (by decide) (by decide)
      (by decide) (by decide) (by decide) (by decide)] at h
    exact Bool.noConfusion h

/-- An oracle with the LLM phase active and an LLM response asserting a
price; every extractor comes back empty. -/
def oracleLLM : InferOracle :=
  ⟨none, none, [], [], none, none, none, none, none, none, .null, true,
   some (.obj [("agentnet:price", .str "999.00")])⟩

/-- C4, counterexample.  As stated ("the inferred output contains a price …
only if the asserted type is commerce or the guess is commerce with strong
intent, in all other cases no price is inferred") the claim is false: with
LLM enrichment enabled, the augmentation loop copies a price key from the
LLM response onto a page with no commerce signal at all. -/
theorem C4_counterexample :
    ¬ (∀ (extracted : List (String × Json)) (text : List Char) (o : InferOracle),
        ((getKey (inferCapsule extracted text o) "agentnet:price").isSome = true ∨
         (getKey (inferCapsule extracted text o) "agentnet:priceCurrency").isSome = true) →
        allowPriceInference extracted (normTextL text) = true) := by
  intro H
  have := H [] "hello world".data oracleLLM (Or.inl (by decide))
  exact absurd this (by decide)

/-- C4 witness: on the same gate-violating input the amended theorem
attributes the price to the active LLM phase. -/
theorem C4_witness :
    ((getKey (inferCapsule [] "hello world".data oracleLLM)
        "agentnet:price").isSome = true ∨
     (getKey (inferCapsule [] "hello world".data oracleLLM)
        "agentnet:priceCurrency").isSome = true) ∧
    (allowPriceInference [] (normTextL "hello world".data) = true ∨
      oracleLLM.llmActive = true) :=
  ⟨Or.inl (by decide),
   C4_price_gate [] "hello world".data oracleLLM (Or.inl (by decide))⟩

/-! ## C6: JSON-LD extraction (`extractJsonLd`, src/extractor/jsonld.js)

The cheerio scan is abstracted to the list of
`script[type='application/ld+json']` elements; each carries its text
(`$(el).html() || ""`) and the result of `JSON.parse` on the trimmed text
(`none` = syntax error), quantified over.  Everything after the parse is
modelled faithfully, including the `if (!parsed)` falsiness check that
treats a successfully parsed falsy value (`null`, `0`, `false`, `""`) as a
parse failure. -/

/-- One `<script type="application/ld+json">` element. -/
structure RawScript where
  raw : String
  parsed : Option Json

def scriptTrim (s : RawScript) : String := String.mk (trimWS s.raw.data)

/- `flattenJsonLd(parsed)`: arrays flatten elementwise; an object is kept
and its `@graph` members that are truthy objects (arrays included, as in JS
`typeof`) are surfaced; every other value yields nothing. -/
mutual

def flattenJsonLd : Json → List Json
  | .arr xs => flattenL xs
  | .obj fs =>
      .obj fs :: (match getKey fs "@graph" with
        | some (.arr gs) =>
            gs.filter (fun g =>
              match g with
              | .obj _ => true
              | .arr _ => true
              | _ => false)
        | _ => [])
  | _ => []

def flattenL : List Json → List Json
  | [] => []
  | x :: xs => flattenJsonLd x ++ flattenL xs

end

/-- The provenance record attached to each block. -/
def provOf (url capAt : String) (i : Nat) (raw : String) : Json :=
  .obj [("sourceUrl", .str url), ("capturedAt", .str capAt),
        ("evidenceType", .str "jsonld-script"),
        ("scriptIndex", .num ⟨(i : Int), 0⟩),
        ("selector", .str "script[type='application/ld+json']"),
        ("snippetHash",
         .str ("sha256:" ++ String.mk (hexBytes (sha256 (utf8 raw.data)))))]

def jsonldMsg : String := "Invalid JSON (JSON.parse failed)"

/-- The blocks the `scripts.forEach` accumulates, from index `i` on. -/
def blocksLoop (url capAt : String) (fg : Bool) :
    List RawScript → Nat → List (Json × Json)
  | [], _ => []
  | s :: ss, i =>
      if scriptTrim s = "" then blocksLoop url capAt fg ss (i + 1)
      else match s.parsed with
        | some v =>
            if jsTruthy v then
              ((if fg then flattenJsonLd v else [v]).map
                (fun j => (j, provOf url capAt i (scriptTrim s)))) ++
                blocksLoop url capAt fg ss (i + 1)
            else blocksLoop url capAt fg ss (i + 1)
        | none => blocksLoop url capAt fg ss (i + 1)

/-- The parse errors the loop accumulates, from index `i` on. -/
def errsLoop : List RawScript → Nat → List (Nat × String)
  | [], _ => []
  | s :: ss, i =>
      if scriptTrim s = "" then errsLoop ss (i + 1)
      else match s.parsed with
        | some v =>
            if jsTruthy v then errsLoop ss (i + 1)
            else (i, jsonldMsg) :: errsLoop ss (i + 1)
        | none => (i, jsonldMsg) :: errsLoop ss (i + 1)

structure ExtractResult where
  found : Bool
  blocks : List (Json × Json)
  rawCount : Nat
  parseErrors : List (Nat × String)

/-- `extractJsonLd(html, url, opts)` (jsonld.js): total — nothing throws. -/
def extractJsonLd (url capAt : String) (fg : Bool)
    (scripts : List RawScript) : ExtractResult :=
  let bs := blocksLoop url capAt fg scripts 0
  ⟨decide (0 < bs.length), bs, scripts.length, errsLoop scripts 0⟩

/-- A nonempty script whose parse failed outright or produced a falsy
value — exactly what the loop records as a parse error. -/
def scriptBad (s : RawScript) : Prop :=
  scriptTrim s ≠ "" ∧ ∀ v, s.parsed = some v → jsTruthy v = false

/-- A script that contributes at least one block. -/
def scriptYields (fg : Bool) (s : RawScript) : Prop :=
  scriptTrim s ≠ "" ∧ ∃ v, s.parsed = some v ∧ jsTruthy v = true ∧
    (if fg then flattenJsonLd v else [v]) ≠ []

theorem errsLoop_cons_skip (s : RawScript) (ss : List RawScript) (i0 : Nat)
    (ht : scriptTrim s = "") : errsLoop (s :: ss) i0 = errsLoop ss (i0 + 1) := by
  simp [errsLoop, ht]

theorem errsLoop_cons_err (s : RawScript) (ss : List RawScript) (i0 : Nat)
    (ht : ¬ scriptTrim s = "")
    (hb : ∀ v, s.parsed = some v → jsTruthy v = false) :
    errsLoop (s :: ss) i0 = (i0, jsonldMsg) :: errsLoop ss (i0 + 1) := by
  simp only [errsLoop, if_neg ht]
  rcases hp : s.parsed with _ | v
  · rfl
  · simp only
    rw [if_neg]
    rw [hb v hp]
    simp

theorem errsLoop_cons_ok (s : RawScript) (ss : List RawScript) (i0 : Nat)
    (ht : ¬ scriptTrim s = "") (v : Json) (hp : s.parsed = some v)
    (htr : jsTruthy v = true) : errsLoop (s :: ss) i0 = errsLoop ss (i0 + 1) := by
  simp only [errsLoop, if_neg ht, hp]
  rw [if_pos htr]

theorem blocksLoop_cons_skip (url capAt : String) (fg : Bool) (s : RawScript)
    (ss : List RawScript) (i0 : Nat) (ht : scriptTrim s = "") :
    blocksLoop url capAt fg (s :: ss) i0 = blocksLoop url capAt fg ss (i0 + 1) := by
  simp [blocksLoop, ht]

theorem blocksLoop_cons_err (url capAt : String) (fg : Bool) (s : RawScript)
    (ss : List RawScript) (i0 : Nat) (ht : ¬ scriptTrim s = "")
    (hb : ∀ v, s.parsed = some v → jsTruthy v = false) :
    blocksLoop url capAt fg (s :: ss) i0 = blocksLoop url capAt fg ss (i0 + 1) := by
  simp only [blocksLoop, if_neg ht]
  rcases hp : s.parsed with _ | v
  · rfl
  · simp only
    rw [if_neg]
    rw [hb v hp]
    simp

theorem blocksLoop_cons_ok (url capAt : String) (fg : Bool) (s : RawScript)
    (ss : List RawScript) (i0 : Nat) (ht : ¬ scriptTrim s = "") (v : Json)
    (hp : s.parsed = some v) (htr : jsTruthy v = true) :
    blocksLoop url capAt fg (s :: ss) i0 =
      ((if fg then flattenJsonLd v else [v]).map
        (fun j => (j, provOf url capAt i0 (scriptTrim s)))) ++
        blocksLoop url capAt fg ss (i0 + 1) := by
  simp only [blocksLoop, if_neg ht, hp]
  rw [if_pos htr]

theorem errsLoop_iff : ∀ (ss : List RawScript) (i0 i : Nat) (m : String),
    (i, m) ∈ errsLoop ss i0 ↔
      (m = jsonldMsg ∧ ∃ k s, ss.get? k = some s ∧ i = i0 + k ∧ scriptBad s) := by
  intro ss
  induction ss with
  | nil =>
      intro i0 i m
      simp [errsLoop]
  | cons s ss ih =>
      intro i0 i m
      have hskip : ((i, m) ∈ errsLoop ss (i0 + 1) ↔
          (m = jsonldMsg ∧
            ∃ k s', (s :: ss).get? k = some s' ∧ i = i0 + k ∧ scriptBad s')) →
          ((i, m) ∈ errsLoop ss (i0 + 1) ↔
            (m = jsonldMsg ∧
              ∃ k s', (s :: ss).get? k = some s' ∧ i = i0 + k ∧ scriptBad s')) :=
        id
      by_cases ht : scriptTrim s = ""
      · rw [errsLoop_cons_skip s ss i0 ht, ih]
        constructor
        · rintro ⟨hm, k, s', hg, hi, hb⟩
          exact ⟨hm, k + 1, s', hg, by omega, hb⟩
        · rintro ⟨hm, k, s', hg, hi, hb⟩
          rcases k with _ | k
          · simp only [List.get?] at hg
            cases hg
            exact absurd ht hb.1
          · exact ⟨hm, k, s', hg, by omega, hb⟩
      · have step_err : (∀ v, s.parsed = some v → jsTruthy v = false) →
            ((i, m) ∈ errsLoop (s :: ss) i0 ↔
              (m = jsonldMsg ∧
                ∃ k s', (s :: ss).get? k = some s' ∧ i = i0 + k ∧ scriptBad s')) := by
          intro hbad
          rw [errsLoop_cons_err s ss i0 ht hbad]
          simp only [List.mem_cons, Prod.mk.injEq, ih]
          constructor
          · rintro (⟨hi, hm⟩ | ⟨hm, k, s', hg, hi, hb⟩)
            · exact ⟨hm, 0, s, rfl, by omega, ht, hbad⟩
            · exact ⟨hm, k + 1, s', hg, by omega, hb⟩
          · rintro ⟨hm, k, s', hg, hi, hb⟩
            rcases k with _ | k
            · simp only [List.get?] at hg
              cases hg
              exact Or.inl ⟨by omega, hm⟩
            · exact Or.inr ⟨hm, k, s', hg, by omega, hb⟩
        rcases hp : s.parsed with _ | v
        · exact step_err (fun v hv => absurd (hp ▸ hv) (by simp))
        · by_cases htr : jsTruthy v = true
          · rw [errsLoop_cons_ok s ss i0 ht v hp htr, ih]
            constructor
            · rintro ⟨hm, k, s', hg, hi, hb⟩
              exact ⟨hm, k + 1, s', hg, by omega, hb⟩
            · rintro ⟨hm, k, s', hg, hi, hb⟩
              rcases k with _ | k
              · simp only [List.get?] at hg
                cases hg
                rw [hb.2 v hp] at htr
                exact absurd htr (by simp)
              · exact ⟨hm, k, s', hg, by omega, hb⟩
          · have htr' : jsTruthy v = false := by
              cases hq : jsTruthy v
              · rfl
              · exact absurd hq htr
            exact step_err (fun w hw => by
              rw [hp] at hw
              cases hw
              exact htr')

theorem blocksLoop_prov (url capAt : String) (fg : Bool) :
    ∀ (ss : List RawScript) (i0 : Nat) (j p : Json),
    (j, p) ∈ blocksLoop url capAt fg ss i0 →
    ∃ k s v, ss.get? k = some s ∧ scriptTrim s ≠ "" ∧ s.parsed = some v ∧
      jsTruthy v = true ∧ p = provOf url capAt (i0 + k) (scriptTrim s) := by
  intro ss
  induction ss with
  | nil =>
      intro i0 j p h
      exact absurd h (by simp [blocksLoop])
  | cons s ss ih =>
      intro i0 j p h
      have hstep : ∀ h2 : (j, p) ∈ blocksLoop url capAt fg ss (i0 + 1),
          ∃ k s' v, (s :: ss).get? k = some s' ∧ scriptTrim s' ≠ "" ∧
            s'.parsed = some v ∧ jsTruthy v = true ∧
            p = provOf url capAt (i0 + k) (scriptTrim s') := by
        intro h2
        obtain ⟨k, s', v, hg, hne, hpv, htr, hpr⟩ := ih (i0 + 1) j p h2
        exact ⟨k + 1, s', v, hg, hne, hpv, htr, by rw [hpr]; congr 1; omega⟩
      by_cases ht : scriptTrim s = ""
      · exact hstep (blocksLoop_cons_skip url capAt fg s ss i0 ht ▸ h)
      · rcases hp : s.parsed with _ | v
        · exact hstep
            (blocksLoop_cons_err url capAt fg s ss i0 ht
              (fun w hw => absurd (hp ▸ hw) (by simp)) ▸ h)
        · by_cases htr : jsTruthy v = true
          · rw [blocksLoop_cons_ok url capAt fg s ss i0 ht v hp htr] at h
            rcases List.mem_append.mp h with h | h
            · obtain ⟨x, _, hx⟩ := List.mem_map.mp h
              have hps : p = provOf url capAt i0 (scriptTrim s) :=
                congrArg Prod.snd hx.symm
              exact ⟨0, s, v, rfl, ht, hp, htr, by rw [hps, Nat.add_zero]⟩
            · exact hstep h
          · have htr' : jsTruthy v = false := by
              cases hq : jsTruthy v
              · rfl
              · exact absurd hq htr
            exact hstep
              (blocksLoop_cons_err url capAt fg s ss i0 ht
                (fun w hw => by rw [hp] at hw; cases hw; exact htr') ▸ h)

theorem blocksLoop_ne_nil (url capAt : String) (fg : Bool) :
    ∀ (ss : List RawScript) (i0 : Nat),
    blocksLoop url capAt fg ss i0 ≠ [] ↔ ∃ s ∈ ss, scriptYields fg s := by
  intro ss
  induction ss with
  | nil =>
      intro i0
      simp [blocksLoop]
  | cons s ss ih =>
      intro i0
      have hlift : (blocksLoop url capAt fg ss (i0 + 1) ≠ [] ↔
          ∃ s' ∈ ss, scriptYields fg s') := ih (i0 + 1)
      by_cases ht : scriptTrim s = ""
      · rw [blocksLoop_cons_skip url capAt fg s ss i0 ht, hlift]
        constructor
        · rintro ⟨s', hs', hy⟩
          exact ⟨s', List.mem_cons_of_mem s hs', hy⟩
        · rintro ⟨s', hs', hy⟩
          rcases List.mem_cons.mp hs' with hs' | hs'
          · exact absurd ht (hs' ▸ hy).1
          · exact ⟨s', hs', hy⟩
      · rcases hp : s.parsed with _ | v
        · rw [blocksLoop_cons_err url capAt fg s ss i0 ht
            (fun w hw => absurd (hp ▸ hw) (by simp)), hlift]
          constructor
          · rintro ⟨s', hs', hy⟩
            exact ⟨s', List.mem_cons_of_mem s hs', hy⟩
          · rintro ⟨s', hs', hy⟩
            rcases List.mem_cons.mp hs' with hs' | hs'
            · obtain ⟨w, hw, _⟩ := (hs' ▸ hy).2
              rw [hp] at hw
              exact absurd hw (by simp)
            · exact ⟨s', hs', hy⟩
        · by_cases htr : jsTruthy v = true
          · rw [blocksLoop_cons_ok url capAt fg s ss i0 ht v hp htr]
            by_cases hfl : (if fg then flattenJsonLd v else [v]) = []
            · rw [hfl]
              simp only [List.map_nil, List.nil_append]
              rw [hlift]
              constructor
              · rintro ⟨s', hs', hy⟩
                exact ⟨s', List.mem_cons_of_mem s hs', hy⟩
              · rintro ⟨s', hs', hy⟩
                rcases List.mem_cons.mp hs' with hs' | hs'
                · obtain ⟨w, hw, _, hne⟩ := (hs' ▸ hy).2
                  rw [hp] at hw
                  cases hw
                  exact absurd hfl hne
                · exact ⟨s', hs', hy⟩
            · constructor
              · intro _
                exact ⟨s, List.mem_cons_self s ss, ht, v, hp, htr, hfl⟩
              · intro _ hcon
                rcases hmap : (if fg then flattenJsonLd v else [v]) with _ | ⟨x, xs⟩
                · exact hfl hmap
                · rw [hmap] at hcon
                  exact List.noConfusion hcon
          · have htr' : jsTruthy v = false := by
              cases hq : jsTruthy v
              · rfl
              · exact absurd hq htr
            rw [blocksLoop_cons_err url capAt fg s ss i0 ht
              (fun w hw => by rw [hp] at hw; cases hw; exact htr'), hlift]
            constructor
            · rintro ⟨s', hs', hy⟩
              exact ⟨s', List.mem_cons_of_mem s hs', hy⟩
            · rintro ⟨s', hs', hy⟩
              rcases List.mem_cons.mp hs' with hs' | hs'
              · obtain ⟨w, hw, htr2, _⟩ := (hs' ▸ hy).2
                rw [hp] at hw
                cases hw
                rw [htr'] at htr2
                exact Bool.noConfusion htr2
              · exact ⟨s', hs', hy⟩

/-- C6, amended.  Extractor contract (`extractJsonLd`): `rawCount` counts
every embedded script block regardless of parse success; `found` is true iff
some nonempty script parses to a truthy value that flattens to at least one
object — a successfully parsed block can still leave `found = false` (e.g.
`[]`); a parse error is recorded, with the block's index and the fixed
message, exactly for the nonempty scripts whose parse failed **or returned a
falsy value**; and no recorded error index is carried by any returned
block's provenance (failed blocks are excluded).  The function is total —
extraction never throws. -/
theorem C6_extract_contract (url capAt : String) (fg : Bool)
    (scripts : List RawScript) :
    ((extractJsonLd url capAt fg scripts).rawCount = scripts.length) ∧
    ((extractJsonLd url capAt fg scripts).found = true ↔
      ∃ s ∈ scripts, scriptYields fg s) ∧
    (∀ i m, (i, m) ∈ (extractJsonLd url capAt fg scripts).parseErrors ↔
      (m = jsonldMsg ∧ ∃ s, scripts.get? i = some s ∧ scriptBad s)) ∧
    (∀ i m, (i, m) ∈ (extractJsonLd url capAt fg scripts).parseErrors →
      ∀ b ∈ (extractJsonLd url capAt fg scripts).blocks,
        getKeyJ b.2 "scriptIndex" ≠ some (.num ⟨(i : Int), 0⟩)) := by
  refine ⟨rfl, ?_, ?_, ?_⟩
  · show decide (0 < (blocksLoop url capAt fg scripts 0).length) = true ↔ _
    rw [decide_eq_true_eq, List.length_pos]
    exact blocksLoop_ne_nil url capAt fg scripts 0
  · intro i m
    show (i, m) ∈ errsLoop scripts 0 ↔ _
    rw [errsLoop_iff scripts 0 i m]
    constructor
    · rintro ⟨hm, k, s, hg, hi, hb⟩
      have : k = i := by omega
      exact ⟨hm, s, this ▸ hg, hb⟩
    · rintro ⟨hm, s, hg, hb⟩
      exact ⟨hm, i, s, hg, by omega, hb⟩
  · intro i m hmem b hb heq
    have he := (errsLoop_iff scripts 0 i m).mp hmem
    obtain ⟨hm, k1, s1, hg1, hi1, hbad⟩ := he
    obtain ⟨k2, s2, v, hg2, hne2, hp2, htr2, hpr⟩ :=
      blocksLoop_prov url capAt fg scripts 0 b.1 b.2 hb
    rw [hpr] at heq
    have hix : getKeyJ (provOf url capAt (0 + k2) (scriptTrim s2)) "scriptIndex" =
        some (.num ⟨((0 + k2 : Nat) : Int), 0⟩) := rfl
    rw [hix] at heq
    have hik : ((0 + k2 : Nat) : Int) = (i : Int) := by
      have h1 := Option.some.inj heq
      have h2 := congrArg (fun j => match j with | Json.num n => n.m | _ => 0) h1
      simpa using h2
    have hki : k2 = i := by
      have := Nat.cast_inj.mp hik
      omega
    have hk1i : k1 = i := by omega
    have hgi2 : scripts.get? i = some s2 := by rw [← hki]; exact hg2
    have hgi1 : scripts.get? i = some s1 := by rw [← hk1i]; exact hg1
    rw [hgi1] at hgi2
    cases Option.some.inj hgi2
    rw [hbad.2 v hp2] at htr2
    exact Bool.noConfusion htr2

/-- C6, counterexample.  "found = true iff at least one embedded
structured-data block parsed" is false: the script `[]` parses successfully
(to an empty array, which is truthy) yet contributes no blocks, so `found`
is false. -/
theorem C6_counterexample :
    ¬ (∀ (url capAt : String) (fg : Bool) (scripts : List RawScript),
        ((extractJsonLd url capAt fg scripts).found = true ↔
          ∃ s ∈ scripts, scriptTrim s ≠ "" ∧ s.parsed.isSome = true)) := by
  intro H
  have := (H "u" "t" true [⟨"[]", some (.arr [])⟩]).mpr
    ⟨⟨"[]", some (.arr [])⟩, List.mem_cons_self _ _, by decide, rfl⟩
  exact absurd this (by decide)

/-- A markup with one empty script, one invalid script, one object block,
and one block that parses to an empty array. -/
def wsScripts : List RawScript :=
  [⟨"", none⟩, ⟨"not json", none⟩,
   ⟨"\x7b\"a\":true\x7d", some (.obj [("a", .bool true)])⟩,
   ⟨"[]", some (.arr [])⟩]

theorem C6_witness :
    (extractJsonLd "https://e.com" "t0" true wsScripts).rawCount = 4 ∧
    (extractJsonLd "https://e.com" "t0" true wsScripts).found = true ∧
    (1, jsonldMsg) ∈ (extractJsonLd "https://e.com" "t0" true wsScripts).parseErrors :=
  ⟨(C6_extract_contract "https://e.com" "t0" true wsScripts).1,
   (C6_extract_contract "https://e.com" "t0" true wsScripts).2.1.mpr
     ⟨⟨"\x7b\"a\":true\x7d", some (.obj [("a", .bool true)])⟩,
      List.mem_cons_of_mem _ (List.mem_cons_of_mem _ (List.mem_cons_self _ _)),
      by decide, .obj [("a", .bool true)], rfl, rfl,
      fun h => List.noConfusion h⟩,
   ((C6_extract_contract "https://e.com" "t0" true wsScripts).2.2.1 1
       jsonldMsg).mpr
     ⟨rfl, ⟨"not json", none⟩, rfl, by decide,
      fun v hv => Option.noConfusion hv⟩⟩

/-! ## C7: crawl frontier (`normalizeUrl`, `crawlSite`, src/src/worker.js)

A URL is modelled by the components `normalizeUrl` manipulates: origin,
path (standing for everything else identifying the resource), query
parameters, fragment.  The browser is the link oracle `links`: the
(already absolutely resolved) `a[href]` values of each visited page.
A page visit that throws merely fails to expand links, which the oracle
also covers (such a page maps to `[]`). -/

structure Url where
  origin : String
  path : String
  params : List (String × String)
  frag : String
deriving DecidableEq

def dropPrefixes : List String := ["utm_", "gclid", "fbclid", "msclkid", "a_ajs_"]

/-- `key === p || key.startsWith(p)` over the fixed list (the extra
`key.startsWith("a_ajs_")` of the source is subsumed). -/
def droppedKey (k : String) : Bool :=
  dropPrefixes.any (fun p => k = p || p.data.isPrefixOf k.data) ||
    "a_ajs_".data.isPrefixOf k.data

/-- `normalizeUrl(raw)` (worker.js): clear the fragment, delete tracking
query parameters. -/
def normalizeUrl (u : Url) : Url :=
  { origin := u.origin, path := u.path,
    params := u.params.filter (fun kv => !droppedKey kv.1), frag := "" }

/-- The links pushed after visiting `url` at `depth` with visited set
`vis'`: below the depth cap and outside single-page mode, the page's links,
normalized, restricted to the site origin and to unvisited targets, each one
level deeper. -/
def crawlPushes (links : Url → List Url) (origin : String) (singlePage : Bool)
    (maxDepth : Nat) (url : Url) (depth : Nat) (vis' : List (Url × Nat)) :
    List (Url × Nat) :=
  if !singlePage && depth < maxDepth then
    (((links url).map normalizeUrl).filter
      (fun l => l.origin = origin && decide (l ∉ vis'.map Prod.fst))).map
      (fun l => (l, depth + 1))
  else []

/-- The `while (q.length && visited.size < pageLimit)` loop of `crawlSite`:
FIFO queue of `(url, depth)`, visited list in visit order (the JS `Set`
plus the visit trace), link expansion only below the depth cap and outside
single-page mode. -/
def crawlLoop (links : Url → List Url) (origin : String) (singlePage : Bool)
    (maxDepth pageLimit : Nat) :
    List (Url × Nat) → List (Url × Nat) → List (Url × Nat)
  | [], vis => vis
  | (u0, depth) :: rest, vis =>
      if pageLimit ≤ vis.length then vis
      else
        if normalizeUrl u0 ∈ vis.map Prod.fst ∨ maxDepth < depth then
          crawlLoop links origin singlePage maxDepth pageLimit rest vis
        else
          crawlLoop links origin singlePage maxDepth pageLimit
            (rest ++ crawlPushes links origin singlePage maxDepth
              (normalizeUrl u0) depth (vis ++ [(normalizeUrl u0, depth)]))
            (vis ++ [(normalizeUrl u0, depth)])
termination_by q vis => (pageLimit - vis.length, q.length)

/-- `crawlSite(baseUrl, …)` restricted to its frontier behaviour: the visit
trace (url, depth) in visit order. -/
def crawlSite (links : Url → List Url) (base : Url) (singlePage : Bool)
    (maxDepth maxPages : Nat) : List (Url × Nat) :=
  crawlLoop links base.origin singlePage maxDepth
    (if singlePage then 1 else maxPages) [(normalizeUrl base, 0)] []

/-- Reachability along origin-internal links, mirroring what the crawl can
enqueue: the normalized seed at depth 0, and from a reached page below the
depth cap any same-origin link, normalized, one deeper. -/
inductive Reach (links : Url → List Url) (origin : String) (maxDepth : Nat)
    (base : Url) : Url → Nat → Prop
  | seed : Reach links origin maxDepth base (normalizeUrl base) 0
  | step {u : Url} {d : Nat} {l : Url} :
      Reach links origin maxDepth base u d → d < maxDepth → l ∈ links u →
      (normalizeUrl l).origin = origin →
      Reach links origin maxDepth base (normalizeUrl l) (d + 1)

theorem crawl_nil (L : Url → List Url) (O : String) (sp : Bool) (md pl : Nat)
    (vis : List (Url × Nat)) : crawlLoop L O sp md pl [] vis = vis := by
  simp [crawlLoop]

theorem crawl_stop (L : Url → List Url) (O : String) (sp : Bool) (md pl : Nat)
    (u0 : Url) (d : Nat) (rest vis : List (Url × Nat)) (h : pl ≤ vis.length) :
    crawlLoop L O sp md pl ((u0, d) :: rest) vis = vis := by
  simp only [crawlLoop]
  rw [if_pos h]

theorem crawl_skip (L : Url → List Url) (O : String) (sp : Bool) (md pl : Nat)
    (u0 : Url) (d : Nat) (rest vis : List (Url × Nat))
    (h1 : ¬ pl ≤ vis.length)
    (h2 : normalizeUrl u0 ∈ vis.map Prod.fst ∨ md < d) :
    crawlLoop L O sp md pl ((u0, d) :: rest) vis =
      crawlLoop L O sp md pl rest vis := by
  simp only [crawlLoop]
  rw [if_neg h1, if_pos h2]

theorem crawl_visit (L : Url → List Url) (O : String) (sp : Bool) (md pl : Nat)
    (u0 : Url) (d : Nat) (rest vis : List (Url × Nat))
    (h1 : ¬ pl ≤ vis.length)
    (h2 : ¬ (normalizeUrl u0 ∈ vis.map Prod.fst ∨ md < d)) :
    crawlLoop L O sp md pl ((u0, d) :: rest) vis =
      crawlLoop L O sp md pl
        (rest ++ crawlPushes L O sp md (normalizeUrl u0) d
          (vis ++ [(normalizeUrl u0, d)]))
        (vis ++ [(normalizeUrl u0, d)]) := by
  simp only [crawlLoop]
  rw [if_neg h1, if_neg h2]

theorem crawlPushes_snd (L : Url → List Url) (O : String) (sp : Bool)
    (md : Nat) (url : Url) (d : Nat) (vis' : List (Url × Nat)) :
    ∀ p ∈ crawlPushes L O sp md url d vis', p.2 = d + 1 := by
  intro p hp
  simp only [crawlPushes] at hp
  split_ifs at hp
  · obtain ⟨l, _, hpe⟩ := List.mem_map.mp hp
    rw [← hpe]
  · exact absurd hp (List.not_mem_nil p)

/- The visit trace only grows: the visited list is a prefix of the result. -/
theorem crawl_grows (L : Url → List Url) (O : String) (sp : Bool) (md pl : Nat) :
    ∀ (q vis : List (Url × Nat)), vis <+: crawlLoop L O sp md pl q vis := by
  intro q vis
  induction q, vis using crawlLoop.induct L O sp md pl with
  | case1 vis => rw [crawl_nil]
  | case2 u0 d rest vis h => rw [crawl_stop L O sp md pl u0 d rest vis h]
  | case3 u0 d rest vis h1 h2 ih =>
      rw [crawl_skip L O sp md pl u0 d rest vis h1 h2]
      exact ih
  | case4 u0 d rest vis h1 h2 ih =>
      rw [crawl_visit L O sp md pl u0 d rest vis h1 h2]
      exact (List.prefix_append vis [(normalizeUrl u0, d)]).trans ih

/- The page cap is respected. -/
theorem crawl_bound (L : Url → List Url) (O : String) (sp : Bool) (md pl : Nat) :
    ∀ (q vis : List (Url × Nat)), vis.length ≤ pl →
      (crawlLoop L O sp md pl q vis).length ≤ pl := by
  intro q vis
  induction q, vis using crawlLoop.induct L O sp md pl with
  | case1 vis =>
      intro h
      rw [crawl_nil]
      exact h
  | case2 u0 d rest vis h =>
      intro hle
      rw [crawl_stop L O sp md pl u0 d rest vis h]
      exact hle
  | case3 u0 d rest vis h1 h2 ih =>
      intro hle
      rw [crawl_skip L O sp md pl u0 d rest vis h1 h2]
      exact ih hle
  | case4 u0 d rest vis h1 h2 ih =>
      intro _
      rw [crawl_visit L O sp md pl u0 d rest vis h1 h2]
      exact ih (by simp only [List.length_append, List.length_cons,
        List.length_nil]; omega)

/- No normalized URL is visited twice. -/
theorem crawl_nodup (L : Url → List Url) (O : String) (sp : Bool) (md pl : Nat) :
    ∀ (q vis : List (Url × Nat)), (vis.map Prod.fst).Nodup →
      ((crawlLoop L O sp md pl q vis).map Prod.fst).Nodup := by
  intro q vis
  induction q, vis using crawlLoop.induct L O sp md pl with
  | case1 vis =>
      intro h
      rw [crawl_nil]
      exact h
  | case2 u0 d rest vis h =>
      intro hnd
      rw [crawl_stop L O sp md pl u0 d rest vis h]
      exact hnd
  | case3 u0 d rest vis h1 h2 ih =>
      intro hnd
      rw [crawl_skip L O sp md pl u0 d rest vis h1 h2]
      exact ih hnd
  | case4 u0 d rest vis h1 h2 ih =>
      intro hnd
      rw [crawl_visit L O sp md pl u0 d rest vis h1 h2]
      refine ih ?_
      rw [List.map_append]
      rw [List.nodup_append]
      refine ⟨hnd, List.nodup_singleton _, ?_⟩
      intro a ha
      simp only [List.map_cons, List.map_nil, List.mem_singleton]
      intro hb
      simp only [not_or] at h2
      exact h2.1 (hb ▸ ha)

/- Every visited depth respects the depth cap. -/
theorem crawl_depthcap (L : Url → List Url) (O : String) (sp : Bool) (md pl : Nat) :
    ∀ (q vis : List (Url × Nat)), (∀ p ∈ vis, p.2 ≤ md) →
      ∀ p ∈ crawlLoop L O sp md pl q vis, p.2 ≤ md := by
  intro q vis
  induction q, vis using crawlLoop.induct L O sp md pl with
  | case1 vis =>
      intro h
      rw [crawl_nil]
      exact h
  | case2 u0 d rest vis h =>
      intro hd
      rw [crawl_stop L O sp md pl u0 d rest vis h]
      exact hd
  | case3 u0 d rest vis h1 h2 ih =>
      intro hd
      rw [crawl_skip L O sp md pl u0 d rest vis h1 h2]
      exact ih hd
  | case4 u0 d rest vis h1 h2 ih =>
      intro hd
      rw [crawl_visit L O sp md pl u0 d rest vis h1 h2]
      refine ih ?_
      intro p hp
      rcases List.mem_append.mp hp with hp | hp
      · exact hd p hp
      · simp only [List.mem_singleton] at hp
        rw [hp]
        simp only [not_or, not_lt] at h2
        exact h2.2

/-- The BFS queue invariant: visited depths are non-decreasing, queue
depths are non-decreasing, every visited depth is at most every queued
depth, and queued depths pairwise differ by at most one. -/
def crawlINV (q vis : List (Url × Nat)) : Prop :=
  (vis.map Prod.snd).Pairwise (· ≤ ·) ∧
  (q.map Prod.snd).Pairwise (· ≤ ·) ∧
  (∀ a ∈ vis.map Prod.snd, ∀ b ∈ q.map Prod.snd, a ≤ b) ∧
  (∀ a ∈ q.map Prod.snd, ∀ b ∈ q.map Prod.snd, b ≤ a + 1)

theorem const_pairwise {l : List Nat} {c : Nat} (h : ∀ a ∈ l, a = c) :
    l.Pairwise (· ≤ ·) := by
  induction l with
  | nil => exact List.Pairwise.nil
  | cons x xs ih =>
      refine List.Pairwise.cons ?_ (ih (fun a ha => h a (List.mem_cons_of_mem x ha)))
      intro b hb
      rw [h x (List.mem_cons_self x xs), h b (List.mem_cons_of_mem x hb)]

theorem crawlINV_tail {u0 : Url} {d : Nat} {rest vis : List (Url × Nat)}
    (h : crawlINV ((u0, d) :: rest) vis) : crawlINV rest vis := by
  obtain ⟨h1, h2, h3, h4⟩ := h
  simp only [List.map_cons, List.pairwise_cons] at h2
  refine ⟨h1, h2.2, ?_, ?_⟩
  · intro a ha b hb
    exact h3 a ha b (by simp only [List.map_cons, List.mem_cons]; exact Or.inr hb)
  · intro a ha b hb
    exact h4 a (by simp only [List.map_cons, List.mem_cons]; exact Or.inr ha)
      b (by simp only [List.map_cons, List.mem_cons]; exact Or.inr hb)

theorem crawlINV_visit {u0 : Url} {d : Nat} {rest vis ps : List (Url × Nat)}
    {url : Url} (h : crawlINV ((u0, d) :: rest) vis)
    (hps : ∀ p ∈ ps, p.2 = d + 1) :
    crawlINV (rest ++ ps) (vis ++ [(url, d)]) := by
  obtain ⟨h1, h2, h3, h4⟩ := h
  simp only [List.map_cons, List.pairwise_cons] at h2
  have hvd : ∀ a ∈ vis.map Prod.snd, a ≤ d := by
    intro a ha
    exact h3 a ha d (by simp)
  have hrd : ∀ b ∈ rest.map Prod.snd, d ≤ b := h2.1
  have hr1 : ∀ b ∈ rest.map Prod.snd, b ≤ d + 1 := by
    intro b hb
    exact h4 d (by simp) b (by simp only [List.map_cons, List.mem_cons]; exact Or.inr hb)
  have hpsd : ∀ b ∈ ps.map Prod.snd, b = d + 1 := by
    intro b hb
    obtain ⟨p, hp, hpe⟩ := List.mem_map.mp hb
    rw [← hpe]
    exact hps p hp
  refine ⟨?_, ?_, ?_, ?_⟩
  · rw [List.map_append, List.pairwise_append]
    refine ⟨h1, by simp, ?_⟩
    intro a ha b hb
    simp only [List.map_cons, List.map_nil, List.mem_singleton] at hb
    rw [hb]
    exact hvd a ha
  · rw [List.map_append, List.pairwise_append]
    refine ⟨h2.2, const_pairwise hpsd, ?_⟩
    intro a ha b hb
    rw [hpsd b hb]
    exact hr1 a ha
  · intro a ha b hb
    rw [List.map_append] at ha hb
    rcases List.mem_append.mp ha with ha | ha
    · rcases List.mem_append.mp hb with hb | hb
      · exact h3 a ha b (by simp only [List.map_cons, List.mem_cons]; exact Or.inr hb)
      · rw [hpsd b hb]
        exact (hvd a ha).trans (by omega)
    · simp only [List.map_cons, List.map_nil, List.mem_singleton] at ha
      rcases List.mem_append.mp hb with hb | hb
      · rw [ha]
        exact hrd b hb
      · rw [ha, hpsd b hb]
        omega
  · intro a ha b hb
    rw [List.map_append] at ha hb
    rcases List.mem_append.mp ha with ha | ha
    · rcases List.mem_append.mp hb with hb | hb
      · exact h4 a (by simp only [List.map_cons, List.mem_cons]; exact Or.inr ha)
          b (by simp only [List.map_cons, List.mem_cons]; exact Or.inr hb)
      · rw [hpsd b hb]
        have := hrd a ha
        omega
    · rcases List.mem_append.mp hb with hb | hb
      · rw [hpsd a ha]
        have := hr1 b hb
        omega
      · rw [hpsd a ha, hpsd b hb]
        omega

/- The visit trace is in breadth-first order: depths never decrease. -/
theorem crawl_sorted (L : Url → List Url) (O : String) (sp : Bool) (md pl : Nat) :
    ∀ (q vis : List (Url × Nat)), crawlINV q vis →
      ((crawlLoop L O sp md pl q vis).map Prod.snd).Pairwise (· ≤ ·) := by
  intro q vis
  induction q, vis using crawlLoop.induct L O sp md pl with
  | case1 vis =>
      intro h
      rw [crawl_nil]
      exact h.1
  | case2 u0 d rest vis h =>
      intro hinv
      rw [crawl_stop L O sp md pl u0 d rest vis h]
      exact hinv.1
  | case3 u0 d rest vis h1 h2 ih =>
      intro hinv
      rw [crawl_skip L O sp md pl u0 d rest vis h1 h2]
      exact ih (crawlINV_tail hinv)
  | case4 u0 d rest vis h1 h2 ih =>
      intro hinv
      rw [crawl_visit L O sp md pl u0 d rest vis h1 h2]
      exact ih (crawlINV_visit hinv (crawlPushes_snd L O sp md _ d _))

/- Every queue entry within the depth cap ends up visited — at a depth no
larger than the entry's — whenever the crawl stops below the page cap. -/
theorem crawl_min (L : Url → List Url) (O : String) (sp : Bool) (md pl : Nat) :
    ∀ (q vis : List (Url × Nat)), crawlINV q vis →
      (crawlLoop L O sp md pl q vis).length < pl →
      ∀ u d, (u, d) ∈ q → d ≤ md →
        ∃ d' ≤ d, (normalizeUrl u, d') ∈ crawlLoop L O sp md pl q vis := by
  intro q vis
  induction q, vis using crawlLoop.induct L O sp md pl with
  | case1 vis =>
      intro _ _ u d hm
      exact absurd hm (List.not_mem_nil _)
  | case2 u0 d0 rest vis h =>
      intro _ hlen
      rw [crawl_stop L O sp md pl u0 d0 rest vis h] at hlen
      omega
  | case3 u0 d0 rest vis h1 h2 ih =>
      intro hinv hlen u d hm hd
      rw [crawl_skip L O sp md pl u0 d0 rest vis h1 h2] at hlen ⊢
      rcases List.mem_cons.mp hm with hm | hm
      · cases hm
        rcases h2 with h2 | h2
        · obtain ⟨p, hp, hpe⟩ := List.mem_map.mp h2
          have hdp : p.2 ≤ d0 := by
            refine hinv.2.2.1 p.2 (List.mem_map.mpr ⟨p, hp, rfl⟩) d0 ?_
            simp
          have hpvis : p ∈ crawlLoop L O sp md pl rest vis :=
            (crawl_grows L O sp md pl rest vis).sublist.subset hp
          refine ⟨p.2, hdp, ?_⟩
          have hpp : p = (normalizeUrl u0, p.2) := by
            rw [← hpe]
          rw [← hpp]
          exact hpvis
        · omega
      · exact ih (crawlINV_tail hinv) hlen u d hm hd
  | case4 u0 d0 rest vis h1 h2 ih =>
      intro hinv hlen u d hm hd
      rw [crawl_visit L O sp md pl u0 d0 rest vis h1 h2] at hlen ⊢
      have hinv' : crawlINV
          (rest ++ crawlPushes L O sp md (normalizeUrl u0) d0
            (vis ++ [(normalizeUrl u0, d0)]))
          (vis ++ [(normalizeUrl u0, d0)]) :=
        crawlINV_visit hinv
          (crawlPushes_snd L O sp md (normalizeUrl u0) d0
            (vis ++ [(normalizeUrl u0, d0)]))
      rcases List.mem_cons.mp hm with hm | hm
      · cases hm
        refine ⟨d0, le_refl d0, ?_⟩
        refine (crawl_grows L O sp md pl _ _).sublist.subset ?_
        simp
      · exact ih hinv' hlen u d (List.mem_append_left _ hm) hd

theorem normalizeUrl_idem (u : Url) :
    normalizeUrl (normalizeUrl u) = normalizeUrl u := by
  simp [normalizeUrl, List.filter_filter]

/- Whenever the crawl stops below the page cap, every link of a page that
was visited below the depth cap is itself visited (at most one level
deeper). -/
theorem crawl_closure (L : Url → List Url) (O : String) (md pl : Nat) :
    ∀ (q vis : List (Url × Nat)), crawlINV q vis →
      (crawlLoop L O false md pl q vis).length < pl →
      ∀ u d, (u, d) ∈ crawlLoop L O false md pl q vis → (u, d) ∉ vis →
        d < md → ∀ l ∈ L u, (normalizeUrl l).origin = O →
        ∃ d' ≤ d + 1, (normalizeUrl l, d') ∈ crawlLoop L O false md pl q vis := by
  intro q vis
  induction q, vis using crawlLoop.induct L O false md pl with
  | case1 vis =>
      intro _ _ u d hm hnm
      rw [crawl_nil] at hm
      exact absurd hm hnm
  | case2 u0 d0 rest vis h =>
      intro _ _ u d hm hnm
      rw [crawl_stop L O false md pl u0 d0 rest vis h] at hm
      exact absurd hm hnm
  | case3 u0 d0 rest vis h1 h2 ih =>
      intro hinv hlen u d hm hnm hd l hl ho
      rw [crawl_skip L O false md pl u0 d0 rest vis h1 h2] at hlen hm ⊢
      exact ih (crawlINV_tail hinv) hlen u d hm hnm hd l hl ho
  | case4 u0 d0 rest vis h1 h2 ih =>
      intro hinv hlen u d hm hnm hd l hl ho
      rw [crawl_visit L O false md pl u0 d0 rest vis h1 h2] at hlen hm ⊢
      have hinv' : crawlINV
          (rest ++ crawlPushes L O false md (normalizeUrl u0) d0
            (vis ++ [(normalizeUrl u0, d0)]))
          (vis ++ [(normalizeUrl u0, d0)]) :=
        crawlINV_visit hinv
          (crawlPushes_snd L O false md (normalizeUrl u0) d0
            (vis ++ [(normalizeUrl u0, d0)]))
      by_cases hcur : (u, d) = (normalizeUrl u0, d0)
      · cases hcur
        -- the page just visited: each of its qualifying links is either
        -- already visited (at a depth at most d0) or has just been queued
        by_cases hvisd : normalizeUrl l ∈ (vis ++ [(normalizeUrl u0, d0)]).map Prod.fst
        · obtain ⟨p, hp, hpe⟩ := List.mem_map.mp hvisd
          have hdp : p.2 ≤ d0 := by
            rcases List.mem_append.mp hp with hp' | hp'
            · exact (hinv.2.2.1 p.2 (List.mem_map.mpr ⟨p, hp', rfl⟩) d0 (by simp))
            · simp only [List.mem_singleton] at hp'
              rw [hp']
          have hpvis : p ∈ crawlLoop L O false md pl
              (rest ++ crawlPushes L O false md (normalizeUrl u0) d0
                (vis ++ [(normalizeUrl u0, d0)]))
              (vis ++ [(normalizeUrl u0, d0)]) :=
            (crawl_grows L O false md pl _ _).sublist.subset hp
          refine ⟨p.2, by omega, ?_⟩
          have hpp : p = (normalizeUrl l, p.2) := by
            rw [← hpe]
          rw [← hpp]
          exact hpvis
        · have hpush : (normalizeUrl l, d0 + 1) ∈
              crawlPushes L O false md (normalizeUrl u0) d0
                (vis ++ [(normalizeUrl u0, d0)]) := by
            simp only [crawlPushes, Bool.not_false, Bool.true_and]
            rw [if_pos (by simpa using hd)]
            refine List.mem_map.mpr ⟨normalizeUrl l, ?_, rfl⟩
            refine List.mem_filter.mpr ⟨List.mem_map.mpr ⟨l, hl, rfl⟩, ?_⟩
            simp only [Bool.and_eq_true, decide_eq_true_eq]
            exact ⟨ho, hvisd⟩
          exact crawl_min L O false md pl _ _ hinv' hlen (normalizeUrl l)
            (d0 + 1) (List.mem_append_right rest hpush) (by omega) |>.imp
            (fun d' hh => ⟨hh.1, by
              rw [normalizeUrl_idem] at hh
              exact hh.2⟩)
      · have hnm' : (u, d) ∉ vis ++ [(normalizeUrl u0, d0)] := by
          intro hc
          rcases List.mem_append.mp hc with hc | hc
          · exact hnm hc
          · simp only [List.mem_singleton] at hc
            exact hcur hc
        exact ih hinv' hlen u d hm hnm' hd l hl ho

/- Completeness: if the crawl stops below the page cap, every normalized
URL reachable within the depth cap is visited, at a depth no larger than
its reachability depth. -/
theorem crawl_complete (L : Url → List Url) (base : Url) (md mp : Nat)
    (hlen : (crawlSite L base false md mp).length < mp) :
    ∀ u d, Reach L base.origin md base u d → d ≤ md →
      ∃ d' ≤ d, (u, d') ∈ crawlSite L base false md mp := by
  have hinv0 : crawlINV [(normalizeUrl base, 0)] [] := by
    refine ⟨by simp, by simp, by simp, ?_⟩
    intro a ha b hb
    simp only [List.map_cons, List.map_nil, List.mem_singleton] at ha hb
    omega
  have hlen' : (crawlLoop L base.origin false md mp [(normalizeUrl base, 0)] []).length < mp := by
    simpa [crawlSite] using hlen
  intro u d hr
  induction hr with
  | seed =>
      intro _
      have := crawl_min L base.origin false md mp [(normalizeUrl base, 0)] []
        hinv0 hlen' (normalizeUrl base) 0 (by simp) (by omega)
      obtain ⟨d', hd', hm⟩ := this
      rw [normalizeUrl_idem] at hm
      refine ⟨d', hd', ?_⟩
      simpa [crawlSite] using hm
  | step hr hdlt hl ho ih =>
      rename_i u1 d1 l1
      intro hdm
      obtain ⟨d', hd', hm⟩ := ih (by omega)
      have hm' : (u1, d') ∈ crawlLoop L base.origin false md mp
          [(normalizeUrl base, 0)] [] := by
        simpa [crawlSite] using hm
      have := crawl_closure L base.origin md mp [(normalizeUrl base, 0)] []
        hinv0 hlen' u1 d' hm' (List.not_mem_nil _) (by omega) l1 hl ho
      obtain ⟨d'', hd'', hm2⟩ := this
      refine ⟨d'', by omega, ?_⟩
      simpa [crawlSite] using hm2

/-- C7.  Frontier bound and order (`crawlSite`, multi-page mode): the visit
trace never repeats a normalized URL; it never exceeds `maxPagesPerSite`;
visit depths are non-decreasing (FIFO breadth-first order from the seed);
queue items beyond the depth cap are skipped, never visited or expanded;
URL normalization erases exactly the fragment and the tracking parameters
of the fixed prefix list, so URLs differing only there are one frontier
node; when the crawl stops below the page cap it is exhaustive (every URL
reachable within the depth cap is visited, at minimal-or-better depth), so
a link graph with more (depth-capped) reachable pages than the cap yields
exactly `maxPagesPerSite` visits. -/
theorem C7_frontier (links : Url → List Url) (base : Url)
    (maxDepth maxPages : Nat) :
    (((crawlSite links base false maxDepth maxPages).map Prod.fst).Nodup) ∧
    ((crawlSite links base false maxDepth maxPages).length ≤ maxPages) ∧
    (((crawlSite links base false maxDepth maxPages).map Prod.snd).Pairwise (· ≤ ·)) ∧
    (∀ p ∈ crawlSite links base false maxDepth maxPages, p.2 ≤ maxDepth) ∧
    (∀ (u : Url) (f : String), normalizeUrl { u with frag := f } = normalizeUrl u) ∧
    (∀ (u : Url) (k : String) (v : String) (ps1 ps2 : List (String × String)),
      droppedKey k = true →
      normalizeUrl { u with params := ps1 ++ (k, v) :: ps2 } =
        normalizeUrl { u with params := ps1 ++ ps2 }) ∧
    ((crawlSite links base false maxDepth maxPages).length < maxPages →
      ∀ u d, Reach links base.origin maxDepth base u d → d ≤ maxDepth →
        ∃ d' ≤ d, (u, d') ∈ crawlSite links base false maxDepth maxPages) ∧
    (∀ R : List Url, R.Nodup →
      (∀ u ∈ R, ∃ d, d ≤ maxDepth ∧ Reach links base.origin maxDepth base u d) →
      maxPages < R.length →
      (crawlSite links base false maxDepth maxPages).length = maxPages) := by
  have hinv0 : crawlINV [(normalizeUrl base, 0)] [] := by
    refine ⟨by simp, by simp, by simp, ?_⟩
    intro a ha b hb
    simp only [List.map_cons, List.map_nil, List.mem_singleton] at ha hb
    omega
  have hbound : (crawlSite links base false maxDepth maxPages).length ≤ maxPages :=
    crawl_bound links base.origin false maxDepth maxPages
      [(normalizeUrl base, 0)] [] (by simp)
  have hcomp : (crawlSite links base false maxDepth maxPages).length < maxPages →
      ∀ u d, Reach links base.origin maxDepth base u d → d ≤ maxDepth →
        ∃ d' ≤ d, (u, d') ∈ crawlSite links base false maxDepth maxPages :=
    fun hlen u d hr hd => crawl_complete links base maxDepth maxPages hlen u d hr hd
  refine ⟨?_, hbound, ?_, ?_, ?_, ?_, hcomp, ?_⟩
  · exact crawl_nodup links base.origin false maxDepth maxPages
      [(normalizeUrl base, 0)] [] (by simp)
  · exact crawl_sorted links base.origin false maxDepth maxPages
      [(normalizeUrl base, 0)] [] hinv0
  · exact crawl_depthcap links base.origin false maxDepth maxPages
      [(normalizeUrl base, 0)] [] (by simp)
  · intro u f
    rfl
  · intro u k v ps1 ps2 hk
    simp [normalizeUrl, List.filter_append, hk]
  · intro R hnd hres hcard
    rcases Nat.lt_or_ge (crawlSite links base false maxDepth maxPages).length
      maxPages with hlt | hge
    · exfalso
      have hsub : R ⊆ (crawlSite links base false maxDepth maxPages).map Prod.fst := by
        intro u hu
        obtain ⟨d, hd, hr⟩ := hres u hu
        obtain ⟨d', _, hm⟩ := hcomp hlt u d hr hd
        exact List.mem_map.mpr ⟨(u, d'), hm, rfl⟩
      have := (hnd.subperm hsub).length_le
      rw [List.length_map] at this
      omega
    · omega

def wUrl (p : String) : Url := ⟨"https://e.com", p, [], ""⟩

/-- A five-page site: `/` links to `/a`, `/b`; `/a` to `/c`; `/b` to `/d`. -/
def wLinks (u : Url) : List Url :=
  if u.path = "/" then [wUrl "/a", wUrl "/b"]
  else if u.path = "/a" then [wUrl "/c"]
  else if u.path = "/b" then [wUrl "/d"]
  else []

/-- C7 witness: the synthetic five-page site with `maxPagesPerSite = 3`
visits exactly three pages. -/
theorem C7_witness : (crawlSite wLinks (wUrl "/") false 10 3).length = 3 :=
  (C7_frontier wLinks (wUrl "/") 10 3).2.2.2.2.2.2.2
    [wUrl "/", wUrl "/a", wUrl "/b", wUrl "/c", wUrl "/d"] (by decide)
    (by
      intro u hu
      simp only [List.mem_cons, List.not_mem_nil, or_false] at hu
      rcases hu with rfl | rfl | rfl | rfl | rfl
      · exact ⟨0, by omega, Reach.seed⟩
      · exact ⟨1, by omega,
          @Reach.step wLinks "https://e.com" 10 (wUrl "/") (wUrl "/") 0
            (wUrl "/a") Reach.seed (by omega) (by decide) (by decide)⟩
      · exact ⟨1, by omega,
          @Reach.step wLinks "https://e.com" 10 (wUrl "/") (wUrl "/") 0
            (wUrl "/b") Reach.seed (by omega) (by decide) (by decide)⟩
      · exact ⟨2, by omega,
          @Reach.step wLinks "https://e.com" 10 (wUrl "/") (wUrl "/a") 1
            (wUrl "/c")
            (@Reach.step wLinks "https://e.com" 10 (wUrl "/") (wUrl "/") 0
              (wUrl "/a") Reach.seed (by omega) (by decide) (by decide))
            (by omega) (by decide) (by decide)⟩
      · exact ⟨2, by omega,
          @Reach.step wLinks "https://e.com" 10 (wUrl "/") (wUrl "/b") 1
            (wUrl "/d")
            (@Reach.step wLinks "https://e.com" 10 (wUrl "/") (wUrl "/") 0
              (wUrl "/b") Reach.seed (by omega) (by decide) (by decide))
            (by omega) (by decide) (by decide)⟩)
    (by decide)

/-! ## C8: schema validation gate (worker cg-0.5, src/unnamed/part_001)

The AJV validator is an oracle: absent when validation is disabled or the
schema failed to load (`validateEnvelope` falsy), otherwise a function
returning the valid flag and the `errors` property (`null` or a list). -/

def errsOf : Option (List Json) → List Json
  | some es => es
  | none => []

/-- `envelope["agentnet:report"].schemaErrors = errors` (the report an
envelope built by `buildEnvelope` carries is always an object). -/
def setReportSchemaErrors (env : List (String × Json)) (errs : List Json) :
    List (String × Json) :=
  match getKey env "agentnet:report" with
  | some (.obj rfs) =>
      setKey env "agentnet:report" (.obj (setKey rfs "schemaErrors" (.arr errs)))
  | _ => env

structure CommitResult where
  status : String
  envelope : List (String × Json)
  schemaErrors : Nat
  inserted : Nat
  rejected : Nat

/-- The validation gate plus the unconditional `insertCapsule` of the cg-0.5
worker: compute the status, attach violations to the report, bump the
`schemaErrors` counter, and persist the (possibly annotated) envelope with
that status; `counter` is `siteStats.schemaErrors` before the page. -/
def commitEnvelope (validator : Option (List (String × Json) → Bool × Option (List Json)))
    (env : List (String × Json)) (counter : Nat) : CommitResult :=
  let sec : String × List (String × Json) × Nat :=
    match validator with
    | none => ("ok", env, counter)
    | some vf =>
        let r := vf env
        if r.1 then ("ok", env, counter)
        else
          ("needs_review", setReportSchemaErrors env (errsOf r.2),
           counter + (errsOf r.2).length)
  ⟨sec.1, sec.2.1, sec.2.2,
   if sec.1 = "ok" then 1 else 0, if sec.1 = "ok" then 0 else 1⟩

/-- C8.  Validation gate: the persisted status is always `ok` or
`needs_review` — never `error`; when the enabled validator rejects the
envelope, the status is `needs_review`, the violation list (the validator's
`errors`, `[]` when null) is attached to the envelope's report as
`schemaErrors`, the schema-error counter is incremented by the violation
count, and the envelope is still the one persisted (`insertCapsule` is
unconditional — it counts as `rejected`, not dropped). -/
theorem C8_validation_gate
    (validator : Option (List (String × Json) → Bool × Option (List Json)))
    (env : List (String × Json)) (counter : Nat) :
    ((commitEnvelope validator env counter).status = "ok" ∨
      (commitEnvelope validator env counter).status = "needs_review") ∧
    (∀ vf, validator = some vf → (vf env).1 = false →
      (commitEnvelope validator env counter).status = "needs_review" ∧
      (commitEnvelope validator env counter).envelope =
        setReportSchemaErrors env (errsOf (vf env).2) ∧
      (commitEnvelope validator env counter).schemaErrors =
        counter + (errsOf (vf env).2).length ∧
      (commitEnvelope validator env counter).rejected = 1) ∧
    (∀ rfs errs, getKey env "agentnet:report" = some (.obj rfs) →
      getKey (setReportSchemaErrors env errs) "agentnet:report" =
        some (.obj (setKey rfs "schemaErrors" (.arr errs)))) := by
  refine ⟨?_, ?_, ?_⟩
  · rcases validator with _ | vf
    · exact Or.inl rfl
    · simp only [commitEnvelope]
      by_cases hv : (vf env).1 = true
      · rw [if_pos hv]
        exact Or.inl rfl
      · rw [if_neg hv]
        exact Or.inr rfl
  · intro vf hvf hfail
    subst hvf
    simp [commitEnvelope, hfail]
  · intro rfs errs hrep
    simp only [setReportSchemaErrors, hrep]
    exact getKey_setKey_self env "agentnet:report" _

/-- An always-failing validator reporting one violation. -/
def failingValidator : List (String × Json) → Bool × Option (List Json) :=
  fun _ => (false, some [.str "must have required property agentnet:name"])

/-- A minimal envelope with an (empty) report object. -/
def c8Env : List (String × Json) :=
  [("@type", .str "agentnet:Capsule"), ("agentnet:report", .obj [])]

/-- C8 witness: an envelope failing validation is persisted with status
`needs_review`, its report carries the violation, and the counter went up
by one. -/
theorem C8_witness :
    (commitEnvelope (some failingValidator) c8Env 2).status = "needs_review" ∧
    (commitEnvelope (some failingValidator) c8Env 2).schemaErrors = 3 ∧
    (commitEnvelope (some failingValidator) c8Env 2).envelope =
      [("@type", .str "agentnet:Capsule"),
       ("agentnet:report", .obj [("schemaErrors",
         .arr [.str "must have required property agentnet:name"])])] ∧
    (commitEnvelope (some failingValidator) c8Env 2).rejected = 1 :=
  ⟨((C8_validation_gate (some failingValidator) c8Env 2).2.1 failingValidator
      rfl rfl).1,
   ((C8_validation_gate (some failingValidator) c8Env 2).2.1 failingValidator
      rfl rfl).2.2.1,
   ((C8_validation_gate (some failingValidator) c8Env 2).2.1 failingValidator
      rfl rfl).2.1.trans rfl,
   ((C8_validation_gate (some failingValidator) c8Env 2).2.1 failingValidator
      rfl rfl).2.2.2⟩

/-! ## C9: run manifest on job exit paths (worker handler, src/src/worker.js)

The handler's fallible operations are oracles (`Except`-valued); the model
returns the manifest events (attempt / completed write, with the manifest's
error entries as `(message, fatal)` pairs) and the handler outcome.  The
browser launch and `newContext` happen **before** the `try`, and the catch
block's `browser.close()` precedes the fatal manifest write. -/

inductive JobEvent where
  | manifestAttempt (errors : List (String × Bool))
  | manifestWritten (errors : List (String × Bool))
deriving DecidableEq

structure JobEnv where
  launch : Except String Unit
  newCtx : Except String Unit
  upsert : Except String Unit
  crawl : Except String Unit
  closeTry : Except String Unit
  closeCatch : Except String Unit
  writeMain : Except String Unit
  writeFatal : Except String Unit
  pageErrors : List (String × Bool)

/-- The catch block: close the browser (a failure here propagates
*instead of* the original error, skipping the manifest), push the fatal
entry, attempt the manifest write (its own failure swallowed), re-raise. -/
def catchPath (e : JobEnv) (m : String) (pre : List JobEvent) :
    List JobEvent × Except String Unit :=
  match e.closeCatch with
  | .error m2 => (pre, .error m2)
  | .ok _ =>
      let errs := e.pageErrors ++ [(m, true)]
      match e.writeFatal with
      | .ok _ =>
          (pre ++ [.manifestAttempt errs, .manifestWritten errs], .error m)
      | .error _ => (pre ++ [.manifestAttempt errs], .error m)

/-- The BullMQ job handler (worker.js): launch and context outside the
`try`; on the success path crawl, close, then write the manifest; on any
`try` failure the catch writes the fatal manifest and re-raises. -/
def jobHandler (e : JobEnv) : List JobEvent × Except String Unit :=
  match e.launch with
  | .error m => ([], .error m)
  | .ok _ =>
  match e.newCtx with
  | .error m => ([], .error m)
  | .ok _ =>
      let tryResult : Except String Unit :=
        match e.upsert with
        | .error m => .error m
        | .ok _ =>
            match e.crawl with
            | .error m => .error m
            | .ok _ => e.closeTry
      match tryResult with
      | .ok _ =>
          match e.writeMain with
          | .ok _ =>
              ([.manifestAttempt e.pageErrors, .manifestWritten e.pageErrors],
               .ok ())
          | .error m => catchPath e m [.manifestAttempt e.pageErrors]
      | .error m => catchPath e m []

/-- C9, amended.  Provided the browser launch and context creation succeed
and the catch block's `browser.close()` does not itself throw, every job
execution attempts a manifest write; a failing job attempts a fatal
manifest containing the fatal error entry before the error is re-raised;
and a clean success writes the manifest exactly once.  (A failed
success-path write leads to a second, fatal-path attempt, so "exactly one
attempt" holds only for clean successes and clean failures.) -/
theorem C9_manifest_paths (e : JobEnv)
    (hl : e.launch = .ok ()) (hc : e.newCtx = .ok ())
    (hcc : e.closeCatch = .ok ()) :
    (∃ errs, JobEvent.manifestAttempt errs ∈ (jobHandler e).1) ∧
    (∀ m, (jobHandler e).2 = .error m →
      JobEvent.manifestAttempt (e.pageErrors ++ [(m, true)]) ∈ (jobHandler e).1) ∧
    ((jobHandler e).2 = .ok () →
      (jobHandler e).1 = [JobEvent.manifestAttempt e.pageErrors,
        JobEvent.manifestWritten e.pageErrors]) := by
  obtain ⟨l, nc, up, cr, ct, cc, wm, wf, pe⟩ := e
  simp only at hl hc hcc
  subst hl
  subst hc
  subst hcc
  rcases up with m1 | u1
  · rcases wf with m4 | u4 <;>
      refine ⟨⟨pe ++ [(m1, true)], by simp [jobHandler, catchPath]⟩, ?_, ?_⟩ <;>
      simp only [jobHandler, catchPath] <;>
      first
        | (intro m hm; cases hm; simp)
        | (intro m hm; simp at hm)
        | (intro hok; exact hok.elim)
        | (intro hok; simp at hok)
  · cases u1
    rcases cr with m2 | u2
    · rcases wf with m4 | u4 <;>
        refine ⟨⟨pe ++ [(m2, true)], by simp [jobHandler, catchPath]⟩, ?_, ?_⟩ <;>
        simp only [jobHandler, catchPath] <;>
        first
          | (intro m hm; cases hm; simp)
          | (intro m hm; simp at hm)
          | (intro hok; exact hok.elim)
          | (intro hok; simp at hok)
    · cases u2
      rcases ct with m3 | u3
      · rcases wf with m4 | u4 <;>
          refine ⟨⟨pe ++ [(m3, true)], by simp [jobHandler, catchPath]⟩, ?_, ?_⟩ <;>
          simp only [jobHandler, catchPath] <;>
          first
            | (intro m hm; cases hm; simp)
            | (intro m hm; simp at hm)
            | (intro hok; exact hok.elim)
            | (intro hok; simp at hok)
      · cases u3
        rcases wm with m5 | u5
        · rcases wf with m4 | u4 <;>
            refine ⟨⟨pe ++ [(m5, true)], by simp [jobHandler, catchPath]⟩, ?_, ?_⟩ <;>
            simp only [jobHandler, catchPath] <;>
            first
              | (intro m hm; cases hm; simp)
              | (intro m hm; simp at hm)
              | (intro hok; exact hok.elim)
              | (intro hok; simp at hok)
        · cases u5
          refine ⟨⟨pe, by simp [jobHandler]⟩, ?_, ?_⟩
          · intro m hm
            simp only [jobHandler] at hm
            exact Except.noConfusion hm
          · intro _
            simp [jobHandler]

/-- C9, counterexample.  As stated ("no job execution, including a failed
one, ends without a manifest write having been attempted") the claim is
false: the browser launch happens before the `try`, so a launch failure
ends the job with no manifest attempt at all (likewise a `newContext`
failure, and a throwing `browser.close()` inside the catch). -/
theorem C9_counterexample :
    ¬ (∀ e : JobEnv, ∃ errs,
        JobEvent.manifestAttempt errs ∈ (jobHandler e).1) := by
  intro H
  obtain ⟨errs, h⟩ := H ⟨.error "browser launch failed", .ok (), .ok (), .ok (),
    .ok (), .ok (), .ok (), .ok (), []⟩
  simp [jobHandler] at h

/-- A job whose crawl throws; everything else is healthy. -/
def c9Env : JobEnv :=
  ⟨.ok (), .ok (), .ok (), .error "net::ERR_TIMED_OUT", .ok (), .ok (),
   .ok (), .ok (), []⟩

/-- C9 witness: the failing crawl re-raises its error, and the fatal
manifest containing the fatal entry was attempted (and written) first. -/
theorem C9_witness :
    (jobHandler c9Env).2 = .error "net::ERR_TIMED_OUT" ∧
    JobEvent.manifestAttempt [("net::ERR_TIMED_OUT", true)] ∈ (jobHandler c9Env).1 :=
  ⟨rfl, (C9_manifest_paths c9Env rfl rfl rfl).2.1 "net::ERR_TIMED_OUT" rfl⟩

end Capsulizer
